import Mathlib

/-!
# Verification of the python-layers repository

Shallow embedding of the FoundationDB layer library (`src/lib/rankedset.py`,
`src/fdb_layers/scoredset.py`, `src/lib/priorityqueue.py`,
`src/fdb_layers/stringintern.py`, `src/lib/directory.py`).

The ordered transactional key-value store is modelled per component as sorted
association lists; each transactional operation becomes a pure function from
store state to store state.  Keys of the RankedSet are byte strings ordered
lexicographically with the empty string `""` as the reserved sentinel; we model
the key space as an arbitrary linear order `A` with a bottom element `⊥`
standing for `""` (byte strings with `""`, and the integer scores used by
ScoredSet, whose fdb-tuple encoding sorts the empty string below every
integer, are both instances).  Counts are little-endian signed 64-bit in the
store; they are bounded by the set size, so we model them as `Int` (wraparound
at 2^63 is unreachable for any realizable set).  Python's `hash` is modelled
as an arbitrary function `hash : A → Nat`; only its value modulo powers of two
is ever used, which agrees with the two's-complement masking `hash(key) & m`
performed by the source.
-/

set_option maxHeartbeats 1000000
set_option linter.unusedSectionVars false
set_option linter.unusedVariables false

namespace PyLayers

/-! ## Sorted association lists: the per-level key-value store primitives -/

section AssocStore

variable {A : Type} {B : Type} [LinearOrder A]

/-- Point read `tr[k]`. -/
def lookupA : List (A × B) → A → Option B
  | [], _ => none
  | p :: t, x => if x = p.1 then some p.2 else lookupA t x

/-- Point write `tr[k] = v` (insert or overwrite, keeping the list sorted). -/
def setA : List (A × B) → A → B → List (A × B)
  | [], x, v => [(x, v)]
  | p :: t, x, v =>
    if x < p.1 then (x, v) :: p :: t
    else if x = p.1 then (x, v) :: t
    else p :: setA t x v

/-- Point delete `del tr[k]`. -/
def delA : List (A × B) → A → List (A × B)
  | [], _ => []
  | p :: t, x => if x = p.1 then t else p :: delA t x

/-- FDB atomic add `tr.add(k, encodeCount d)`: adds to the little-endian
integer; when the key is absent the parameter itself is stored. -/
def addL : List (A × Int) → A → Int → List (A × Int) := fun l x d =>
  match lookupA l x with
  | some c => setA l x (c + d)
  | none => setA l x d

/-- Key ordering of entries. -/
def entLT (p q : A × B) : Prop := p.1 < q.1

instance : DecidableRel (entLT : A × B → A × B → Prop) := by
  intro p q
  unfold entLT
  infer_instance

/-- Sorted store contents: entries strictly increasing by key. -/
def SortedKeys (l : List (A × B)) : Prop := (l.map Prod.fst).Sorted (· < ·)

theorem sortedKeys_nil : SortedKeys ([] : List (A × B)) := List.sorted_nil

theorem sortedKeys_cons {p : A × B} {t : List (A × B)} :
    SortedKeys (p :: t) ↔ (∀ q ∈ t, p.1 < q.1) ∧ SortedKeys t := by
  unfold SortedKeys
  simp only [List.map_cons, List.sorted_cons, List.mem_map]
  constructor
  · rintro ⟨h1, h2⟩
    exact ⟨fun q hq => h1 _ ⟨q, hq, rfl⟩, h2⟩
  · rintro ⟨h1, h2⟩
    exact ⟨by rintro b ⟨q, hq, rfl⟩; exact h1 q hq, h2⟩

theorem lookupA_eq_none {l : List (A × B)} {x : A} :
    lookupA l x = none ↔ x ∉ l.map Prod.fst := by
  induction l with
  | nil => simp [lookupA]
  | cons p t ih =>
    simp only [lookupA, List.map_cons, List.mem_cons]
    by_cases h : x = p.1 <;> simp [h, ih]

theorem lookupA_isSome {l : List (A × B)} {x : A} :
    (lookupA l x).isSome = true ↔ x ∈ l.map Prod.fst := by
  rw [← Decidable.not_iff_not, Option.not_isSome_iff_eq_none, lookupA_eq_none]

/-- Looking up in the graph of a function. -/
theorem lookupA_map_graph {ks : List A} {f : A → B} {x : A} :
    lookupA (ks.map (fun k => (k, f k))) x
      = if x ∈ ks then some (f x) else none := by
  induction ks with
  | nil => simp [lookupA]
  | cons k t ih =>
    simp only [List.map_cons, lookupA, List.mem_cons]
    by_cases h : x = k
    · subst h; simp
    · simp [h, ih]

/-- Deleting from the graph of a function (distinct keys). -/
theorem delA_map_graph {ks : List A} {f : A → B} {x : A} (hnd : ks.Nodup) :
    delA (ks.map (fun k => (k, f k))) x
      = (ks.filter (fun k => decide (k ≠ x))).map (fun k => (k, f k)) := by
  induction ks with
  | nil => simp [delA]
  | cons k t ih =>
    simp only [List.nodup_cons] at hnd
    by_cases h : x = k
    · subst h
      have hf : List.filter (fun a => decide (a ≠ x)) (x :: t) = t := by
        rw [List.filter_cons_of_neg (by simp)]
        apply List.filter_eq_self.2
        intro a ha
        simp only [decide_eq_true_eq]
        exact fun hax => hnd.1 (hax ▸ ha)
      rw [hf, List.map_cons]
      show delA ((x, f x) :: t.map (fun k => (k, f k))) x = t.map (fun k => (k, f k))
      simp [delA]
    · have hf : List.filter (fun a => decide (a ≠ x)) (k :: t)
          = k :: List.filter (fun a => decide (a ≠ x)) t := by
        rw [List.filter_cons_of_pos (by simp [Ne.symm h])]
      rw [hf, List.map_cons, List.map_cons]
      show delA ((k, f k) :: t.map (fun k => (k, f k))) x = _
      simp only [delA, if_neg h]
      rw [ih hnd.2]

theorem lookupA_setA {l : List (A × B)} {x y : A} {v : B} :
    lookupA (setA l x v) y = if y = x then some v else lookupA l y := by
  induction l with
  | nil => by_cases h : y = x <;> simp [setA, lookupA, h]
  | cons p t ih =>
    simp only [setA]
    by_cases h1 : x < p.1
    · rw [if_pos h1]
      simp [lookupA]
    · by_cases h2 : x = p.1
      · simp only [if_neg h1, if_pos h2, lookupA]
        by_cases h : y = x
        · simp [h]
        · have h' : ¬ y = p.1 := h2 ▸ h
          simp [h, h']
      · simp only [if_neg h1, if_neg h2, lookupA]
        by_cases h : y = p.1
        · have hyx : ¬ y = x := fun hc => h2 (hc ▸ h)
          have hpx : ¬ p.1 = x := fun hc => h2 hc.symm
          simp [h, hyx, hpx]
        · simp [h, ih]

theorem sortedKeys_setA {l : List (A × B)} {x : A} {v : B} (h : SortedKeys l) :
    SortedKeys (setA l x v) := by
  induction l with
  | nil => simp [setA, SortedKeys]
  | cons p t ih =>
    rw [sortedKeys_cons] at h
    simp only [setA]
    by_cases h1 : x < p.1
    · rw [if_pos h1, sortedKeys_cons]
      refine ⟨?_, (sortedKeys_cons).2 h⟩
      intro q hq
      rcases List.mem_cons.1 hq with hq | hq
      · simpa [hq] using h1
      · exact lt_trans h1 (h.1 q hq)
    · by_cases h2 : x = p.1
      · rw [if_neg h1, if_pos h2, sortedKeys_cons]
        exact ⟨by simpa [h2] using h.1, h.2⟩
      · rw [if_neg h1, if_neg h2, sortedKeys_cons]
        refine ⟨?_, ih h.2⟩
        have hpx : p.1 < x := lt_of_le_of_ne (not_lt.1 h1) (fun hc => h2 hc.symm)
        intro q hq
        rcases List.mem_map.1 (List.mem_map_of_mem Prod.fst hq) with _
        -- q is in setA t x v; its key is x or a key of t
        by_cases hqx : q.1 = x
        · simpa [hqx] using hpx
        · have : q.1 ∈ (setA t x v).map Prod.fst := List.mem_map_of_mem Prod.fst hq
          have hl : lookupA (setA t x v) q.1 ≠ none := by
            rw [Ne, lookupA_eq_none]
            simpa using this
          rw [lookupA_setA, if_neg hqx, Ne, lookupA_eq_none] at hl
          have : q.1 ∈ t.map Prod.fst := by simpa using hl
          rcases List.mem_map.1 this with ⟨q', hq', hq'e⟩
          exact hq'e ▸ h.1 q' hq'

theorem lookupA_delA {l : List (A × B)} {x y : A} (h : SortedKeys l) :
    lookupA (delA l x) y = if y = x then none else lookupA l y := by
  induction l with
  | nil => by_cases h1 : y = x <;> simp [delA, lookupA, h1]
  | cons p t ih =>
    rw [sortedKeys_cons] at h
    simp only [delA]
    by_cases h1 : x = p.1
    · rw [if_pos h1]
      by_cases h2 : y = x
      · rw [if_pos h2]
        apply lookupA_eq_none.2
        intro hc
        rcases List.mem_map.1 hc with ⟨q, hq, hqe⟩
        exact absurd (h1 ▸ h2 ▸ hqe : q.1 = p.1) (ne_of_gt (h.1 q hq))
      · have h2' : ¬ y = p.1 := h1 ▸ h2
        rw [if_neg h2]
        simp [lookupA, h2']
    · rw [if_neg h1]
      by_cases h2 : y = p.1
      · have hyx : ¬ y = x := fun hc => h1 (hc ▸ h2)
        have hpx : ¬ p.1 = x := fun hc => h1 hc.symm
        simp [lookupA, h2, hyx, hpx]
      · simp [lookupA, h2, ih h.2]

theorem sortedKeys_delA {l : List (A × B)} {x : A} (h : SortedKeys l) :
    SortedKeys (delA l x) := by
  induction l with
  | nil => simpa [delA] using h
  | cons p t ih =>
    rw [sortedKeys_cons] at h
    simp only [delA]
    by_cases h1 : x = p.1
    · simpa [h1] using h.2
    · rw [if_neg h1, sortedKeys_cons]
      refine ⟨?_, ih h.2⟩
      intro q hq
      have : q.1 ∈ (delA t x).map Prod.fst := List.mem_map_of_mem Prod.fst hq
      by_cases hqx : q.1 = x
      · exfalso
        have hl : lookupA (delA t x) q.1 ≠ none := by
          rw [Ne, lookupA_eq_none]; simpa using this
        rw [lookupA_delA h.2, if_pos hqx] at hl
        exact hl rfl
      · have hl : lookupA (delA t x) q.1 ≠ none := by
          rw [Ne, lookupA_eq_none]; simpa using this
        rw [lookupA_delA h.2, if_neg hqx, Ne, lookupA_eq_none] at hl
        have : q.1 ∈ t.map Prod.fst := by simpa using hl
        rcases List.mem_map.1 this with ⟨q', hq', hq'e⟩
        exact hq'e ▸ h.1 q' hq'

theorem lookupA_addL {l : List (A × Int)} {x y : A} {d : Int} :
    lookupA (addL l x d) y
      = if y = x then some ((lookupA l x).getD 0 + d) else lookupA l y := by
  unfold addL
  cases h : lookupA l x with
  | none => rw [lookupA_setA]; simp [h]
  | some c => rw [lookupA_setA]; simp [h]

theorem sortedKeys_addL {l : List (A × Int)} {x : A} {d : Int} (h : SortedKeys l) :
    SortedKeys (addL l x d) := by
  unfold addL
  cases lookupA l x <;> exact sortedKeys_setA h

/-- Two sorted stores with the same point reads are equal. -/
theorem lookupA_ext {l1 l2 : List (A × B)} (h1 : SortedKeys l1) (h2 : SortedKeys l2)
    (h : ∀ x, lookupA l1 x = lookupA l2 x) : l1 = l2 := by
  induction l1 generalizing l2 with
  | nil =>
    cases l2 with
    | nil => rfl
    | cons q t2 =>
      exfalso
      have := h q.1
      simp [lookupA] at this
  | cons p t1 ih =>
    cases l2 with
    | nil =>
      exfalso
      have := h p.1
      simp [lookupA] at this
    | cons q t2 =>
      rw [sortedKeys_cons] at h1 h2
      have hpq : p = q := by
        have hp := h p.1
        have hq := h q.1
        simp only [lookupA, if_pos rfl] at hp hq
        by_cases he : p.1 = q.1
        · rw [if_pos he] at hp
          have : p.2 = q.2 := by injection hp
          exact Prod.ext he this
        · rw [if_neg he] at hp
          rw [if_neg (Ne.symm he)] at hq
          rcases lt_or_gt_of_ne he with hlt | hlt
          · exfalso
            have : lookupA t2 p.1 = none := by
              rw [lookupA_eq_none]
              intro hc
              rcases List.mem_map.1 hc with ⟨r, hr, hre⟩
              exact absurd (hre ▸ h2.1 r hr) (not_lt.2 (le_of_lt hlt))
            rw [this] at hp
            exact Option.noConfusion hp
          · exfalso
            have : lookupA t1 q.1 = none := by
              rw [lookupA_eq_none]
              intro hc
              rcases List.mem_map.1 hc with ⟨r, hr, hre⟩
              exact absurd (hre ▸ h1.1 r hr) (not_lt.2 (le_of_lt hlt))
            rw [this] at hq
            exact Option.noConfusion hq
      subst hpq
      congr 1
      refine ih h1.2 h2.2 (fun x => ?_)
      by_cases hx : x = p.1
      · subst hx
        rw [(lookupA_eq_none).2, (lookupA_eq_none).2]
        · intro hc
          rcases List.mem_map.1 hc with ⟨r, hr, hre⟩
          exact absurd (hre ▸ h2.1 r hr) (lt_irrefl _)
        · intro hc
          rcases List.mem_map.1 hc with ⟨r, hr, hre⟩
          exact absurd (hre ▸ h1.1 r hr) (lt_irrefl _)
      · have := h x
        simpa [lookupA, hx] using this

end AssocStore

/-! ## Sorted lists of keys: helper operations and facts -/

section SortedHelpers

variable {A : Type} [LinearOrder A]

/-- Insertion into a sorted list (the abstract effect of adding a member). -/
def insSorted (k : A) : List A → List A
  | [] => [k]
  | m :: t => if k < m then k :: m :: t else m :: insSorted k t

/-- Removal from a sorted list (the abstract effect of erasing a member). -/
def remSorted (k : A) (M : List A) : List A := M.filter (fun m => decide (m ≠ k))

theorem insSorted_perm (k : A) (M : List A) : List.Perm (insSorted k M) (k :: M) := by
  induction M with
  | nil => rfl
  | cons m t ih =>
    simp only [insSorted]
    by_cases h : k < m
    · rw [if_pos h]
    · rw [if_neg h]
      exact (ih.cons m).trans (List.Perm.swap k m t)

theorem mem_insSorted {k x : A} {M : List A} :
    x ∈ insSorted k M ↔ x = k ∨ x ∈ M := by
  rw [(insSorted_perm k M).mem_iff, List.mem_cons]

theorem countP_insSorted (k : A) (M : List A) (p : A → Bool) :
    (insSorted k M).countP p = M.countP p + if p k then 1 else 0 := by
  rw [(insSorted_perm k M).countP_eq, List.countP_cons]

theorem length_insSorted (k : A) (M : List A) :
    (insSorted k M).length = M.length + 1 := by
  rw [(insSorted_perm k M).length_eq, List.length_cons]

theorem insSorted_sorted {k : A} {M : List A} (hM : M.Sorted (· < ·)) (hk : k ∉ M) :
    (insSorted k M).Sorted (· < ·) := by
  induction M with
  | nil => simp [insSorted]
  | cons m t ih =>
    rw [List.sorted_cons] at hM
    simp only [insSorted]
    by_cases h : k < m
    · rw [if_pos h, List.sorted_cons]
      refine ⟨?_, List.sorted_cons.2 hM⟩
      intro b hb
      rcases List.mem_cons.1 hb with hb | hb
      · exact hb ▸ h
      · exact lt_trans h (hM.1 b hb)
    · rw [if_neg h, List.sorted_cons]
      have hkm : m < k := by
        rcases lt_trichotomy k m with hc | hc | hc
        · exact absurd hc h
        · exact absurd (hc ▸ List.mem_cons_self m t) hk
        · exact hc
      refine ⟨?_, ih hM.2 (fun hc => hk (List.mem_cons_of_mem m hc))⟩
      intro b hb
      rcases mem_insSorted.1 hb with hb | hb
      · exact hb ▸ hkm
      · exact hM.1 b hb

theorem sorted_nodup {M : List A} (hM : M.Sorted (· < ·)) : M.Nodup :=
  hM.imp (fun h => ne_of_lt h)

theorem remSorted_perm {k : A} {M : List A} (hnd : M.Nodup) (hk : k ∈ M) :
    List.Perm M (k :: remSorted k M) := by
  induction M with
  | nil => cases hk
  | cons m t ih =>
    simp only [List.nodup_cons] at hnd
    rcases List.mem_cons.1 hk with h | h
    · subst h
      have : remSorted k (k :: t) = t := by
        unfold remSorted
        rw [List.filter_cons_of_neg (by simp)]
        apply List.filter_eq_self.2
        intro a ha
        simp only [decide_eq_true_eq]
        exact fun hc => hnd.1 (hc ▸ ha)
      rw [this]
    · have hmk : m ≠ k := fun hc => hnd.1 (hc ▸ h)
      have : remSorted k (m :: t) = m :: remSorted k t := by
        unfold remSorted
        rw [List.filter_cons_of_pos (by simp [hmk])]
      rw [this]
      exact ((ih hnd.2 h).cons m).trans (List.Perm.swap k m (remSorted k t))

theorem mem_remSorted {k x : A} {M : List A} :
    x ∈ remSorted k M ↔ x ∈ M ∧ x ≠ k := by
  unfold remSorted
  simp [List.mem_filter]

theorem countP_remSorted {k : A} {M : List A} (hnd : M.Nodup) (hk : k ∈ M)
    (p : A → Bool) :
    M.countP p = (remSorted k M).countP p + if p k then 1 else 0 := by
  rw [(remSorted_perm hnd hk).countP_eq, List.countP_cons]

theorem remSorted_sorted {k : A} {M : List A} (hM : M.Sorted (· < ·)) :
    (remSorted k M).Sorted (· < ·) := hM.filter _

/-- A counting split: a conjunction of mutually exclusive, covering
predicates splits a `countP`. -/
theorem countP_split {A' : Type} (l : List A') (p q r : A' → Bool)
    (h : ∀ x ∈ l, (r x = true ↔ (p x = true ∨ q x = true))
        ∧ ¬(p x = true ∧ q x = true)) :
    l.countP r = l.countP p + l.countP q := by
  induction l with
  | nil => simp
  | cons a t ih =>
    have ha := h a (List.mem_cons_self a t)
    have iht := ih (fun x hx => h x (List.mem_cons_of_mem a hx))
    simp only [List.countP_cons]
    by_cases hp : p a = true
    · have hr : r a = true := ha.1.2 (Or.inl hp)
      have hq : ¬ q a = true := fun hc => ha.2 ⟨hp, hc⟩
      simp [hp, hq, hr, iht]
      omega
    · by_cases hq : q a = true
      · have hr : r a = true := ha.1.2 (Or.inr hq)
        simp [hp, hq, hr, iht]
        omega
      · have hr : ¬ r a = true := fun hc => (ha.1.1 hc).elim hp hq
        simp [hp, hq, hr, iht]

/-- The head of a sorted list is its minimum. -/
theorem sorted_head_min {l : List A} (h : l.Sorted (· < ·)) {x : A}
    (hx : l.head? = some x) : ∀ y ∈ l, x ≤ y := by
  cases l with
  | nil => cases hx
  | cons a t =>
    rw [List.head?_cons, Option.some_inj] at hx
    subst hx
    rw [List.sorted_cons] at h
    intro y hy
    rcases List.mem_cons.1 hy with hy | hy
    · exact le_of_eq hy.symm
    · exact le_of_lt (h.1 y hy)

/-- The last element of a sorted list is its maximum; `getLastD` returns the
default only for the empty list. -/
theorem sorted_getLastD {l : List A} (h : l.Sorted (· < ·)) (d : A) :
    (l = [] ∧ l.getLastD d = d)
      ∨ (l.getLastD d ∈ l ∧ ∀ y ∈ l, y ≤ l.getLastD d) := by
  induction l generalizing d with
  | nil => exact Or.inl ⟨rfl, rfl⟩
  | cons a t ih =>
    rw [List.sorted_cons] at h
    rw [List.getLastD_cons]
    rcases ih h.2 a with ⟨ht, he⟩ | ⟨hmem, hmax⟩
    · subst ht
      refine Or.inr ⟨by simp [he], ?_⟩
      intro y hy
      rcases List.mem_cons.1 hy with hy | hy
      · simp [he, hy]
      · cases hy
    · refine Or.inr ⟨List.mem_cons_of_mem a hmem, ?_⟩
      intro y hy
      rcases List.mem_cons.1 hy with hy | hy
      · rw [hy]
        exact le_of_lt (h.1 _ hmem)
      · exact hmax y hy

/-- Filters by pointwise-equivalent predicates agree. -/
theorem filter_congr_mem {A' : Type} {l : List A'} {p q : A' → Bool}
    (h : ∀ x ∈ l, p x = q x) : l.filter p = l.filter q :=
  List.filter_congr h

end SortedHelpers

/-! ## RankedSet (src/lib/rankedset.py)

One level of the skip list `(level, key) → count` is a sorted association
list; the whole store is the list of its `MAX_LEVELS` levels. -/

namespace RankedSet

def MAX_LEVELS : Nat := 6

def LEVEL_FAN_POW : Nat := 4

abbrev Level (A : Type) := List (A × Int)

abbrev RS (A : Type) := List (Level A)

section Ops

variable {A : Type} [LinearOrder A] [OrderBot A]

/-- Read the contents of one level (the key range `subspace[level]`). -/
def getLevel (s : RS A) (l : Nat) : Level A := s.getD l []

def setLevel (s : RS A) (l : Nat) (lvl : Level A) : RS A := s.set l lvl

/-- `_setup_levels`: for each level, write count 0 at the sentinel key if absent. -/
def setup_levels (s : RS A) : RS A :=
  s.map (fun lvl => if lookupA lvl (⊥ : A) = none then setA lvl ⊥ 0 else lvl)

/-- The store produced by `_setup_levels` on an empty subspace. -/
def initRS : RS A := setup_levels (List.replicate MAX_LEVELS ([] : Level A))

/-- `clear_all`: range-delete the whole subspace, then `_setup_levels`. -/
def clear_all (s : RS A) : RS A := setup_levels (s.map (fun _ => ([] : Level A)))

/-- `contains`: presence of `(0, key)`.  (The source raises on `key = ""`;
callers in this file only consult it away from the sentinel.) -/
def contains (s : RS A) (k : A) : Bool := (lookupA (getLevel s 0) k).isSome

/-- `_get_previous_node`: the snapshot read of the last store row before
`(level, key)`.  On the sorted level list this is the greatest entry key
`< key`; the default is only reached when the level has no entry below `key`
(impossible once the sentinel row is present, as guaranteed by setup). -/
def prevNode : Level A → A → A → A
  | [], _, dflt => dflt
  | p :: t, x, dflt => if p.1 < x then prevNode t x p.1 else dflt

/-- Range read `tr[(level,a) : (level,b)]`, summing the decoded counts. -/
def rangeSum (lvl : Level A) (a b : A) : Int :=
  ((lvl.filter (fun p => decide (a ≤ p.1 ∧ p.1 < b))).map Prod.snd).sum

/-- `_slow_count`. -/
def slow_count (s : RS A) (l : Int) (a b : A) : Int :=
  if l = -1 then (if a = ⊥ then 0 else 1)
  else rangeSum (getLevel s l.toNat) a b

variable (hash : A → Nat)

/-- One iteration of the `insert` level loop. -/
def insertAtLevel (k : A) (s : RS A) (level : Nat) : RS A :=
  let lvl := getLevel s level
  let prevKey := prevNode lvl k ⊥
  if hash k % 2 ^ (level * LEVEL_FAN_POW) ≠ 0 then
    setLevel s level (addL lvl prevKey 1)
  else
    let prevCount := (lookupA lvl prevKey).getD 0
    let newPrevCount := slow_count s ((level : Int) - 1) prevKey k
    let count := prevCount - newPrevCount + 1
    setLevel s level (setA (setA lvl prevKey newPrevCount) k count)

/-- `insert`.  (`key = ""` raises in the source, leaving the transaction
uncommitted and the store unchanged, which we model as the identity.) -/
def insert (s : RS A) (k : A) : RS A :=
  if k = ⊥ then s
  else if contains s k then s
  else (List.range MAX_LEVELS).foldl (insertAtLevel hash k) s

/-- One iteration of the `erase` level loop: read the count at `(level, key)`,
delete the row if present, and for `level > 0` atomically add
`-1 + (count if present else 0)` at the previous node. -/
def eraseAtLevel (k : A) (s : RS A) (level : Nat) : RS A :=
  let lvl := getLevel s level
  let c := lookupA lvl k
  let lvl1 := match c with
    | some _ => delA lvl k
    | none => lvl
  let s1 := setLevel s level lvl1
  if level = 0 then s1
  else
    let prevKey := prevNode lvl1 k ⊥
    let countChange := -1 + (match c with | some v => v | none => 0)
    setLevel s1 level (addL lvl1 prevKey countChange)

/-- `erase`. -/
def erase (s : RS A) (k : A) : RS A :=
  if k = ⊥ then s
  else if contains s k = false then s
  else (List.range MAX_LEVELS).foldl (eraseAtLevel k) s

/-- The range scanned by one level of `rank`: keys in `[rank_key, key]`. -/
def rankScan (lvl : Level A) (low k : A) : Level A :=
  lvl.filter (fun p => decide (low ≤ p.1 ∧ p.1 ≤ k))

/-- The inner loop of one level of `rank`: walk the scanned entries keeping
`rank_key` and `lastCount`, accumulating `r += count`, and finally undo the
last count (`r -= lastCount`). -/
def rankLevelRun (es : Level A) (rk0 : A) (r0 : Int) : A × Int :=
  let t := es.foldl (fun acc p => (p.1, p.2, acc.2.2 + p.2)) (rk0, (0 : Int), r0)
  (t.1, t.2.2 - t.2.1)

/-- The level descent of `rank`, from `MAX_LEVELS - 1` down to `0`,
breaking as soon as `rank_key` lands on the key. -/
def rankAux (s : RS A) (k : A) : Nat → A → Int → Int
  | 0, rank_key, r => (rankLevelRun (rankScan (getLevel s 0) rank_key k) rank_key r).2
  | l + 1, rank_key, r =>
    let res := rankLevelRun (rankScan (getLevel s (l + 1)) rank_key k) rank_key r
    if res.1 = k then res.2 else rankAux s k l res.1 res.2

/-- `rank`.  Returns `none` when the key is not a member (the source raises
on the empty key; the result is likewise no answer, modelled as `none`). -/
def rank (s : RS A) (k : A) : Option Int :=
  if k = ⊥ then none
  else if contains s k = false then none
  else some (rankAux s k (MAX_LEVELS - 1) ⊥ 0)

/-- Result of the inner loop of one `get_nth` level: an early `return key`,
a `break` (descend at `key` with the remaining rank), or a completed walk
(the for-else `return None`). -/
inductive NthRes (A : Type) where
  | found (k : A)
  | descend (k : A) (r : Int)
  | exhausted

/-- The entries scanned by one `get_nth` level: keys `≥ key`. -/
def nthScan (lvl : Level A) (k : A) : Level A :=
  lvl.filter (fun p => decide (k ≤ p.1))

/-- The inner loop of one `get_nth` level. -/
def nthStep : Level A → Int → NthRes A
  | [], _ => .exhausted
  | p :: t, r =>
    if p.1 ≠ ⊥ ∧ r = 0 then .found p.1
    else if p.2 > r then .descend p.1 r
    else nthStep t (r - p.2)

/-- The level descent of `get_nth`.  A `break` on the last level falls off
the outer loop, returning `None`. -/
def nthAux (s : RS A) : Nat → A → Int → Option A
  | 0, key, r =>
    (match nthStep (nthScan (getLevel s 0) key) r with
     | .found k => some k
     | _ => none)
  | l + 1, key, r =>
    (match nthStep (nthScan (getLevel s (l + 1)) key) r with
     | .found k => some k
     | .exhausted => none
     | .descend k r' => nthAux s l k r')

/-- `get_nth`. -/
def get_nth (s : RS A) (r : Int) : Option A :=
  if r < 0 then none
  else nthAux s (MAX_LEVELS - 1) ⊥ r

/-- The member keys: non-sentinel keys present at level 0. -/
def membersL (s : RS A) : List A :=
  ((getLevel s 0).map Prod.fst).filter (fun x => decide (x ≠ ⊥))

/-- States reachable from `_setup_levels` by the RankedSet mutations. -/
inductive Reachable : RS A → Prop where
  | setup : Reachable initRS
  | ins (s : RS A) (k : A) : Reachable s → Reachable (insert hash s k)
  | del (s : RS A) (k : A) : Reachable s → Reachable (erase s k)
  | clear (s : RS A) : Reachable s → Reachable (clear_all s)

end Ops

section Canon

variable {A : Type} [LinearOrder A] [OrderBot A] (hash : A → Nat)

/-- A key is promoted to level `l` iff the low `l * LEVEL_FAN_POW` bits of its
hash are zero. -/
def promoted (l : Nat) (k : A) : Bool := hash k % 2 ^ (l * LEVEL_FAN_POW) == 0

/-- The non-sentinel keys present at level `l` when the member set is `M`. -/
def levelKeys (M : List A) (l : Nat) : List A := M.filter (promoted hash l)

/-- The next entry key after `k` in the (sorted) entry-key list `E`. -/
def nextE (E : List A) (k : A) : Option A := (E.filter (fun e => decide (k < e))).head?

/-- The count stored at entry `k` of a level whose non-sentinel entry keys are
`E`: the number of members in the half-open span from `k` to the next entry. -/
def spanCount (M E : List A) (k : A) : Int :=
  match nextE E k with
  | none => (M.countP (fun m => decide (k ≤ m)) : Int)
  | some n => (M.countP (fun m => decide (k ≤ m ∧ m < n)) : Int)

/-- The canonical contents of level `l` for member list `M` (sorted). -/
def canonLevel (M : List A) (l : Nat) : Level A :=
  (⊥ :: levelKeys hash M l).map (fun k => (k, spanCount M (levelKeys hash M l) k))

/-- The canonical store for member list `M`: every reachable RankedSet state
is of this form. -/
def canonState (M : List A) : RS A :=
  (List.range MAX_LEVELS).map (canonLevel hash M)

end Canon

section Sanity

/-- Sanity check of the embedding on the spec scenario S2 shape: three keys
with trivial hash. -/
example :
    membersL (insert (fun _ => 1) (insert (fun _ => 1)
      (insert (fun _ => 1) (initRS : RS Nat) 2) 5) 3) = [2, 3, 5] := by decide

example :
    rank (insert (fun _ => 1) (insert (fun _ => 1)
      (insert (fun _ => 1) (initRS : RS Nat) 2) 5) 3) 3 = some 1 := by decide

example :
    get_nth (insert (fun _ => 1) (insert (fun _ => 1)
      (insert (fun _ => 1) (initRS : RS Nat) 2) 5) 3) 2 = some 5 := by decide

example :
    rank (erase (insert (fun _ => 1) (insert (fun _ => 1)
      (insert (fun _ => 1) (initRS : RS Nat) 2) 5) 3) 2) 3 = some 0 := by decide

example :
    insert (fun _ => 16) (insert (fun _ => 1)
      (insert (fun _ => 1) (initRS : RS Nat) 2) 5) 3
    = canonState (fun n => if n = 3 then 16 else 1) [2, 3, 5] := by decide

example :
    erase (insert (fun _ => 16) (insert (fun _ => 1)
      (insert (fun _ => 1) (initRS : RS Nat) 2) 5) 3) 3
    = canonState (fun n => if n = 3 then 16 else 1) [2, 5] := by decide

end Sanity

section CanonLemmas

variable {A : Type} [LinearOrder A] [OrderBot A] {hash : A → Nat} {M E : List A}

theorem head?_mem {A' : Type} {l : List A'} {x : A'} (h : l.head? = some x) : x ∈ l := by
  cases l with
  | nil => cases h
  | cons a t =>
    rw [List.head?_cons, Option.some_inj] at h
    exact h ▸ List.mem_cons_self a t

theorem promoted_zero (k : A) : promoted hash 0 k = true := by
  simp [promoted, LEVEL_FAN_POW, Nat.mod_one]

theorem levelKeys_zero : levelKeys hash M 0 = M :=
  List.filter_eq_self.2 (fun a _ => promoted_zero a)

theorem mem_levelKeys {x : A} {l : Nat} :
    x ∈ levelKeys hash M l ↔ x ∈ M ∧ promoted hash l x = true := List.mem_filter

theorem promoted_mono {l' l : Nat} (h : l' ≤ l) {k : A}
    (hp : promoted hash l k = true) : promoted hash l' k = true := by
  simp only [promoted, beq_iff_eq] at hp ⊢
  have hdvd : (2 : Nat) ^ (l' * LEVEL_FAN_POW) ∣ 2 ^ (l * LEVEL_FAN_POW) :=
    pow_dvd_pow 2 (Nat.mul_le_mul_right _ h)
  exact Nat.dvd_iff_mod_eq_zero.1 (dvd_trans hdvd (Nat.dvd_iff_mod_eq_zero.2 hp))

theorem sorted_levelKeys {l : Nat} (hM : M.Sorted (· < ·)) :
    (levelKeys hash M l).Sorted (· < ·) := hM.filter _

theorem sorted_entry (hM : M.Sorted (· < ·)) (hbot : ∀ m ∈ M, m ≠ ⊥) (l : Nat) :
    ((⊥ : A) :: levelKeys hash M l).Sorted (· < ·) := by
  rw [List.sorted_cons]
  refine ⟨?_, sorted_levelKeys hM⟩
  intro b hb
  exact Ne.bot_lt (hbot b (mem_levelKeys.1 hb).1)

theorem keys_canonLevel (l : Nat) :
    (canonLevel hash M l).map Prod.fst = ⊥ :: levelKeys hash M l := by
  unfold canonLevel
  rw [List.map_map]
  exact List.map_id' _

theorem sortedKeys_canonLevel (hM : M.Sorted (· < ·)) (hbot : ∀ m ∈ M, m ≠ ⊥)
    (l : Nat) : SortedKeys (canonLevel hash M l) := by
  unfold SortedKeys
  rw [keys_canonLevel]
  exact sorted_entry hM hbot l

theorem lookupA_canonLevel (l : Nat) (x : A) :
    lookupA (canonLevel hash M l) x
      = if x ∈ ⊥ :: levelKeys hash M l
        then some (spanCount M (levelKeys hash M l) x) else none := by
  unfold canonLevel
  exact lookupA_map_graph

theorem getLevel_canonState {l : Nat} (hl : l < MAX_LEVELS) :
    getLevel (canonState hash M) l = canonLevel hash M l := by
  have h : ((List.range MAX_LEVELS).map (canonLevel hash M))[l]?
      = some (canonLevel hash M l) := by
    rw [List.getElem?_map, List.getElem?_range hl]
    rfl
  simp [getLevel, canonState, List.getD, h]

theorem membersL_canonState (hbot : ∀ m ∈ M, m ≠ ⊥) :
    membersL (canonState hash M) = M := by
  unfold membersL
  rw [getLevel_canonState (by norm_num [MAX_LEVELS]), keys_canonLevel, levelKeys_zero,
    List.filter_cons_of_neg (by simp)]
  exact List.filter_eq_self.2 (fun a ha => by simpa using hbot a ha)

theorem contains_canonState {k : A} :
    contains (canonState hash M) k = true ↔ (k = ⊥ ∨ k ∈ M) := by
  unfold contains
  rw [getLevel_canonState (by norm_num [MAX_LEVELS]), lookupA_isSome, keys_canonLevel,
    levelKeys_zero, List.mem_cons]

theorem nextE_some (hE : E.Sorted (· < ·)) {k n : A}
    (h : nextE E k = some n) : n ∈ E ∧ k < n ∧ ∀ e ∈ E, k < e → n ≤ e := by
  unfold nextE at h
  have hmem := head?_mem h
  have hmin := sorted_head_min (hE.filter _) h
  rw [List.mem_filter] at hmem
  refine ⟨hmem.1, by simpa using hmem.2, ?_⟩
  intro e he hke
  exact hmin e (List.mem_filter.2 ⟨he, by simpa using hke⟩)

theorem nextE_eq_none {k : A} :
    nextE E k = none ↔ ∀ e ∈ E, ¬ k < e := by
  unfold nextE
  rw [List.head?_eq_none_iff, List.filter_eq_nil_iff]
  simp

theorem prevNode_eq {l : Level A} (h : SortedKeys l) (x dflt : A) :
    prevNode l x dflt
      = ((l.map Prod.fst).filter (fun k => decide (k < x))).getLastD dflt := by
  induction l generalizing dflt with
  | nil => simp [prevNode]
  | cons p t ih =>
    rw [sortedKeys_cons] at h
    by_cases hp : p.1 < x
    · have hstep : prevNode (p :: t) x dflt = prevNode t x p.1 := by
        simp [prevNode, hp]
      have hfil : ((p :: t).map Prod.fst).filter (fun k => decide (k < x))
          = p.1 :: (t.map Prod.fst).filter (fun k => decide (k < x)) := by
        simp [List.filter_cons, hp]
      rw [hstep, hfil, List.getLastD_cons]
      exact ih h.2 p.1
    · have hstep : prevNode (p :: t) x dflt = dflt := by
        simp [prevNode, hp]
      have hnil : (t.map Prod.fst).filter (fun k => decide (k < x)) = [] := by
        apply List.filter_eq_nil_iff.2
        intro a ha
        simp only [decide_eq_true_eq]
        rcases List.mem_map.1 ha with ⟨q, hq, rfl⟩
        exact fun hc => hp (lt_trans (h.1 q hq) hc)
      have hfil : ((p :: t).map Prod.fst).filter (fun k => decide (k < x)) = [] := by
        simp [List.filter_cons, hp, hnil]
      rw [hstep, hfil]
      rfl

theorem prevNode_canonLevel (hM : M.Sorted (· < ·)) (hbot : ∀ m ∈ M, m ≠ ⊥)
    (l : Nat) {x : A} (hx : x ≠ ⊥) :
    prevNode (canonLevel hash M l) x ⊥ ∈ ⊥ :: levelKeys hash M l
    ∧ prevNode (canonLevel hash M l) x ⊥ < x
    ∧ ∀ e ∈ ⊥ :: levelKeys hash M l, e < x →
        e ≤ prevNode (canonLevel hash M l) x ⊥ := by
  rw [prevNode_eq (sortedKeys_canonLevel hM hbot l), keys_canonLevel]
  have hbx : (⊥ : A) < x := Ne.bot_lt hx
  have hbotmem : (⊥ : A) ∈ (⊥ :: levelKeys hash M l).filter (fun k => decide (k < x)) :=
    List.mem_filter.2 ⟨List.mem_cons_self _ _, by simpa using hbx⟩
  rcases sorted_getLastD ((sorted_entry hM hbot l).filter _) ⊥ with ⟨hnil, _⟩ | ⟨hmem, hmax⟩
  · rw [hnil] at hbotmem
    cases hbotmem
  · rw [List.mem_filter] at hmem
    refine ⟨hmem.1, by simpa using hmem.2, ?_⟩
    intro e he hex
    exact hmax e (List.mem_filter.2 ⟨he, by simpa using hex⟩)

/-- Membership of `k` in the half-open span starting at entry `x`. -/
def inSpan (E : List A) (x k : A) : Prop :=
  x ≤ k ∧ ∀ n, nextE E x = some n → k < n

theorem spanCount_insSorted_of_inSpan {x k : A} (h : inSpan E x k) :
    spanCount (insSorted k M) E x = spanCount M E x + 1 := by
  cases hn : nextE E x with
  | none =>
    simp only [spanCount, hn]
    rw [countP_insSorted, if_pos (by simpa using h.1)]
    push_cast
    ring
  | some n =>
    simp only [spanCount, hn]
    rw [countP_insSorted, if_pos (by simpa using And.intro h.1 (h.2 n hn))]
    push_cast
    ring

theorem spanCount_insSorted_of_not_inSpan {x k : A} (h : ¬ inSpan E x k) :
    spanCount (insSorted k M) E x = spanCount M E x := by
  cases hn : nextE E x with
  | none =>
    have hxk : ¬ x ≤ k := by
      intro hc
      exact h ⟨hc, fun n hn2 => by rw [hn] at hn2; cases hn2⟩
    simp only [spanCount, hn]
    rw [countP_insSorted, if_neg (by simpa using hxk)]
    push_cast
    ring
  | some n =>
    have hcond : ¬ (x ≤ k ∧ k < n) := by
      intro hc
      exact h ⟨hc.1, fun n' hn' => by rw [hn] at hn'; injection hn' with he; exact he ▸ hc.2⟩
    simp only [spanCount, hn]
    rw [countP_insSorted, if_neg (by simpa using hcond)]
    push_cast
    ring

theorem spanCount_remSorted_of_inSpan {x k : A} (hnd : M.Nodup) (hkM : k ∈ M)
    (h : inSpan E x k) :
    spanCount (remSorted k M) E x = spanCount M E x - 1 := by
  cases hn : nextE E x with
  | none =>
    simp only [spanCount, hn]
    have := countP_remSorted hnd hkM (fun m => decide (x ≤ m))
    rw [if_pos (by simpa using h.1)] at this
    have h2 : (M.countP (fun m => decide (x ≤ m)) : Int)
        = ((remSorted k M).countP (fun m => decide (x ≤ m)) : Int) + 1 := by
      exact_mod_cast this
    omega
  | some n =>
    simp only [spanCount, hn]
    have := countP_remSorted hnd hkM (fun m => decide (x ≤ m ∧ m < n))
    rw [if_pos (by simpa using And.intro h.1 (h.2 n hn))] at this
    have h2 : (M.countP (fun m => decide (x ≤ m ∧ m < n)) : Int)
        = ((remSorted k M).countP (fun m => decide (x ≤ m ∧ m < n)) : Int) + 1 := by
      exact_mod_cast this
    omega

theorem spanCount_remSorted_of_not_inSpan {x k : A} (hnd : M.Nodup) (hkM : k ∈ M)
    (h : ¬ inSpan E x k) :
    spanCount (remSorted k M) E x = spanCount M E x := by
  cases hn : nextE E x with
  | none =>
    have hxk : ¬ x ≤ k := by
      intro hc
      exact h ⟨hc, fun n hn2 => by rw [hn] at hn2; cases hn2⟩
    simp only [spanCount, hn]
    have := countP_remSorted hnd hkM (fun m => decide (x ≤ m))
    rw [if_neg (by simpa using hxk)] at this
    have h2 : (M.countP (fun m => decide (x ≤ m)) : Int)
        = ((remSorted k M).countP (fun m => decide (x ≤ m)) : Int) := by
      exact_mod_cast this
    omega
  | some n =>
    have hcond : ¬ (x ≤ k ∧ k < n) := by
      intro hc
      exact h ⟨hc.1, fun n' hn' => by rw [hn] at hn'; injection hn' with he; exact he ▸ hc.2⟩
    simp only [spanCount, hn]
    have := countP_remSorted hnd hkM (fun m => decide (x ≤ m ∧ m < n))
    rw [if_neg (by simpa using hcond)] at this
    have h2 : (M.countP (fun m => decide (x ≤ m ∧ m < n)) : Int)
        = ((remSorted k M).countP (fun m => decide (x ≤ m ∧ m < n)) : Int) := by
      exact_mod_cast this
    omega

/-- The previous node's span is the unique span containing a key that is not
itself an entry. -/
theorem span_cover (hEs : ((⊥ : A) :: E).Sorted (· < ·)) {p k : A}
    (hp : p ∈ ⊥ :: E) (hpk : p < k) (hmax : ∀ e ∈ ⊥ :: E, e < k → e ≤ p)
    (hkE : k ∉ ⊥ :: E) :
    inSpan E p k ∧ ∀ x ∈ ⊥ :: E, x ≠ p → ¬ inSpan E x k := by
  have hEsorted : E.Sorted (· < ·) := (List.sorted_cons.1 hEs).2
  constructor
  · refine ⟨le_of_lt hpk, ?_⟩
    intro n hn
    rcases nextE_some hEsorted hn with ⟨hnE, hpn, _⟩
    rcases lt_trichotomy n k with hc | hc | hc
    · exact absurd (hmax n (List.mem_cons_of_mem _ hnE) hc) (not_le.2 hpn)
    · exact absurd (hc ▸ List.mem_cons_of_mem _ hnE) hkE
    · exact hc
  · rintro x hx hxp ⟨hxk, hcond⟩
    rcases lt_trichotomy x p with hlt | heq | hgt
    · -- x < p: the next entry after x is at most p, contradicting k < next
      have hpE : p ∈ E := by
        rcases List.mem_cons.1 hp with hc | hc
        · exact absurd (hc ▸ hlt) (not_lt.2 bot_le)
        · exact hc
      cases hn : nextE E x with
      | none => exact (nextE_eq_none.1 hn p hpE hlt).elim
      | some n =>
        rcases nextE_some hEsorted hn with ⟨_, _, hleast⟩
        have : n ≤ p := hleast p hpE hlt
        exact absurd (hcond n hn) (not_lt.2 (le_trans this (le_of_lt hpk)))
    · exact hxp heq
    · -- x > p: x cannot be below k, equal to k, or above k
      rcases lt_trichotomy x k with hc | hc | hc
      · exact absurd (hmax x hx hc) (not_le.2 hgt)
      · exact absurd (hc ▸ hx) hkE
      · exact absurd hxk (not_le.2 hc)

theorem filter_ge_lt_split {ks : List A} (hks : ks.Sorted (· < ·)) {a n₀ b : A}
    (haks : a ∈ ks) (hab : a < b) (han : a < n₀)
    (hleast : ∀ e ∈ ks, a < e → n₀ ≤ e) :
    ks.filter (fun e => decide (a ≤ e ∧ e < b))
      = a :: ks.filter (fun e => decide (n₀ ≤ e ∧ e < b)) := by
  induction ks with
  | nil => cases haks
  | cons h t ih =>
    rw [List.sorted_cons] at hks
    rcases List.mem_cons.1 haks with rfl | hha
    · rw [List.filter_cons_of_pos
          (by simp only [decide_eq_true_eq]; exact ⟨le_refl a, hab⟩),
        List.filter_cons_of_neg
          (by simp only [decide_eq_true_eq]; exact fun hc => absurd hc.1 (not_le.2 han))]
      congr 1
      apply List.filter_congr
      intro e he
      have hae : a < e := hks.1 e he
      have hne : n₀ ≤ e := hleast e (List.mem_cons_of_mem _ he) hae
      rw [decide_eq_decide]
      exact ⟨fun hc => ⟨hne, hc.2⟩, fun hc => ⟨le_of_lt hae, hc.2⟩⟩
    · have hha' : h < a := hks.1 a hha
      rw [List.filter_cons_of_neg
          (by simp only [decide_eq_true_eq]; exact fun hc => absurd hc.1 (not_le.2 hha')),
        List.filter_cons_of_neg
          (by simp only [decide_eq_true_eq]
              exact fun hc => absurd hc.1 (not_le.2 (lt_trans hha' han)))]
      exact ih hks.2 hha (fun e he hae => hleast e (List.mem_cons_of_mem _ he) hae)

theorem rangeSum_canonLevel (l : Nat) (a b : A) :
    rangeSum (canonLevel hash M l) a b
      = (((⊥ :: levelKeys hash M l).filter (fun e => decide (a ≤ e ∧ e < b))).map
          (spanCount M (levelKeys hash M l))).sum := by
  unfold rangeSum canonLevel
  rw [List.filter_map, List.map_map]
  rfl

theorem countIco_split (M : List A) {a n₀ b : A} (h1 : a ≤ n₀) (h2 : n₀ ≤ b) :
    (M.countP (fun m => decide (a ≤ m ∧ m < b)) : Int)
      = (M.countP (fun m => decide (a ≤ m ∧ m < n₀)) : Int)
        + (M.countP (fun m => decide (n₀ ≤ m ∧ m < b)) : Int) := by
  rw [← Nat.cast_add]
  congr 1
  apply countP_split
  intro x hx
  simp only [decide_eq_true_eq]
  refine ⟨⟨?_, ?_⟩, ?_⟩
  · rintro ⟨hax, hxb⟩
    rcases lt_or_le x n₀ with hc | hc
    · exact Or.inl ⟨hax, hc⟩
    · exact Or.inr ⟨hc, hxb⟩
  · rintro (⟨hax, hxn⟩ | ⟨hnx, hxb⟩)
    · exact ⟨hax, lt_of_lt_of_le hxn h2⟩
    · exact ⟨le_trans h1 hnx, hxb⟩
  · rintro ⟨⟨_, hxn⟩, ⟨hnx, _⟩⟩
    exact absurd hnx (not_le.2 hxn)

/-- Consecutive spans tile the member count between two entries. -/
theorem sum_spans (M E : List A) (hE : ((⊥ : A) :: E).Sorted (· < ·)) (a b : A)
    (ha : a ∈ ⊥ :: E) (hb : b ∈ ⊥ :: E) (hab : a ≤ b) :
    (((⊥ :: E).filter (fun e => decide (a ≤ e ∧ e < b))).map (spanCount M E)).sum
      = (M.countP (fun m => decide (a ≤ m ∧ m < b)) : Int) := by
  by_cases hlt : a < b
  · have hbbot : b ≠ ⊥ := fun hc => absurd (hc ▸ hlt) (not_lt.2 bot_le)
    have hbE : b ∈ E := by
      rcases List.mem_cons.1 hb with hc | hc
      · exact absurd hc hbbot
      · exact hc
    have hEs : E.Sorted (· < ·) := (List.sorted_cons.1 hE).2
    cases hn : nextE E a with
    | none => exact absurd hlt (nextE_eq_none.1 hn b hbE)
    | some n₀ =>
      rcases nextE_some hEs hn with ⟨hn₀E, han₀, hleast⟩
      have hn₀b : n₀ ≤ b := hleast b hbE hlt
      have hleast' : ∀ e ∈ ((⊥ : A) :: E), a < e → n₀ ≤ e := by
        intro e he hae
        rcases List.mem_cons.1 he with rfl | heE
        · exact absurd hae (not_lt.2 bot_le)
        · exact hleast e heE hae
      rw [filter_ge_lt_split hE ha hlt han₀ hleast', List.map_cons, List.sum_cons]
      have hspan : spanCount M E a
          = (M.countP (fun m => decide (a ≤ m ∧ m < n₀)) : Int) := by
        simp only [spanCount, hn]
      have hrec := sum_spans M E hE n₀ b (List.mem_cons_of_mem _ hn₀E) hb hn₀b
      rw [hspan, hrec, countIco_split M (le_of_lt han₀) hn₀b]
  · have hba : a = b := le_antisymm hab (not_lt.1 hlt)
    subst hba
    have h1 : ((⊥ :: E).filter (fun e => decide (a ≤ e ∧ e < a))) = [] := by
      apply List.filter_eq_nil_iff.2
      intro e he
      simp only [decide_eq_true_eq]
      rintro ⟨hc1, hc2⟩
      exact absurd (lt_of_le_of_lt hc1 hc2) (lt_irrefl _)
    have h2 : M.countP (fun m => decide (a ≤ m ∧ m < a)) = 0 := by
      apply List.countP_eq_zero.2
      intro m hm
      simp only [decide_eq_true_eq]
      rintro ⟨hc1, hc2⟩
      exact absurd (lt_of_le_of_lt hc1 hc2) (lt_irrefl _)
    rw [h1, h2]
    simp
termination_by (E.filter (fun e => decide (a < e))).length
decreasing_by
  simp_wf
  have hsub : E.filter (fun e => decide (n₀ < e))
      = (E.filter (fun e => decide (a < e))).filter (fun e => decide (n₀ < e)) := by
    rw [List.filter_filter]
    apply List.filter_congr
    intro e he
    by_cases hc : n₀ < e
    · simp [hc, lt_trans han₀ hc]
    · simp [hc]
  rw [hsub]
  apply List.length_filter_lt_length_iff_exists.2
  exact ⟨n₀, List.mem_filter.2 ⟨hn₀E, by simpa using han₀⟩, by simp⟩

theorem countCi_split (M : List A) {a b : A} (h : a ≤ b) :
    (M.countP (fun m => decide (a ≤ m)) : Int)
      = (M.countP (fun m => decide (a ≤ m ∧ m < b)) : Int)
        + (M.countP (fun m => decide (b ≤ m)) : Int) := by
  rw [← Nat.cast_add]
  congr 1
  apply countP_split
  intro x hx
  simp only [decide_eq_true_eq]
  refine ⟨⟨?_, ?_⟩, ?_⟩
  · intro hax
    rcases lt_or_le x b with hc | hc
    · exact Or.inl ⟨hax, hc⟩
    · exact Or.inr hc
  · rintro (⟨hax, _⟩ | hbx)
    · exact hax
    · exact le_trans h hbx
  · rintro ⟨⟨_, hxb⟩, hbx⟩
    exact absurd hbx (not_le.2 hxb)

theorem countP_eq_self_one {x : A} {M : List A} (hnd : M.Nodup) (hx : x ∈ M) :
    M.countP (fun m => decide (m = x)) = 1 := by
  induction M with
  | nil => cases hx
  | cons a t ih =>
    rw [List.nodup_cons] at hnd
    rw [List.countP_cons]
    rcases List.mem_cons.1 hx with rfl | hxt
    · have hz : t.countP (fun m => decide (m = x)) = 0 := by
        apply List.countP_eq_zero.2
        intro m hm
        simp only [decide_eq_true_eq]
        exact fun hc => hnd.1 (hc ▸ hm)
      simp [hz]
    · have hax : ¬ a = x := fun hc => hnd.1 (hc ▸ hxt)
      simp [ih hnd.2 hxt, hax]

/-- General characterization of `_get_previous_node` over a sorted level that
holds the sentinel. -/
theorem prevNode_spec {lvl : Level A} (h : SortedKeys lvl) {x : A}
    (hbotmem : (⊥ : A) ∈ lvl.map Prod.fst) (hx : x ≠ ⊥) :
    prevNode lvl x ⊥ ∈ lvl.map Prod.fst ∧ prevNode lvl x ⊥ < x ∧
      ∀ e ∈ lvl.map Prod.fst, e < x → e ≤ prevNode lvl x ⊥ := by
  rw [prevNode_eq h]
  have hbx : (⊥ : A) < x := Ne.bot_lt hx
  have hbm : (⊥ : A) ∈ (lvl.map Prod.fst).filter (fun k => decide (k < x)) :=
    List.mem_filter.2 ⟨hbotmem, by simpa using hbx⟩
  rcases sorted_getLastD (h.filter _) ⊥ with ⟨hnil, _⟩ | ⟨hmem, hmax⟩
  · rw [hnil] at hbm
    cases hbm
  · rw [List.mem_filter] at hmem
    refine ⟨hmem.1, by simpa using hmem.2, ?_⟩
    intro e he hex
    exact hmax e (List.mem_filter.2 ⟨he, by simpa using hex⟩)

theorem nextE_eq_some {L : List A} (hL : L.Sorted (· < ·)) {x y : A}
    (hy : y ∈ L) (hxy : x < y) (hleast : ∀ e ∈ L, x < e → y ≤ e) :
    nextE L x = some y := by
  unfold nextE
  cases hh : (L.filter (fun e => decide (x < e))).head? with
  | none =>
    rw [List.head?_eq_none_iff] at hh
    have hmem : y ∈ L.filter (fun e => decide (x < e)) :=
      List.mem_filter.2 ⟨hy, by simpa using hxy⟩
    rw [hh] at hmem
    cases hmem
  | some z =>
    have hzmem := head?_mem hh
    rw [List.mem_filter] at hzmem
    have hzy : z ≤ y :=
      sorted_head_min (hL.filter _) hh y (List.mem_filter.2 ⟨hy, by simpa using hxy⟩)
    have hyz : y ≤ z := hleast z hzmem.1 (by simpa using hzmem.2)
    rw [le_antisymm hzy hyz]

theorem insSorted_eq_cons {k : A} {L : List A} (h : ∀ x ∈ L, k < x) :
    insSorted k L = k :: L := by
  cases L with
  | nil => rfl
  | cons m t => simp [insSorted, h m (List.mem_cons_self m t)]

theorem filter_insSorted_pos {p : A → Bool} {k : A} {M : List A}
    (hM : M.Sorted (· < ·)) (hp : p k = true) :
    (insSorted k M).filter p = insSorted k (M.filter p) := by
  induction M with
  | nil => simp [insSorted, hp]
  | cons m t ih =>
    rw [List.sorted_cons] at hM
    simp only [insSorted]
    by_cases hkm : k < m
    · rw [if_pos hkm, List.filter_cons_of_pos hp]
      have hcons : insSorted k ((m :: t).filter p) = k :: (m :: t).filter p := by
        apply insSorted_eq_cons
        intro x hx
        have hxm : x ∈ m :: t := (List.mem_filter.1 hx).1
        rcases List.mem_cons.1 hxm with rfl | hxt
        · exact hkm
        · exact lt_trans hkm (hM.1 x hxt)
      rw [hcons]
    · rw [if_neg hkm]
      by_cases hpm : p m = true
      · rw [List.filter_cons_of_pos hpm, List.filter_cons_of_pos hpm, ih hM.2]
        simp only [insSorted, if_neg hkm]
      · rw [List.filter_cons_of_neg hpm, List.filter_cons_of_neg hpm]
        exact ih hM.2

theorem filter_insSorted_neg {p : A → Bool} {k : A} {M : List A}
    (hp : p k = false) :
    (insSorted k M).filter p = M.filter p := by
  induction M with
  | nil => simp [insSorted, hp]
  | cons m t ih =>
    simp only [insSorted]
    by_cases hkm : k < m
    · rw [if_pos hkm, List.filter_cons_of_neg (by simp [hp])]
    · rw [if_neg hkm]
      by_cases hpm : p m = true
      · rw [List.filter_cons_of_pos hpm, List.filter_cons_of_pos hpm, ih]
      · rw [List.filter_cons_of_neg hpm, List.filter_cons_of_neg hpm]
        exact ih

theorem levelKeys_insSorted_pos {k : A} {l : Nat} (hM : M.Sorted (· < ·))
    (hp : promoted hash l k = true) :
    levelKeys hash (insSorted k M) l = insSorted k (levelKeys hash M l) :=
  filter_insSorted_pos hM hp

theorem levelKeys_insSorted_neg {k : A} {l : Nat}
    (hp : promoted hash l k = false) :
    levelKeys hash (insSorted k M) l = levelKeys hash M l :=
  filter_insSorted_neg hp

theorem levelKeys_remSorted {k : A} {l : Nat} :
    levelKeys hash (remSorted k M) l = remSorted k (levelKeys hash M l) := by
  unfold levelKeys remSorted
  rw [List.filter_filter, List.filter_filter]
  apply List.filter_congr
  intro x hx
  exact Bool.and_comm _ _

theorem remSorted_eq_self {k : A} {L : List A} (h : k ∉ L) :
    remSorted k L = L := by
  apply List.filter_eq_self.2
  intro a ha
  simp only [decide_eq_true_eq]
  exact fun hc => h (hc ▸ ha)

/-- The count stored at a level-0 entry: 0 at the sentinel, 1 at a member. -/
theorem spanCount_level0 (hM : M.Sorted (· < ·)) (hbot : ∀ m ∈ M, m ≠ ⊥)
    {x : A} (hx : x ∈ (⊥ : A) :: M) :
    spanCount M M x = if x = ⊥ then 0 else 1 := by
  rcases List.mem_cons.1 hx with rfl | hxM
  · rw [if_pos rfl]
    cases hn : nextE M ⊥ with
    | none =>
      simp only [spanCount, hn]
      have : M.countP (fun m => decide ((⊥ : A) ≤ m)) = 0 := by
        apply List.countP_eq_zero.2
        intro m hm
        exact absurd (Ne.bot_lt (hbot m hm)) (nextE_eq_none.1 hn m hm)
      rw [this]
      simp
    | some n =>
      simp only [spanCount, hn]
      rcases nextE_some hM hn with ⟨hnM, _, hleast⟩
      have : M.countP (fun m => decide ((⊥ : A) ≤ m ∧ m < n)) = 0 := by
        apply List.countP_eq_zero.2
        intro m hm
        simp only [decide_eq_true_eq]
        rintro ⟨_, hmn⟩
        exact absurd hmn (not_lt.2 (hleast m hm (Ne.bot_lt (hbot m hm))))
      rw [this]
      simp
  · have hxb : x ≠ ⊥ := hbot x hxM
    rw [if_neg hxb]
    cases hn : nextE M x with
    | none =>
      simp only [spanCount, hn]
      have : M.countP (fun m => decide (x ≤ m))
          = M.countP (fun m => decide (m = x)) := by
        apply List.countP_congr
        intro m hm
        simp only [decide_eq_true_eq]
        constructor
        · intro hxm
          exact le_antisymm (not_lt.1 (nextE_eq_none.1 hn m hm)) hxm
        · intro he
          exact le_of_eq he.symm
      rw [this, countP_eq_self_one (sorted_nodup hM) hxM]
      norm_num
    | some n =>
      simp only [spanCount, hn]
      rcases nextE_some hM hn with ⟨hnM, hxn, hleast⟩
      have : M.countP (fun m => decide (x ≤ m ∧ m < n))
          = M.countP (fun m => decide (m = x)) := by
        apply List.countP_congr
        intro m hm
        simp only [decide_eq_true_eq]
        constructor
        · rintro ⟨hxm, hmn⟩
          rcases eq_or_lt_of_le hxm with he | hlt
          · exact he.symm
          · exact absurd hmn (not_lt.2 (hleast m hm hlt))
        · rintro rfl
          exact ⟨le_refl m, hxn⟩
      rw [this, countP_eq_self_one (sorted_nodup hM) hxM]
      norm_num

/-- A store given level-by-level. -/
def mkRS (g : Nat → Level A) : RS A := (List.range MAX_LEVELS).map g

theorem getLevel_mkRS {g : Nat → Level A} {l : Nat} (hl : l < MAX_LEVELS) :
    getLevel (mkRS g) l = g l := by
  have h : ((List.range MAX_LEVELS).map g)[l]? = some (g l) := by
    rw [List.getElem?_map, List.getElem?_range hl]
    rfl
  simp [getLevel, mkRS, List.getD, h]

theorem setLevel_mkRS {g : Nat → Level A} {l : Nat} {v : Level A} :
    setLevel (mkRS g) l v = mkRS (fun i => if i = l then v else g i) := by
  unfold setLevel mkRS
  apply List.ext_getElem
  · simp
  · intro i h1 h2
    simp only [List.getElem_set, List.getElem_map, List.getElem_range]
    have hi : i < MAX_LEVELS := by simpa using h2
    by_cases hil : i = l
    · simp [hil]
    · simp only [if_neg hil, if_neg (fun hc : l = i => hil hc.symm)]

theorem canonState_eq_mkRS : canonState hash M = mkRS (canonLevel hash M) := rfl

/-- The intermediate state after the level loop has processed levels `< j`. -/
def mixS (hash : A → Nat) (Mnew Mold : List A) (j : Nat) : RS A :=
  mkRS (fun i => if i < j then canonLevel hash Mnew i else canonLevel hash Mold i)

theorem mixS_zero {M' : List A} : mixS hash M' M 0 = canonState hash M := by
  unfold mixS canonState mkRS
  apply List.map_congr_left
  intro i hi
  simp

theorem mixS_top {M' : List A} : mixS hash M' M MAX_LEVELS = canonState hash M' := by
  unfold mixS canonState mkRS
  apply List.map_congr_left
  intro i hi
  rw [List.mem_range] at hi
  simp [hi]

theorem getLevel_mixS {M' : List A} {j l : Nat} (hl : l < MAX_LEVELS) :
    getLevel (mixS hash M' M j) l
      = if l < j then canonLevel hash M' l else canonLevel hash M l := by
  unfold mixS
  rw [getLevel_mkRS hl]

theorem setLevel_mixS {M' : List A} {l : Nat} {v : Level A}
    (hv : v = canonLevel hash M' l) :
    setLevel (mixS hash M' M l) l v = mixS hash M' M (l + 1) := by
  unfold mixS
  rw [setLevel_mkRS]
  congr 1
  funext i
  by_cases hil : i = l
  · subst hil
    simp [Nat.lt_succ_self, hv]
  · by_cases hi : i < l
    · simp [hil, hi, Nat.lt_succ_of_lt hi]
    · have h2 : ¬ i < l + 1 := by omega
      simp [hil, hi, h2]

theorem nextE_insSorted_high {k x : A} (hxk : k < x) :
    nextE (insSorted k E) x = nextE E x := by
  unfold nextE
  rw [filter_insSorted_neg (by simp [not_lt.2 (le_of_lt hxk)])]

theorem nextE_insSorted_of_lt (hE : E.Sorted (· < ·)) {k x n : A}
    (hn : nextE E x = some n) (hnk : n < k) :
    nextE (insSorted k E) x = some n := by
  have hxn : x < n := by
    have hmem := head?_mem hn
    rw [List.mem_filter] at hmem
    simpa using hmem.2
  unfold nextE at hn ⊢
  rw [filter_insSorted_pos hE (by simpa using lt_trans hxn hnk)]
  cases hfe : E.filter (fun e => decide (x < e)) with
  | nil => rw [hfe] at hn; cases hn
  | cons a t =>
    rw [hfe] at hn
    rw [List.head?_cons, Option.some_inj] at hn
    subst hn
    simp [insSorted, not_lt.2 (le_of_lt hnk), lt_asymm hnk]

theorem nextE_remSorted_of_ne {k x n : A} (hn : nextE E x = some n) (hnk : n ≠ k) :
    nextE (remSorted k E) x = some n := by
  unfold nextE at hn ⊢
  have hcomm : (remSorted k E).filter (fun e => decide (x < e))
      = remSorted k (E.filter (fun e => decide (x < e))) := by
    unfold remSorted
    rw [List.filter_filter, List.filter_filter]
    exact List.filter_congr (fun a ha => Bool.and_comm _ _)
  rw [hcomm]
  cases hfe : E.filter (fun e => decide (x < e)) with
  | nil => rw [hfe] at hn; cases hn
  | cons a t =>
    rw [hfe] at hn
    rw [List.head?_cons, Option.some_inj] at hn
    subst hn
    unfold remSorted
    rw [List.filter_cons_of_pos (by simpa using hnk)]
    rfl

theorem nextE_remSorted_high {k x : A} (hkx : k ≤ x) :
    nextE (remSorted k E) x = nextE E x := by
  unfold nextE
  have h : (remSorted k E).filter (fun e => decide (x < e))
      = E.filter (fun e => decide (x < e)) := by
    unfold remSorted
    rw [List.filter_filter]
    apply List.filter_congr
    intro a ha
    by_cases hc : x < a
    · simp [hc, ne_of_gt (lt_of_le_of_lt hkx hc)]
    · simp [hc]
  rw [h]

theorem spanCount_congr_next {M E E2 : List A} {x : A}
    (h : nextE E x = nextE E2 x) : spanCount M E x = spanCount M E2 x := by
  unfold spanCount
  rw [h]

end CanonLemmas

section InsertCanon

variable {A : Type} [LinearOrder A] [OrderBot A] {hash : A → Nat} {M : List A} {k : A}

theorem insert_level_not_promoted (hM : M.Sorted (· < ·)) (hbot : ∀ m ∈ M, m ≠ ⊥)
    (hk : k ≠ ⊥) (hkM : k ∉ M) (l : Nat) (hp : promoted hash l k = false) :
    addL (canonLevel hash M l) (prevNode (canonLevel hash M l) k ⊥) 1
      = canonLevel hash (insSorted k M) l := by
  have hM' : (insSorted k M).Sorted (· < ·) := insSorted_sorted hM hkM
  have hbot' : ∀ m ∈ insSorted k M, m ≠ ⊥ := by
    intro m hm
    rcases mem_insSorted.1 hm with rfl | hm2
    · exact hk
    · exact hbot m hm2
  have hsk : SortedKeys (canonLevel hash M l) := sortedKeys_canonLevel hM hbot l
  have hbotm : (⊥ : A) ∈ (canonLevel hash M l).map Prod.fst := by
    rw [keys_canonLevel]
    exact List.mem_cons_self _ _
  obtain ⟨hpmem, hpk, hpmax⟩ := prevNode_spec hsk hbotm hk
  rw [keys_canonLevel] at hpmem hpmax
  have hE : ((⊥ : A) :: levelKeys hash M l).Sorted (· < ·) := sorted_entry hM hbot l
  have hkE : k ∉ (⊥ : A) :: levelKeys hash M l := by
    intro hc
    rcases List.mem_cons.1 hc with hc | hc
    · exact hk hc
    · exact hkM (mem_levelKeys.1 hc).1
  obtain ⟨hcov, huniq⟩ := span_cover hE hpmem hpk hpmax hkE
  have hEeq : levelKeys hash (insSorted k M) l = levelKeys hash M l :=
    levelKeys_insSorted_neg hp
  apply lookupA_ext (sortedKeys_addL hsk) (sortedKeys_canonLevel hM' hbot' l)
  intro x
  simp only [lookupA_addL, lookupA_canonLevel, hEeq]
  by_cases hxp : x = prevNode (canonLevel hash M l) k ⊥
  · subst hxp
    rw [if_pos rfl, if_pos hpmem, if_pos hpmem, Option.getD_some,
      spanCount_insSorted_of_inSpan hcov]
  · rw [if_neg hxp]
    by_cases hxE : x ∈ (⊥ : A) :: levelKeys hash M l
    · rw [if_pos hxE, if_pos hxE, spanCount_insSorted_of_not_inSpan (huniq x hxE hxp)]
    · rw [if_neg hxE, if_neg hxE]

theorem slow_count_mix (hM : M.Sorted (· < ·)) (hbot : ∀ m ∈ M, m ≠ ⊥)
    (hk : k ≠ ⊥) (hkM : k ∉ M) (l : Nat) (hl : l < MAX_LEVELS)
    {p : A}
    (hpmem : p ∈ (⊥ : A) :: levelKeys hash M l) (hpk : p < k)
    (hpmax : ∀ e ∈ (⊥ : A) :: levelKeys hash M l, e < k → e ≤ p)
    (hp : promoted hash l k = true) :
    slow_count (mixS hash (insSorted k M) M l) ((l : Int) - 1) p k
      = ((insSorted k M).countP (fun m => decide (p ≤ m ∧ m < k)) : Int) := by
  have hM' : (insSorted k M).Sorted (· < ·) := insSorted_sorted hM hkM
  have hbot' : ∀ m ∈ insSorted k M, m ≠ ⊥ := by
    intro m hm
    rcases mem_insSorted.1 hm with rfl | hm2
    · exact hk
    · exact hbot m hm2
  cases l with
  | zero =>
    have hm1 : ((0 : Nat) : Int) - 1 = -1 := by norm_num
    simp only [slow_count, hm1, if_pos rfl]
    rw [levelKeys_zero] at hpmem hpmax
    by_cases hpb : p = ⊥
    · subst hpb
      rw [if_pos rfl]
      have hz : (insSorted k M).countP (fun m => decide ((⊥ : A) ≤ m ∧ m < k)) = 0 := by
        apply List.countP_eq_zero.2
        intro m hm
        simp only [decide_eq_true_eq]
        rintro ⟨_, hmk⟩
        rcases mem_insSorted.1 hm with rfl | hmM
        · exact absurd hmk (lt_irrefl m)
        · exact hbot m hmM (le_bot_iff.1 (hpmax m (List.mem_cons_of_mem _ hmM) hmk))
      rw [hz]
      simp
    · rw [if_neg hpb]
      have hpM : p ∈ M := by
        rcases List.mem_cons.1 hpmem with hc | hc
        · exact absurd hc hpb
        · exact hc
      have h1 : (insSorted k M).countP (fun m => decide (p ≤ m ∧ m < k))
          = M.countP (fun m => decide (p ≤ m ∧ m < k)) := by
        have hnk : ¬ (p ≤ k ∧ k < k) := fun hc => absurd hc.2 (lt_irrefl k)
        rw [countP_insSorted, if_neg (by simpa using hnk)]
        omega
      have h2 : M.countP (fun m => decide (p ≤ m ∧ m < k))
          = M.countP (fun m => decide (m = p)) := by
        apply List.countP_congr
        intro m hm
        simp only [decide_eq_true_eq]
        constructor
        · rintro ⟨hpm, hmk⟩
          exact le_antisymm (hpmax m (List.mem_cons_of_mem _ hm) hmk) hpm
        · rintro rfl
          exact ⟨le_refl m, hpk⟩
      rw [h1, h2, countP_eq_self_one (sorted_nodup hM) hpM]
      simp
  | succ l' =>
    have hne : ((l' + 1 : Nat) : Int) - 1 ≠ -1 := by push_cast; omega
    have htn : (((l' + 1 : Nat) : Int) - 1).toNat = l' := by
      push_cast
      omega
    simp only [slow_count, if_neg hne, htn]
    rw [getLevel_mixS (by omega), if_pos (by omega), rangeSum_canonLevel]
    have hpm' : p ∈ (⊥ : A) :: levelKeys hash (insSorted k M) l' := by
      rcases List.mem_cons.1 hpmem with rfl | hc
      · exact List.mem_cons_self _ _
      · rcases mem_levelKeys.1 hc with ⟨hpM, hprom⟩
        exact List.mem_cons_of_mem _ (mem_levelKeys.2
          ⟨mem_insSorted.2 (Or.inr hpM), promoted_mono (Nat.le_succ l') hprom⟩)
    have hkm' : k ∈ (⊥ : A) :: levelKeys hash (insSorted k M) l' :=
      List.mem_cons_of_mem _ (mem_levelKeys.2
        ⟨mem_insSorted.2 (Or.inl rfl), promoted_mono (Nat.le_succ l') hp⟩)
    exact sum_spans (insSorted k M) (levelKeys hash (insSorted k M) l')
      (sorted_entry hM' hbot' l') p k hpm' hkm' (le_of_lt hpk)

theorem insert_level_promoted (hM : M.Sorted (· < ·)) (hbot : ∀ m ∈ M, m ≠ ⊥)
    (hk : k ≠ ⊥) (hkM : k ∉ M) (l : Nat) (hp : promoted hash l k = true) :
    setA (setA (canonLevel hash M l)
           (prevNode (canonLevel hash M l) k ⊥)
           (((insSorted k M).countP
              (fun m => decide (prevNode (canonLevel hash M l) k ⊥ ≤ m ∧ m < k)) : Int)))
         k
         ((lookupA (canonLevel hash M l) (prevNode (canonLevel hash M l) k ⊥)).getD 0
           - (((insSorted k M).countP
              (fun m => decide (prevNode (canonLevel hash M l) k ⊥ ≤ m ∧ m < k)) : Int)) + 1)
      = canonLevel hash (insSorted k M) l := by
  have hM' : (insSorted k M).Sorted (· < ·) := insSorted_sorted hM hkM
  have hbot' : ∀ m ∈ insSorted k M, m ≠ ⊥ := by
    intro m hm
    rcases mem_insSorted.1 hm with rfl | hm2
    · exact hk
    · exact hbot m hm2
  have hsk : SortedKeys (canonLevel hash M l) := sortedKeys_canonLevel hM hbot l
  have hbotm : (⊥ : A) ∈ (canonLevel hash M l).map Prod.fst := by
    rw [keys_canonLevel]
    exact List.mem_cons_self _ _
  obtain ⟨hpmem, hpk, hpmax⟩ := prevNode_spec hsk hbotm hk
  rw [keys_canonLevel] at hpmem hpmax
  set p := prevNode (canonLevel hash M l) k ⊥ with hpdef
  have hEnt : ((⊥ : A) :: levelKeys hash M l).Sorted (· < ·) := sorted_entry hM hbot l
  have hkE : k ∉ (⊥ : A) :: levelKeys hash M l := by
    intro hc
    rcases List.mem_cons.1 hc with hc | hc
    · exact hk hc
    · exact hkM (mem_levelKeys.1 hc).1
  obtain ⟨hcov, huniq⟩ := span_cover hEnt hpmem hpk hpmax hkE
  have hEs : (levelKeys hash M l).Sorted (· < ·) := sorted_levelKeys hM
  have hkEo : k ∉ levelKeys hash M l := fun hc => hkM (mem_levelKeys.1 hc).1
  have hE's : (insSorted k (levelKeys hash M l)).Sorted (· < ·) :=
    insSorted_sorted hEs hkEo
  have hE'eq : levelKeys hash (insSorted k M) l = insSorted k (levelKeys hash M l) :=
    levelKeys_insSorted_pos hM hp
  have hgeK : ∀ e ∈ levelKeys hash M l, p < e → k ≤ e := by
    intro e he hpe
    by_contra hc
    exact absurd (hpmax e (List.mem_cons_of_mem _ he) (not_le.1 hc)) (not_le.2 hpe)
  have hnp' : nextE (insSorted k (levelKeys hash M l)) p = some k := by
    apply nextE_eq_some hE's (mem_insSorted.2 (Or.inl rfl)) hpk
    intro e he hpe
    rcases mem_insSorted.1 he with rfl | heE
    · exact le_refl e
    · exact hgeK e heE hpe
  have hlook : lookupA (canonLevel hash M l) p
      = some (spanCount M (levelKeys hash M l) p) := by
    rw [lookupA_canonLevel, if_pos hpmem]
  have hspan_p : spanCount (insSorted k M) (insSorted k (levelKeys hash M l)) p
      = (((insSorted k M).countP (fun m => decide (p ≤ m ∧ m < k)) : Int)) := by
    simp only [spanCount, hnp']
  have hspan_k : spanCount (insSorted k M) (insSorted k (levelKeys hash M l)) k
      = spanCount M (levelKeys hash M l) p
        - (((insSorted k M).countP (fun m => decide (p ≤ m ∧ m < k)) : Int)) + 1 := by
    cases hn : nextE (levelKeys hash M l) p with
    | none =>
      have hnone : ∀ e ∈ levelKeys hash M l, ¬ p < e := nextE_eq_none.1 hn
      have hnk' : nextE (insSorted k (levelKeys hash M l)) k = none := by
        apply nextE_eq_none.2
        intro e he
        rcases mem_insSorted.1 he with rfl | heE
        · exact lt_irrefl e
        · exact fun hke => hnone e heE (lt_trans hpk hke)
      simp only [spanCount, hnk', hn]
      have hsplit := countCi_split (insSorted k M) (le_of_lt hpk)
      have hins : (((insSorted k M).countP (fun m => decide (p ≤ m)) : Nat) : Int)
          = ((M.countP (fun m => decide (p ≤ m)) : Nat) : Int) + 1 := by
        rw [countP_insSorted, if_pos (by simpa using le_of_lt hpk)]
        push_cast
        ring
      omega
    | some n =>
      have hkn : k < n := hcov.2 n hn
      rcases nextE_some hEs hn with ⟨hnE, hpn, hleast⟩
      have hnk' : nextE (insSorted k (levelKeys hash M l)) k = some n := by
        apply nextE_eq_some hE's (mem_insSorted.2 (Or.inr hnE)) hkn
        intro e he hke
        rcases mem_insSorted.1 he with rfl | heE
        · exact absurd hke (lt_irrefl e)
        · exact hleast e heE (lt_trans hpk hke)
      simp only [spanCount, hnk', hn]
      have hsplit := countIco_split (insSorted k M) (le_of_lt hpk) (le_of_lt hkn)
      have hins : (((insSorted k M).countP (fun m => decide (p ≤ m ∧ m < n)) : Nat) : Int)
          = ((M.countP (fun m => decide (p ≤ m ∧ m < n)) : Nat) : Int) + 1 := by
        rw [countP_insSorted,
          if_pos (by simp only [decide_eq_true_eq]; exact ⟨le_of_lt hpk, hkn⟩)]
        push_cast
        ring
      omega
  have hspan_other : ∀ x ∈ (⊥ : A) :: levelKeys hash M l, x ≠ p →
      spanCount (insSorted k M) (insSorted k (levelKeys hash M l)) x
        = spanCount M (levelKeys hash M l) x := by
    intro x hx hxp
    have hnx : nextE (insSorted k (levelKeys hash M l)) x = nextE (levelKeys hash M l) x := by
      rcases lt_trichotomy x p with hlt | heq | hgt
      · have hpE : p ∈ levelKeys hash M l := by
          rcases List.mem_cons.1 hpmem with hc | hc
          · exact absurd (hc ▸ hlt) (not_lt.2 bot_le)
          · exact hc
        cases hn2 : nextE (levelKeys hash M l) x with
        | none => exact absurd hlt (nextE_eq_none.1 hn2 p hpE)
        | some n2 =>
          rcases nextE_some hEs hn2 with ⟨hn2E, hxn2, hleast2⟩
          exact nextE_insSorted_of_lt hEs hn2 (lt_of_le_of_lt (hleast2 p hpE hlt) hpk)
      · exact absurd heq hxp
      · have hxk : k < x := by
          rcases lt_trichotomy x k with hc | hc | hc
          · exact absurd (hpmax x hx hc) (not_le.2 hgt)
          · exact absurd (hc ▸ hx) hkE
          · exact hc
        exact nextE_insSorted_high hxk
    rw [spanCount_congr_next hnx]
    exact spanCount_insSorted_of_not_inSpan (huniq x hx hxp)
  rw [hlook, Option.getD_some]
  apply lookupA_ext (sortedKeys_setA (sortedKeys_setA hsk))
    (sortedKeys_canonLevel hM' hbot' l)
  intro x
  simp only [lookupA_setA, lookupA_canonLevel, hE'eq]
  by_cases hxk : x = k
  · subst hxk
    rw [if_pos rfl, if_pos (List.mem_cons_of_mem _ (mem_insSorted.2 (Or.inl rfl))), hspan_k]
  · rw [if_neg hxk]
    by_cases hxp : x = p
    · subst hxp
      have hmem' : p ∈ (⊥ : A) :: insSorted k (levelKeys hash M l) := by
        rcases List.mem_cons.1 hpmem with hc | hc
        · exact hc ▸ List.mem_cons_self _ _
        · exact List.mem_cons_of_mem _ (mem_insSorted.2 (Or.inr hc))
      rw [if_pos rfl, if_pos hmem', hspan_p]
    · rw [if_neg hxp]
      have hmemiff : x ∈ (⊥ : A) :: insSorted k (levelKeys hash M l)
          ↔ x ∈ (⊥ : A) :: levelKeys hash M l := by
        simp only [List.mem_cons, mem_insSorted]
        constructor
        · rintro (hc | hc | hc)
          · exact Or.inl hc
          · exact absurd hc hxk
          · exact Or.inr hc
        · rintro (hc | hc)
          · exact Or.inl hc
          · exact Or.inr (Or.inr hc)
      by_cases hxE : x ∈ (⊥ : A) :: levelKeys hash M l
      · rw [if_pos (hmemiff.2 hxE), if_pos hxE, hspan_other x hxE hxp]
      · rw [if_neg (fun hc => hxE (hmemiff.1 hc)), if_neg hxE]

theorem promoted_iff {l : Nat} {x : A} :
    promoted hash l x = true ↔ hash x % 2 ^ (l * LEVEL_FAN_POW) = 0 := by
  simp [promoted]

theorem insertAtLevel_mix (hM : M.Sorted (· < ·)) (hbot : ∀ m ∈ M, m ≠ ⊥)
    (hk : k ≠ ⊥) (hkM : k ∉ M) (l : Nat) (hl : l < MAX_LEVELS) :
    insertAtLevel hash k (mixS hash (insSorted k M) M l) l
      = mixS hash (insSorted k M) M (l + 1) := by
  have hgl : getLevel (mixS hash (insSorted k M) M l) l = canonLevel hash M l := by
    rw [getLevel_mixS hl, if_neg (lt_irrefl l)]
  have hsk : SortedKeys (canonLevel hash M l) := sortedKeys_canonLevel hM hbot l
  have hbotm : (⊥ : A) ∈ (canonLevel hash M l).map Prod.fst := by
    rw [keys_canonLevel]
    exact List.mem_cons_self _ _
  obtain ⟨hpmem, hpk, hpmax⟩ := prevNode_spec hsk hbotm hk
  rw [keys_canonLevel] at hpmem hpmax
  simp only [insertAtLevel, hgl]
  by_cases hc : hash k % 2 ^ (l * LEVEL_FAN_POW) = 0
  · have hp : promoted hash l k = true := promoted_iff.2 hc
    rw [if_neg (by simpa using hc)]
    rw [slow_count_mix hM hbot hk hkM l hl hpmem hpk hpmax hp]
    exact setLevel_mixS (insert_level_promoted hM hbot hk hkM l hp)
  · have hpf : promoted hash l k = false := by
      rw [Bool.eq_false_iff]
      intro hcp
      exact hc (promoted_iff.1 hcp)
    rw [if_pos hc]
    exact setLevel_mixS (insert_level_not_promoted hM hbot hk hkM l hpf)

theorem insert_canon (hM : M.Sorted (· < ·)) (hbot : ∀ m ∈ M, m ≠ ⊥)
    (hk : k ≠ ⊥) (hkM : k ∉ M) :
    insert hash (canonState hash M) k = canonState hash (insSorted k M) := by
  unfold insert
  rw [if_neg hk]
  have hcf : ¬ (contains (canonState hash M) k = true) := by
    rw [contains_canonState]
    rintro (hc | hc)
    · exact hk hc
    · exact hkM hc
  rw [if_neg hcf]
  have h0 : canonState hash M = mixS hash (insSorted k M) M 0 := mixS_zero.symm
  rw [h0]
  have hr : List.range MAX_LEVELS = [0, 1, 2, 3, 4, 5] := rfl
  rw [hr]
  simp only [List.foldl_cons, List.foldl_nil]
  rw [insertAtLevel_mix hM hbot hk hkM 0 (by norm_num [MAX_LEVELS]),
    insertAtLevel_mix hM hbot hk hkM 1 (by norm_num [MAX_LEVELS]),
    insertAtLevel_mix hM hbot hk hkM 2 (by norm_num [MAX_LEVELS]),
    insertAtLevel_mix hM hbot hk hkM 3 (by norm_num [MAX_LEVELS]),
    insertAtLevel_mix hM hbot hk hkM 4 (by norm_num [MAX_LEVELS]),
    insertAtLevel_mix hM hbot hk hkM 5 (by norm_num [MAX_LEVELS])]
  exact mixS_top

theorem insert_mem_canon (hkM : k ∈ M) :
    insert hash (canonState hash M) k = canonState hash M := by
  unfold insert
  by_cases hkb : k = ⊥
  · rw [if_pos hkb]
  · rw [if_neg hkb, if_pos (contains_canonState.2 (Or.inr hkM))]

theorem insert_bot_canon {s : RS A} : insert hash s ⊥ = s := by
  unfold insert
  rw [if_pos rfl]

theorem erase_not_mem_canon (hkM : k ∉ M) :
    erase (canonState hash M) k = canonState hash M := by
  unfold erase
  by_cases hkb : k = ⊥
  · rw [if_pos hkb]
  · rw [if_neg hkb]
    have hcf : contains (canonState hash M) k = false := by
      rw [Bool.eq_false_iff]
      intro hc
      rcases contains_canonState.1 hc with hc2 | hc2
      · exact hkb hc2
      · exact hkM hc2
    rw [hcf, if_pos rfl]

theorem erase_bot_canon {s : RS A} : erase s ⊥ = s := by
  unfold erase
  rw [if_pos rfl]

end InsertCanon

section EraseCanon

variable {A : Type} [LinearOrder A] [OrderBot A] {hash : A → Nat} {M : List A} {k : A}

theorem keys_map_graph {A' B' : Type} {ks : List A'} {f : A' → B'} :
    ((ks.map (fun k => (k, f k))).map Prod.fst) = ks := by
  rw [List.map_map]
  exact List.map_id' _

theorem erase_level_not_promoted (hM : M.Sorted (· < ·)) (hbot : ∀ m ∈ M, m ≠ ⊥)
    (hk : k ≠ ⊥) (hkM : k ∈ M) (l : Nat) (hpnot : promoted hash l k = false) :
    addL (canonLevel hash M l) (prevNode (canonLevel hash M l) k ⊥) (-1)
      = canonLevel hash (remSorted k M) l := by
  have hnd : M.Nodup := sorted_nodup hM
  have hM'' : (remSorted k M).Sorted (· < ·) := remSorted_sorted hM
  have hbot'' : ∀ m ∈ remSorted k M, m ≠ ⊥ := fun m hm => hbot m (mem_remSorted.1 hm).1
  have hsk : SortedKeys (canonLevel hash M l) := sortedKeys_canonLevel hM hbot l
  have hbotm : (⊥ : A) ∈ (canonLevel hash M l).map Prod.fst := by
    rw [keys_canonLevel]
    exact List.mem_cons_self _ _
  obtain ⟨hpmem, hpk, hpmax⟩ := prevNode_spec hsk hbotm hk
  rw [keys_canonLevel] at hpmem hpmax
  have hEnt : ((⊥ : A) :: levelKeys hash M l).Sorted (· < ·) := sorted_entry hM hbot l
  have hkEo : k ∉ levelKeys hash M l := by
    intro hc
    rw [mem_levelKeys] at hc
    rw [hc.2] at hpnot
    cases hpnot
  have hkE : k ∉ (⊥ : A) :: levelKeys hash M l := by
    intro hc
    rcases List.mem_cons.1 hc with hc | hc
    · exact hk hc
    · exact hkEo hc
  obtain ⟨hcov, huniq⟩ := span_cover hEnt hpmem hpk hpmax hkE
  have hEeq : levelKeys hash (remSorted k M) l = levelKeys hash M l := by
    rw [levelKeys_remSorted, remSorted_eq_self hkEo]
  apply lookupA_ext (sortedKeys_addL hsk) (sortedKeys_canonLevel hM'' hbot'' l)
  intro x
  simp only [lookupA_addL, lookupA_canonLevel, hEeq]
  by_cases hxp : x = prevNode (canonLevel hash M l) k ⊥
  · subst hxp
    rw [if_pos rfl, if_pos hpmem, if_pos hpmem, Option.getD_some,
      spanCount_remSorted_of_inSpan hnd hkM hcov]
    have harith : spanCount M (levelKeys hash M l) (prevNode (canonLevel hash M l) k ⊥) + (-1)
        = spanCount M (levelKeys hash M l) (prevNode (canonLevel hash M l) k ⊥) - 1 := by
      ring
    rw [harith]
  · rw [if_neg hxp]
    by_cases hxE : x ∈ (⊥ : A) :: levelKeys hash M l
    · rw [if_pos hxE, if_pos hxE,
        spanCount_remSorted_of_not_inSpan hnd hkM (huniq x hxE hxp)]
    · rw [if_neg hxE, if_neg hxE]

theorem erase_level_zero (hM : M.Sorted (· < ·)) (hbot : ∀ m ∈ M, m ≠ ⊥)
    (hk : k ≠ ⊥) (hkM : k ∈ M) :
    delA (canonLevel hash M 0) k = canonLevel hash (remSorted k M) 0 := by
  have hM'' : (remSorted k M).Sorted (· < ·) := remSorted_sorted hM
  have hbot'' : ∀ m ∈ remSorted k M, m ≠ ⊥ := fun m hm => hbot m (mem_remSorted.1 hm).1
  have hent : ((⊥ : A) :: M).Sorted (· < ·) := by
    have h0 : ((⊥ : A) :: levelKeys hash M 0).Sorted (· < ·) := sorted_entry hM hbot 0
    rwa [levelKeys_zero] at h0
  have hnd : ((⊥ : A) :: M).Nodup := sorted_nodup hent
  unfold canonLevel
  rw [levelKeys_zero, levelKeys_zero]
  rw [delA_map_graph hnd]
  have hfil : ((⊥ : A) :: M).filter (fun a => decide (a ≠ k)) = ⊥ :: remSorted k M := by
    rw [List.filter_cons_of_pos (by simpa using Ne.symm hk)]
    rfl
  rw [hfil]
  apply List.map_congr_left
  intro x hx
  have hxM'' : x ∈ (⊥ : A) :: remSorted k M := hx
  have hxM : x ∈ (⊥ : A) :: M := by
    rcases List.mem_cons.1 hx with rfl | hc
    · exact List.mem_cons_self _ _
    · exact List.mem_cons_of_mem _ (mem_remSorted.1 hc).1
  rw [spanCount_level0 hM hbot hxM, spanCount_level0 hM'' hbot'' hxM'']

theorem erase_level_promoted (hM : M.Sorted (· < ·)) (hbot : ∀ m ∈ M, m ≠ ⊥)
    (hk : k ≠ ⊥) (hkM : k ∈ M) (l : Nat) (hp : promoted hash l k = true) :
    addL (delA (canonLevel hash M l) k)
         (prevNode (delA (canonLevel hash M l) k) k ⊥)
         (-1 + spanCount M (levelKeys hash M l) k)
      = canonLevel hash (remSorted k M) l := by
  have hnd : M.Nodup := sorted_nodup hM
  have hM'' : (remSorted k M).Sorted (· < ·) := remSorted_sorted hM
  have hbot'' : ∀ m ∈ remSorted k M, m ≠ ⊥ := fun m hm => hbot m (mem_remSorted.1 hm).1
  have hEs : (levelKeys hash M l).Sorted (· < ·) := sorted_levelKeys hM
  have hEnt : ((⊥ : A) :: levelKeys hash M l).Sorted (· < ·) := sorted_entry hM hbot l
  have hEntnd : ((⊥ : A) :: levelKeys hash M l).Nodup := sorted_nodup hEnt
  have hkEl : k ∈ levelKeys hash M l := mem_levelKeys.2 ⟨hkM, hp⟩
  -- the level after the delete
  have hlvl1 : delA (canonLevel hash M l) k
      = ((⊥ : A) :: remSorted k (levelKeys hash M l)).map
          (fun e => (e, spanCount M (levelKeys hash M l) e)) := by
    unfold canonLevel
    rw [delA_map_graph hEntnd, List.filter_cons_of_pos (by simpa using Ne.symm hk)]
    rfl
  have hremS : (remSorted k (levelKeys hash M l)).Sorted (· < ·) := remSorted_sorted hEs
  have hremEnt : ((⊥ : A) :: remSorted k (levelKeys hash M l)).Sorted (· < ·) := by
    rw [List.sorted_cons]
    refine ⟨?_, hremS⟩
    intro b hb
    exact Ne.bot_lt (hbot b (mem_levelKeys.1 (mem_remSorted.1 hb).1).1)
  have hsk1 : SortedKeys (delA (canonLevel hash M l) k) := by
    unfold SortedKeys
    rw [hlvl1, keys_map_graph]
    exact hremEnt
  have hkeys1 : (delA (canonLevel hash M l) k).map Prod.fst
      = (⊥ : A) :: remSorted k (levelKeys hash M l) := by
    rw [hlvl1, keys_map_graph]
  have hbotm1 : (⊥ : A) ∈ (delA (canonLevel hash M l) k).map Prod.fst := by
    rw [hkeys1]
    exact List.mem_cons_self _ _
  obtain ⟨hpmem, hpk, hpmax⟩ := prevNode_spec hsk1 hbotm1 hk
  rw [hkeys1] at hpmem hpmax
  set p := prevNode (delA (canonLevel hash M l) k) k ⊥ with hpdef
  have hkE'' : k ∉ (⊥ : A) :: remSorted k (levelKeys hash M l) := by
    intro hc
    rcases List.mem_cons.1 hc with hc | hc
    · exact hk hc
    · exact (mem_remSorted.1 hc).2 rfl
  obtain ⟨hcov, huniq⟩ := span_cover hremEnt hpmem hpk hpmax hkE''
  -- p is also the maximum entry below k in the undeleted level
  have hpmaxE : ∀ e ∈ (⊥ : A) :: levelKeys hash M l, e < k → e ≤ p := by
    intro e he hek
    rcases List.mem_cons.1 he with rfl | heE
    · exact hpmax ⊥ (List.mem_cons_self _ _) hek
    · exact hpmax e
        (List.mem_cons_of_mem _ (mem_remSorted.2 ⟨heE, ne_of_lt hek⟩)) hek
  -- the next entry after p in the old level is k itself
  have hnpk : nextE (levelKeys hash M l) p = some k := by
    apply nextE_eq_some hEs hkEl hpk
    intro e he hpe
    by_contra hc
    exact absurd (hpmaxE e (List.mem_cons_of_mem _ he) (not_le.1 hc)) (not_le.2 hpe)
  have hE''eq : levelKeys hash (remSorted k M) l = remSorted k (levelKeys hash M l) :=
    levelKeys_remSorted
  -- the next entry after p in the new level is the old next entry after k
  have hnp'' : nextE (remSorted k (levelKeys hash M l)) p = nextE (levelKeys hash M l) k := by
    cases hn : nextE (levelKeys hash M l) k with
    | none =>
      apply nextE_eq_none.2
      intro e he hpe
      rcases mem_remSorted.1 he with ⟨heE, hek⟩
      rcases lt_trichotomy e k with hc | hc | hc
      · exact absurd (hpmaxE e (List.mem_cons_of_mem _ heE) hc) (not_le.2 hpe)
      · exact hek hc
      · exact nextE_eq_none.1 hn e heE hc
    | some nk =>
      rcases nextE_some hEs hn with ⟨hnkE, hknk, hleastk⟩
      apply nextE_eq_some hremS
        (mem_remSorted.2 ⟨hnkE, ne_of_gt hknk⟩) (lt_trans hpk hknk)
      intro e he hpe
      rcases mem_remSorted.1 he with ⟨heE, hek⟩
      rcases lt_trichotomy e k with hc | hc | hc
      · exact absurd (hpmaxE e (List.mem_cons_of_mem _ heE) hc) (not_le.2 hpe)
      · exact absurd hc hek
      · exact hleastk e heE hc
  -- spans at the other entries are unchanged
  have hspan_other : ∀ x ∈ (⊥ : A) :: remSorted k (levelKeys hash M l), x ≠ p →
      spanCount (remSorted k M) (remSorted k (levelKeys hash M l)) x
        = spanCount M (levelKeys hash M l) x := by
    intro x hx hxp
    have hnx : nextE (remSorted k (levelKeys hash M l)) x = nextE (levelKeys hash M l) x := by
      rcases lt_trichotomy x p with hlt | heq | hgt
      · have hpE : p ∈ levelKeys hash M l := by
          rcases List.mem_cons.1 hpmem with hc | hc
          · exact absurd (hc ▸ hlt) (not_lt.2 bot_le)
          · exact (mem_remSorted.1 hc).1
        cases hn2 : nextE (levelKeys hash M l) x with
        | none => exact absurd hlt (nextE_eq_none.1 hn2 p hpE)
        | some n2 =>
          rcases nextE_some hEs hn2 with ⟨hn2E, hxn2, hleast2⟩
          exact nextE_remSorted_of_ne hn2
            (ne_of_lt (lt_of_le_of_lt (hleast2 p hpE hlt) hpk))
      · exact absurd heq hxp
      · have hxk : k < x := by
          rcases lt_trichotomy x k with hc | hc | hc
          · exact absurd (hpmax x hx hc) (not_le.2 hgt)
          · exact absurd (hc ▸ hx) hkE''
          · exact hc
        exact nextE_remSorted_high (le_of_lt hxk)
    rw [spanCount_congr_next hnx]
    apply spanCount_remSorted_of_not_inSpan hnd hkM
    intro hc
    exact huniq x hx hxp ⟨hc.1, fun n hn => hc.2 n (hnx ▸ hn)⟩
  -- the span written at p
  have hspan_p : spanCount (remSorted k M) (remSorted k (levelKeys hash M l)) p
      = spanCount M (levelKeys hash M l) p
        + (-1 + spanCount M (levelKeys hash M l) k) := by
    have hsp : spanCount M (levelKeys hash M l) p
        = ((M.countP (fun m => decide (p ≤ m ∧ m < k)) : Nat) : Int) := by
      simp only [spanCount, hnpk]
    cases hn : nextE (levelKeys hash M l) k with
    | none =>
      have hsk2 : spanCount M (levelKeys hash M l) k
          = ((M.countP (fun m => decide (k ≤ m)) : Nat) : Int) := by
        simp only [spanCount, hn]
      have hs'' : spanCount (remSorted k M) (remSorted k (levelKeys hash M l)) p
          = (((remSorted k M).countP (fun m => decide (p ≤ m)) : Nat) : Int) := by
        simp only [spanCount, hnp''.trans hn]
      have hrem := countP_remSorted hnd hkM (fun m => decide (p ≤ m))
      rw [if_pos (by simpa using le_of_lt hpk)] at hrem
      have hremZ : ((M.countP (fun m => decide (p ≤ m)) : Nat) : Int)
          = (((remSorted k M).countP (fun m => decide (p ≤ m)) : Nat) : Int) + 1 := by
        exact_mod_cast hrem
      have hsplit := countCi_split M (le_of_lt hpk)
      rw [hs'', hsp, hsk2]
      omega
    | some nk =>
      rcases nextE_some hEs hn with ⟨hnkE, hknk, hleastk⟩
      have hsk2 : spanCount M (levelKeys hash M l) k
          = ((M.countP (fun m => decide (k ≤ m ∧ m < nk)) : Nat) : Int) := by
        simp only [spanCount, hn]
      have hs'' : spanCount (remSorted k M) (remSorted k (levelKeys hash M l)) p
          = (((remSorted k M).countP (fun m => decide (p ≤ m ∧ m < nk)) : Nat) : Int) := by
        simp only [spanCount, hnp''.trans hn]
      have hrem := countP_remSorted hnd hkM (fun m => decide (p ≤ m ∧ m < nk))
      rw [if_pos (by simp only [decide_eq_true_eq]; exact ⟨le_of_lt hpk, hknk⟩)] at hrem
      have hremZ : ((M.countP (fun m => decide (p ≤ m ∧ m < nk)) : Nat) : Int)
          = (((remSorted k M).countP (fun m => decide (p ≤ m ∧ m < nk)) : Nat) : Int) + 1 := by
        exact_mod_cast hrem
      have hsplit := countIco_split M (le_of_lt hpk) (le_of_lt hknk)
      rw [hs'', hsp, hsk2]
      omega
  -- final pointwise comparison
  apply lookupA_ext (sortedKeys_addL hsk1) (sortedKeys_canonLevel hM'' hbot'' l)
  intro x
  simp only [lookupA_addL, lookupA_canonLevel, hE''eq]
  have hlook1 : ∀ y, lookupA (delA (canonLevel hash M l) k) y
      = if y ∈ (⊥ : A) :: remSorted k (levelKeys hash M l)
        then some (spanCount M (levelKeys hash M l) y) else none := by
    intro y
    rw [hlvl1, lookupA_map_graph]
  rw [hlook1, hlook1]
  by_cases hxp : x = p
  · subst hxp
    rw [if_pos rfl, if_pos hpmem, if_pos hpmem, Option.getD_some, hspan_p]
  · rw [if_neg hxp]
    by_cases hxE : x ∈ (⊥ : A) :: remSorted k (levelKeys hash M l)
    · rw [if_pos hxE, if_pos hxE, hspan_other x hxE hxp]
    · rw [if_neg hxE, if_neg hxE]

theorem eraseAtLevel_mix (hM : M.Sorted (· < ·)) (hbot : ∀ m ∈ M, m ≠ ⊥)
    (hk : k ≠ ⊥) (hkM : k ∈ M) (l : Nat) (hl : l < MAX_LEVELS) :
    eraseAtLevel k (mixS hash (remSorted k M) M l) l
      = mixS hash (remSorted k M) M (l + 1) := by
  have hgl : getLevel (mixS hash (remSorted k M) M l) l = canonLevel hash M l := by
    rw [getLevel_mixS hl, if_neg (lt_irrefl l)]
  simp only [eraseAtLevel, hgl, setLevel]
  by_cases hp : promoted hash l k = true
  · have hkE : k ∈ (⊥ : A) :: levelKeys hash M l :=
      List.mem_cons_of_mem _ (mem_levelKeys.2 ⟨hkM, hp⟩)
    have hcl : lookupA (canonLevel hash M l) k
        = some (spanCount M (levelKeys hash M l) k) := by
      rw [lookupA_canonLevel, if_pos hkE]
    rw [hcl]
    by_cases hl0 : l = 0
    · subst hl0
      rw [if_pos rfl]
      exact setLevel_mixS (erase_level_zero hM hbot hk hkM)
    · rw [if_neg hl0]
      rw [List.set_set]
      exact setLevel_mixS (erase_level_promoted hM hbot hk hkM l hp)
  · have hpf : promoted hash l k = false := Bool.eq_false_iff.2 hp
    have hl0 : l ≠ 0 := by
      intro hc
      subst hc
      rw [promoted_zero k] at hpf
      cases hpf
    have hkE : k ∉ (⊥ : A) :: levelKeys hash M l := by
      intro hc
      rcases List.mem_cons.1 hc with hc | hc
      · exact hk hc
      · rw [(mem_levelKeys.1 hc).2] at hpf
        cases hpf
    have hcl : lookupA (canonLevel hash M l) k = none := by
      rw [lookupA_canonLevel, if_neg hkE]
    rw [hcl]
    rw [if_neg hl0]
    rw [List.set_set]
    exact setLevel_mixS (erase_level_not_promoted hM hbot hk hkM l hpf)

theorem erase_canon (hM : M.Sorted (· < ·)) (hbot : ∀ m ∈ M, m ≠ ⊥)
    (hk : k ≠ ⊥) (hkM : k ∈ M) :
    erase (canonState hash M) k = canonState hash (remSorted k M) := by
  unfold erase
  rw [if_neg hk]
  have hct : contains (canonState hash M) k = true := contains_canonState.2 (Or.inr hkM)
  rw [hct]
  simp only [Bool.true_eq_false, if_false]
  have h0 : canonState hash M = mixS hash (remSorted k M) M 0 := mixS_zero.symm
  rw [h0]
  have hr : List.range MAX_LEVELS = [0, 1, 2, 3, 4, 5] := rfl
  rw [hr]
  simp only [List.foldl_cons, List.foldl_nil]
  rw [eraseAtLevel_mix hM hbot hk hkM 0 (by norm_num [MAX_LEVELS]),
    eraseAtLevel_mix hM hbot hk hkM 1 (by norm_num [MAX_LEVELS]),
    eraseAtLevel_mix hM hbot hk hkM 2 (by norm_num [MAX_LEVELS]),
    eraseAtLevel_mix hM hbot hk hkM 3 (by norm_num [MAX_LEVELS]),
    eraseAtLevel_mix hM hbot hk hkM 4 (by norm_num [MAX_LEVELS]),
    eraseAtLevel_mix hM hbot hk hkM 5 (by norm_num [MAX_LEVELS])]
  exact mixS_top

end EraseCanon

section MasterCanon

variable {A : Type} [LinearOrder A] [OrderBot A] {hash : A → Nat}

theorem canonLevel_nil (l : Nat) : canonLevel hash ([] : List A) l = [(⊥, 0)] := by
  unfold canonLevel levelKeys
  simp [spanCount, nextE]

theorem initRS_canon : (initRS : RS A) = canonState hash [] := by
  unfold initRS setup_levels canonState
  have h1 : (List.replicate MAX_LEVELS ([] : Level A)).map
      (fun lvl => if lookupA lvl (⊥ : A) = none then setA lvl ⊥ 0 else lvl)
      = List.replicate MAX_LEVELS [((⊥ : A), (0 : Int))] := by
    rw [List.map_replicate]
    simp [lookupA, setA]
  rw [h1]
  apply List.ext_getElem
  · simp
  · intro i h1 h2
    simp only [List.getElem_replicate, List.getElem_map, List.getElem_range]
    rw [canonLevel_nil]

theorem clear_all_canon {s : RS A} (hlen : s.length = MAX_LEVELS) :
    clear_all s = canonState hash [] := by
  unfold clear_all setup_levels canonState
  apply List.ext_getElem
  · simp [hlen]
  · intro i h1 h2
    simp only [List.getElem_map, List.getElem_range]
    rw [canonLevel_nil]
    rfl

/-- Every reachable RankedSet state is the canonical store determined by its
sorted member list: the decisive structural theorem for C1 and C2. -/
theorem reachable_canonical {s : RS A} (h : Reachable hash s) :
    ∃ M : List A, M.Sorted (· < ·) ∧ (∀ m ∈ M, m ≠ ⊥) ∧ s = canonState hash M := by
  induction h with
  | setup => exact ⟨[], List.sorted_nil, by simp, initRS_canon⟩
  | ins s k hr ih =>
    obtain ⟨M, hM, hbot, rfl⟩ := ih
    by_cases hkb : k = ⊥
    · subst hkb
      exact ⟨M, hM, hbot, insert_bot_canon⟩
    · by_cases hkM : k ∈ M
      · exact ⟨M, hM, hbot, insert_mem_canon hkM⟩
      · refine ⟨insSorted k M, insSorted_sorted hM hkM, ?_, insert_canon hM hbot hkb hkM⟩
        intro m hm
        rcases mem_insSorted.1 hm with rfl | hm2
        · exact hkb
        · exact hbot m hm2
  | del s k hr ih =>
    obtain ⟨M, hM, hbot, rfl⟩ := ih
    by_cases hkb : k = ⊥
    · subst hkb
      exact ⟨M, hM, hbot, erase_bot_canon⟩
    · by_cases hkM : k ∈ M
      · exact ⟨remSorted k M, remSorted_sorted hM,
          fun m hm => hbot m (mem_remSorted.1 hm).1, erase_canon hM hbot hkb hkM⟩
      · exact ⟨M, hM, hbot, erase_not_mem_canon hkM⟩
  | clear s hr ih =>
    obtain ⟨M, hM, hbot, rfl⟩ := ih
    refine ⟨[], List.sorted_nil, by simp, clear_all_canon ?_⟩
    simp [canonState]

/-- Claim C2, part (a): every entry at a positive level is present one level
below. -/
def LevelSubsetInv (s : RS A) : Prop :=
  ∀ l : Nat, 1 ≤ l → l < MAX_LEVELS →
    ∀ q ∈ getLevel s l, (lookupA (getLevel s (l - 1)) q.1).isSome = true

/-- The next key present at a level strictly after `x`. -/
def nextKeyAt (lvl : Level A) (x : A) : Option A :=
  ((lvl.map Prod.fst).filter (fun e => decide (x < e))).head?

/-- Claim C2, part (b): the count stored at `(level > 0, k)` equals the
number of member keys in the half-open interval from `k` to the next key
present at that level (unbounded when there is none). -/
def LevelCountInv (s : RS A) : Prop :=
  ∀ l : Nat, 1 ≤ l → l < MAX_LEVELS →
    ∀ q ∈ getLevel s l,
      q.2 = (match nextKeyAt (getLevel s l) q.1 with
             | none => ((membersL s).countP (fun m => decide (q.1 ≤ m)) : Int)
             | some n => ((membersL s).countP (fun m => decide (q.1 ≤ m ∧ m < n)) : Int))

theorem nextKeyAt_canonLevel {M : List A} (l : Nat) (x : A) :
    nextKeyAt (canonLevel hash M l) x = nextE (levelKeys hash M l) x := by
  unfold nextKeyAt nextE
  rw [keys_canonLevel, List.filter_cons_of_neg (by simp)]

theorem mem_canonLevel {M : List A} {l : Nat} {q : A × Int}
    (hq : q ∈ canonLevel hash M l) :
    q.1 ∈ (⊥ : A) :: levelKeys hash M l
      ∧ q.2 = spanCount M (levelKeys hash M l) q.1 := by
  unfold canonLevel at hq
  rcases List.mem_map.1 hq with ⟨e, he, rfl⟩
  exact ⟨he, rfl⟩

end MasterCanon

section RankCorrect

variable {A : Type} [LinearOrder A] [OrderBot A] {hash : A → Nat} {M : List A}

theorem rankFold_eq (es : List A) (f : A → Int) :
    ∀ (a : A) (c acc : Int),
      (es.map (fun e => (e, f e))).foldl
          (fun t p => (p.1, p.2, t.2.2 + p.2)) (a, c, acc)
        = (es.getLastD a, (es.map f).getLastD c, acc + (es.map f).sum) := by
  induction es with
  | nil =>
    intro a c acc
    simp
  | cons e t ih =>
    intro a c acc
    simp only [List.map_cons, List.foldl_cons]
    rw [ih]
    simp only [List.getLastD_cons, List.sum_cons, add_assoc]

theorem filter_split_last {ks : List A} (hks : ks.Sorted (· < ·)) {c : A}
    {p q : A → Bool} (hc : c ∈ ks)
    (hiff : ∀ e ∈ ks, (p e = true ↔ (q e = true ∨ e = c)))
    (hlt : ∀ e ∈ ks, q e = true → e < c) :
    ks.filter p = ks.filter q ++ [c] := by
  induction ks with
  | nil => cases hc
  | cons h t ih =>
    rw [List.sorted_cons] at hks
    rcases List.mem_cons.1 hc with rfl | hct
    · have hpc : p c = true := (hiff c (List.mem_cons_self _ _)).2 (Or.inr rfl)
      have hqc : ¬ q c = true := fun hq =>
        absurd (hlt c (List.mem_cons_self _ _) hq) (lt_irrefl c)
      rw [List.filter_cons_of_pos hpc, List.filter_cons_of_neg hqc]
      have hpt : t.filter p = [] := by
        apply List.filter_eq_nil_iff.2
        intro e he hpe
        rcases (hiff e (List.mem_cons_of_mem _ he)).1 hpe with hq | rfl
        · exact absurd (hks.1 e he) (not_lt.2 (le_of_lt (hlt e (List.mem_cons_of_mem _ he) hq)))
        · exact absurd (hks.1 e he) (lt_irrefl e)
      have hqt : t.filter q = [] := by
        apply List.filter_eq_nil_iff.2
        intro e he hqe
        exact absurd (hks.1 e he)
          (not_lt.2 (le_of_lt (hlt e (List.mem_cons_of_mem _ he) hqe)))
      rw [hpt, hqt]
      rfl
    · have hhc : h < c := hks.1 c hct
      have hph : p h = true ↔ q h = true := by
        rw [hiff h (List.mem_cons_self _ _)]
        constructor
        · rintro (hq | rfl)
          · exact hq
          · exact absurd hhc (lt_irrefl h)
        · exact Or.inl
      have ihx := ih hks.2 hct
        (fun e he => hiff e (List.mem_cons_of_mem _ he))
        (fun e he => hlt e (List.mem_cons_of_mem _ he))
      by_cases hq : q h = true
      · rw [List.filter_cons_of_pos (hph.2 hq), List.filter_cons_of_pos hq, ihx]
        rfl
      · rw [List.filter_cons_of_neg (fun hp => hq (hph.1 hp)), List.filter_cons_of_neg hq, ihx]

theorem rankScan_canonLevel (l : Nat) (rk k : A) :
    rankScan (canonLevel hash M l) rk k
      = (((⊥ : A) :: levelKeys hash M l).filter
          (fun e => decide (rk ≤ e ∧ e ≤ k))).map
          (fun e => (e, spanCount M (levelKeys hash M l) e)) := by
  unfold rankScan canonLevel
  rw [List.filter_map]
  rfl

theorem rankLevelRun_map (es : List A) (f : A → Int) (rk0 : A) (r0 : Int) :
    rankLevelRun (es.map (fun e => (e, f e))) rk0 r0
      = (es.getLastD rk0, r0 + (es.map f).sum - (es.map f).getLastD 0) := by
  unfold rankLevelRun
  rw [rankFold_eq]

theorem rankLevel_canon (hM : M.Sorted (· < ·)) (hbot : ∀ m ∈ M, m ≠ ⊥)
    {k : A} (l : Nat) (hl : l < MAX_LEVELS)
    {rk : A} (hrk : rk ∈ (⊥ : A) :: levelKeys hash M l) (hrkk : rk ≤ k)
    (r : Int) {e : A} {r' : Int}
    (hres : rankLevelRun (rankScan (getLevel (canonState hash M) l) rk k) rk r
              = (e, r')) :
    e ∈ (⊥ : A) :: levelKeys hash M l ∧ rk ≤ e ∧ e ≤ k
      ∧ r' = r + (M.countP (fun m => decide (rk ≤ m ∧ m < e)) : Int)
      ∧ (k ∈ levelKeys hash M l → e = k) := by
  have hEs : ((⊥ : A) :: levelKeys hash M l).Sorted (· < ·) := sorted_entry hM hbot l
  rw [getLevel_canonState hl, rankScan_canonLevel, rankLevelRun_map,
    Prod.mk.injEq] at hres
  obtain ⟨he, hr'⟩ := hres
  have hflt_sorted : (((⊥ : A) :: levelKeys hash M l).filter
      (fun x => decide (rk ≤ x ∧ x ≤ k))).Sorted (· < ·) := hEs.filter _
  have hrkflt : rk ∈ ((⊥ : A) :: levelKeys hash M l).filter
      (fun x => decide (rk ≤ x ∧ x ≤ k)) :=
    List.mem_filter.2 ⟨hrk, by simp [hrkk]⟩
  rcases sorted_getLastD hflt_sorted rk with ⟨hnil, -⟩ | ⟨hmem, hmax⟩
  case _ => rw [hnil] at hrkflt; cases hrkflt
  rw [he] at hmem hmax
  have hmem' := List.mem_filter.1 hmem
  have heE : e ∈ (⊥ : A) :: levelKeys hash M l := hmem'.1
  have hbd : rk ≤ e ∧ e ≤ k := by simpa using hmem'.2
  have hsplit : ((⊥ : A) :: levelKeys hash M l).filter
        (fun x => decide (rk ≤ x ∧ x ≤ k))
      = ((⊥ : A) :: levelKeys hash M l).filter
          (fun x => decide (rk ≤ x ∧ x < e)) ++ [e] := by
    apply filter_split_last hEs heE
    · intro x hx
      simp only [decide_eq_true_eq]
      constructor
      · intro hp
        have hxle : x ≤ e := by
          have := hmax x (List.mem_filter.2 ⟨hx, by simpa using hp⟩)
          simpa using this
        rcases lt_or_eq_of_le hxle with hlt | heq
        · exact Or.inl ⟨hp.1, hlt⟩
        · exact Or.inr heq
      · rintro (⟨h1, h2⟩ | rfl)
        · exact ⟨h1, le_of_lt (lt_of_lt_of_le h2 hbd.2)⟩
        · exact hbd
    · intro x hx hq
      simpa using (of_decide_eq_true hq).2
  refine ⟨heE, hbd.1, hbd.2, ?_, ?_⟩
  · rw [← hr', hsplit, List.map_append]
    simp only [List.map_cons, List.map_nil, List.sum_append, List.sum_cons, List.sum_nil]
    rw [List.getLastD_concat]
    have hsum := sum_spans M (levelKeys hash M l) hEs rk e hrk heE hbd.1
    rw [hsum]
    ring
  · intro hkE
    have hkflt : k ∈ ((⊥ : A) :: levelKeys hash M l).filter
        (fun x => decide (rk ≤ x ∧ x ≤ k)) :=
      List.mem_filter.2 ⟨List.mem_cons_of_mem _ hkE, by simp [hrkk]⟩
    have hke : k ≤ e := by simpa using hmax k hkflt
    exact le_antisymm hbd.2 hke

theorem rankAux_canon (hM : M.Sorted (· < ·)) (hbot : ∀ m ∈ M, m ≠ ⊥)
    {k : A} (hkM : k ∈ M) :
    ∀ (l : Nat), l < MAX_LEVELS →
      ∀ (rk : A), rk ∈ (⊥ : A) :: levelKeys hash M l → rk ≤ k →
        ∀ (r : Int),
          rankAux (canonState hash M) k l rk r
            = r + (M.countP (fun m => decide (rk ≤ m ∧ m < k)) : Int) := by
  intro l
  induction l with
  | zero =>
    intro _ rk hrk hrkk r
    unfold rankAux
    rcases hrr : rankLevelRun (rankScan (getLevel (canonState hash M) 0) rk k) rk r
      with ⟨e, r2⟩
    obtain ⟨hmem, hrke, hek, hr2, hkE⟩ :=
      rankLevel_canon hM hbot 0 (by norm_num [MAX_LEVELS]) hrk hrkk r hrr
    have hke : e = k := hkE (by rw [levelKeys_zero]; exact hkM)
    show r2 = r + (M.countP (fun m => decide (rk ≤ m ∧ m < k)) : Int)
    rw [hr2, hke]
  | succ l ih =>
    intro hl rk hrk hrkk r
    unfold rankAux
    rcases hrr : rankLevelRun (rankScan (getLevel (canonState hash M) (l + 1)) rk k) rk r
      with ⟨e, r2⟩
    obtain ⟨hmem, hrke, hek, hr2, -⟩ :=
      rankLevel_canon hM hbot (l + 1) hl hrk hrkk r hrr
    show (if e = k then r2 else rankAux (canonState hash M) k l e r2)
      = r + (M.countP (fun m => decide (rk ≤ m ∧ m < k)) : Int)
    by_cases heq : e = k
    · rw [if_pos heq, hr2, heq]
    · rw [if_neg heq]
      have hmem' : e ∈ (⊥ : A) :: levelKeys hash M l := by
        rcases List.mem_cons.1 hmem with hc | hc
        · exact hc ▸ List.mem_cons_self _ _
        · refine List.mem_cons_of_mem _ ?_
          rcases mem_levelKeys.1 hc with ⟨hqM, hprom⟩
          exact mem_levelKeys.2 ⟨hqM, promoted_mono (Nat.le_succ l) hprom⟩
      rw [ih (by omega) e hmem' hek r2, hr2, countIco_split M hrke hek]
      ring

theorem rank_canon (hM : M.Sorted (· < ·)) (hbot : ∀ m ∈ M, m ≠ ⊥)
    {k : A} (hkM : k ∈ M) :
    rank (canonState hash M) k
      = some ((M.countP (fun m => decide (m < k)) : Int)) := by
  have hk : k ≠ ⊥ := hbot k hkM
  have hct : contains (canonState hash M) k = true := contains_canonState.2 (Or.inr hkM)
  unfold rank
  rw [if_neg hk, hct]
  simp only [Bool.true_eq_false, if_false]
  rw [rankAux_canon hM hbot hkM (MAX_LEVELS - 1) (by norm_num [MAX_LEVELS]) ⊥
    (List.mem_cons_self _ _) bot_le 0]
  have hcp : M.countP (fun m => decide ((⊥ : A) ≤ m ∧ m < k))
      = M.countP (fun m => decide (m < k)) := by
    apply List.countP_congr
    intro m hm
    simp [bot_le]
  rw [zero_add, hcp]

end RankCorrect

section NthCorrect

variable {A : Type} [LinearOrder A] [OrderBot A] {hash : A → Nat} {M : List A}

theorem nthScan_canonLevel (l : Nat) (k : A) :
    nthScan (canonLevel hash M l) k
      = (((⊥ : A) :: levelKeys hash M l).filter (fun e => decide (k ≤ e))).map
          (fun e => (e, spanCount M (levelKeys hash M l) e)) := by
  unfold nthScan canonLevel
  rw [List.filter_map]
  rfl

theorem spanCount_nonneg (M E : List A) (x : A) : 0 ≤ spanCount M E x := by
  cases hn : nextE E x with
  | none =>
    simp only [spanCount, hn]
    exact Int.natCast_nonneg _
  | some n =>
    simp only [spanCount, hn]
    exact Int.natCast_nonneg _

theorem filter_ge_cons {ks : List A} (hks : ks.Sorted (· < ·)) {a n₀ : A}
    (haks : a ∈ ks) (han : a < n₀) (hleast : ∀ e ∈ ks, a < e → n₀ ≤ e) :
    ks.filter (fun e => decide (a ≤ e)) = a :: ks.filter (fun e => decide (n₀ ≤ e)) := by
  induction ks with
  | nil => cases haks
  | cons h t ih =>
    rw [List.sorted_cons] at hks
    rcases List.mem_cons.1 haks with rfl | hat
    · rw [List.filter_cons_of_pos (by simp),
        List.filter_cons_of_neg (by simpa using not_le.2 han)]
      congr 1
      apply List.filter_congr
      intro e he
      have hae : a < e := hks.1 e he
      rw [decide_eq_decide]
      exact ⟨fun _ => hleast e (List.mem_cons_of_mem _ he) hae, fun _ => le_of_lt hae⟩
    · have hha : h < a := hks.1 a hat
      rw [List.filter_cons_of_neg (by simpa using not_le.2 hha),
        List.filter_cons_of_neg (by simpa using not_le.2 (lt_trans hha han))]
      exact ih hks.2 hat (fun e he => hleast e (List.mem_cons_of_mem _ he))

theorem filter_ge_single {ks : List A} (hks : ks.Sorted (· < ·)) {a : A}
    (haks : a ∈ ks) (hnone : ∀ e ∈ ks, ¬ a < e) :
    ks.filter (fun e => decide (a ≤ e)) = [a] := by
  induction ks with
  | nil => cases haks
  | cons h t ih =>
    rw [List.sorted_cons] at hks
    rcases List.mem_cons.1 haks with rfl | hat
    · rw [List.filter_cons_of_pos (by simp)]
      have ht : t.filter (fun e => decide (a ≤ e)) = [] := by
        apply List.filter_eq_nil_iff.2
        intro e he
        exact fun hc => hnone e (List.mem_cons_of_mem _ he) (hks.1 e he)
      rw [ht]
    · have hha : h < a := hks.1 a hat
      rw [List.filter_cons_of_neg (by simpa using not_le.2 hha)]
      exact ih hks.2 hat (fun e he => hnone e (List.mem_cons_of_mem _ he))

theorem filter_ge_self_mem {M : List A} (hM : M.Sorted (· < ·)) {x : A} (hx : x ∈ M) :
    M.filter (fun m => decide (x ≤ m)) = x :: M.filter (fun m => decide (x < m)) := by
  induction M with
  | nil => cases hx
  | cons m t ih =>
    rw [List.sorted_cons] at hM
    rcases List.mem_cons.1 hx with rfl | hxt
    · rw [List.filter_cons_of_pos (by simp),
        List.filter_cons_of_neg (by simp)]
      congr 1
      apply List.filter_congr
      intro e he
      have hxe : x < e := hM.1 e he
      rw [decide_eq_decide]
      exact ⟨fun _ => hxe, fun _ => le_of_lt hxe⟩
    · have hmx : m < x := hM.1 x hxt
      rw [List.filter_cons_of_neg (by simpa using not_le.2 hmx),
        List.filter_cons_of_neg (by simpa using not_lt.2 (le_of_lt hmx))]
      exact ih hM.2 hxt

theorem filter_ge_append {M : List A} (hM : M.Sorted (· < ·)) {a b : A} (hab : a ≤ b) :
    M.filter (fun m => decide (a ≤ m))
      = M.filter (fun m => decide (a ≤ m ∧ m < b))
          ++ M.filter (fun m => decide (b ≤ m)) := by
  induction M with
  | nil => rfl
  | cons m t ih =>
    rw [List.sorted_cons] at hM
    by_cases h1 : a ≤ m
    · by_cases h2 : m < b
      · rw [List.filter_cons_of_pos (by simpa using h1),
          List.filter_cons_of_pos (by simp [h1, h2]),
          List.filter_cons_of_neg (by simpa using not_le.2 h2),
          List.cons_append, ih hM.2]
      · have hbm : b ≤ m := not_lt.1 h2
        rw [List.filter_cons_of_pos (by simpa using h1),
          List.filter_cons_of_neg (by simp [h2]),
          List.filter_cons_of_pos (by simpa using hbm)]
        have hmid : t.filter (fun x => decide (a ≤ x ∧ x < b)) = [] := by
          apply List.filter_eq_nil_iff.2
          intro e he
          simp only [decide_eq_true_eq, not_and]
          intro _ heb
          exact absurd (hM.1 e he) (not_lt.2 (le_of_lt (lt_of_lt_of_le heb hbm)))
        rw [hmid, List.nil_append]
        congr 1
        apply List.filter_congr
        intro e he
        have hme : m < e := hM.1 e he
        rw [decide_eq_decide]
        constructor
        · intro _
          exact le_of_lt (lt_of_le_of_lt hbm hme)
        · intro _
          exact le_trans hab (le_of_lt (lt_of_le_of_lt hbm hme))
    · have h3 : ¬ b ≤ m := fun hc => h1 (le_trans hab hc)
      rw [List.filter_cons_of_neg (by simpa using h1),
        List.filter_cons_of_neg (by simp [h1]),
        List.filter_cons_of_neg (by simpa using h3)]
      exact ih hM.2

/-- The invariant of the `get_nth` inner loop on a canonical level: what each
`NthRes` outcome means for the remaining search. -/
def NthSpec (M E : List A) (e₀ : A) (r : Int) : NthRes A → Prop
  | NthRes.found m => (M.filter (fun x => decide (e₀ ≤ x)))[r.toNat]? = some m
  | NthRes.exhausted => (M.filter (fun x => decide (e₀ ≤ x)))[r.toNat]? = none
  | NthRes.descend e r' =>
      e ∈ (⊥ : A) :: E ∧ 0 ≤ r' ∧ r' < spanCount M E e ∧ (e = ⊥ ∨ r' ≠ 0)
        ∧ (M.filter (fun x => decide (e ≤ x)))[r'.toNat]?
            = (M.filter (fun x => decide (e₀ ≤ x)))[r.toNat]?

theorem nthStep_canon (M E : List A) (hM : M.Sorted (· < ·))
    (hE : ((⊥ : A) :: E).Sorted (· < ·)) (hEM : ∀ e ∈ E, e ∈ M)
    (e₀ : A) (he₀ : e₀ ∈ (⊥ : A) :: E) (r : Int) (hr : 0 ≤ r) :
    NthSpec M E e₀ r
      (nthStep ((((⊥ : A) :: E).filter (fun e => decide (e₀ ≤ e))).map
        (fun e => (e, spanCount M E e))) r) := by
  have hEs : E.Sorted (· < ·) := (List.sorted_cons.1 hE).2
  cases hn : nextE E e₀ with
  | none =>
    have hsingle : ((⊥ : A) :: E).filter (fun e => decide (e₀ ≤ e)) = [e₀] := by
      apply filter_ge_single hE he₀
      intro e he
      rcases List.mem_cons.1 he with rfl | heE
      · exact not_lt.2 bot_le
      · exact nextE_eq_none.1 hn e heE
    rw [hsingle, List.map_cons, List.map_nil]
    simp only [nthStep]
    by_cases hf : e₀ ≠ ⊥ ∧ r = 0
    · rw [if_pos hf]
      have he₀E : e₀ ∈ E := by
        rcases List.mem_cons.1 he₀ with rfl | hc
        · exact absurd rfl hf.1
        · exact hc
      show (M.filter (fun x => decide (e₀ ≤ x)))[r.toNat]? = some e₀
      rw [filter_ge_self_mem hM (hEM e₀ he₀E), hf.2]
      simp
    · rw [if_neg hf]
      by_cases hd : spanCount M E e₀ > r
      · rw [if_pos hd]
        refine ⟨he₀, hr, hd, ?_, rfl⟩
        rcases not_and_or.1 hf with hc | hc
        · exact Or.inl (not_not.1 hc)
        · exact Or.inr hc
      · rw [if_neg hd]
        show (M.filter (fun x => decide (e₀ ≤ x)))[r.toNat]? = none
        have hlenr : (M.filter (fun x => decide (e₀ ≤ x))).length ≤ r.toNat := by
          have hcnt : (M.countP (fun x => decide (e₀ ≤ x)) : Int) ≤ r := by
            have := not_lt.1 hd
            simpa only [spanCount, hn] using this
          rw [← List.countP_eq_length_filter]
          omega
        exact List.getElem?_eq_none hlenr
  | some n₀ =>
    rcases nextE_some hEs hn with ⟨hn₀E, han₀, hleast⟩
    have hleast' : ∀ e ∈ ((⊥ : A) :: E), e₀ < e → n₀ ≤ e := by
      intro e he hae
      rcases List.mem_cons.1 he with rfl | heE
      · exact absurd hae (not_lt.2 bot_le)
      · exact hleast e heE hae
    have hcons : ((⊥ : A) :: E).filter (fun e => decide (e₀ ≤ e))
        = e₀ :: ((⊥ : A) :: E).filter (fun e => decide (n₀ ≤ e)) :=
      filter_ge_cons hE he₀ han₀ hleast'
    rw [hcons, List.map_cons]
    simp only [nthStep]
    by_cases hf : e₀ ≠ ⊥ ∧ r = 0
    · rw [if_pos hf]
      have he₀E : e₀ ∈ E := by
        rcases List.mem_cons.1 he₀ with rfl | hc
        · exact absurd rfl hf.1
        · exact hc
      show (M.filter (fun x => decide (e₀ ≤ x)))[r.toNat]? = some e₀
      rw [filter_ge_self_mem hM (hEM e₀ he₀E), hf.2]
      simp
    · rw [if_neg hf]
      by_cases hd : spanCount M E e₀ > r
      · rw [if_pos hd]
        refine ⟨he₀, hr, hd, ?_, rfl⟩
        rcases not_and_or.1 hf with hc | hc
        · exact Or.inl (not_not.1 hc)
        · exact Or.inr hc
      · rw [if_neg hd]
        have hspan : spanCount M E e₀
            = (M.countP (fun m => decide (e₀ ≤ m ∧ m < n₀)) : Int) := by
          simp only [spanCount, hn]
        have hr2 : 0 ≤ r - spanCount M E e₀ := by
          have := not_lt.1 hd
          omega
        have hrec := nthStep_canon M E hM hE hEM n₀ (List.mem_cons_of_mem _ hn₀E)
          (r - spanCount M E e₀) hr2
        have hkey : (M.filter (fun x => decide (n₀ ≤ x)))[(r - spanCount M E e₀).toNat]?
            = (M.filter (fun x => decide (e₀ ≤ x)))[r.toNat]? := by
          rw [filter_ge_append hM (le_of_lt han₀)]
          have hlen : (M.filter (fun m => decide (e₀ ≤ m ∧ m < n₀))).length ≤ r.toNat := by
            have hcnt : (M.countP (fun m => decide (e₀ ≤ m ∧ m < n₀)) : Int) ≤ r := by
              rw [← hspan]
              exact not_lt.1 hd
            rw [← List.countP_eq_length_filter]
            omega
          rw [List.getElem?_append_right hlen]
          congr 1
          have hlenv : ((M.filter (fun m => decide (e₀ ≤ m ∧ m < n₀))).length : Int)
              = spanCount M E e₀ := by
            rw [← List.countP_eq_length_filter, hspan]
          omega
        cases hstep : nthStep ((((⊥ : A) :: E).filter
            (fun e => decide (n₀ ≤ e))).map (fun e => (e, spanCount M E e)))
            (r - spanCount M E e₀) with
        | found m =>
          rw [hstep] at hrec
          show (M.filter (fun x => decide (e₀ ≤ x)))[r.toNat]? = some m
          rw [← hkey]
          exact hrec
        | exhausted =>
          rw [hstep] at hrec
          show (M.filter (fun x => decide (e₀ ≤ x)))[r.toNat]? = none
          rw [← hkey]
          exact hrec
        | descend e r' =>
          rw [hstep] at hrec
          obtain ⟨h1, h2, h3, h4, h5⟩ := hrec
          exact ⟨h1, h2, h3, h4, h5.trans hkey⟩
termination_by (E.filter (fun e => decide (e₀ < e))).length
decreasing_by
  simp_wf
  have hsub : E.filter (fun e => decide (n₀ < e))
      = (E.filter (fun e => decide (e₀ < e))).filter (fun e => decide (n₀ < e)) := by
    rw [List.filter_filter]
    apply List.filter_congr
    intro e he
    by_cases hc : n₀ < e
    · simp [hc, lt_trans han₀ hc]
    · simp [hc]
  rw [hsub]
  apply List.length_filter_lt_length_iff_exists.2
  exact ⟨n₀, List.mem_filter.2 ⟨hn₀E, by simpa using han₀⟩, by simp⟩

theorem nthAux_canon (hM : M.Sorted (· < ·)) (hbot : ∀ m ∈ M, m ≠ ⊥) :
    ∀ (l : Nat), l < MAX_LEVELS →
      ∀ (key : A), key ∈ (⊥ : A) :: levelKeys hash M l →
        ∀ (r : Int), 0 ≤ r →
          nthAux (canonState hash M) l key r
            = (M.filter (fun x => decide (key ≤ x)))[r.toNat]? := by
  intro l
  induction l with
  | zero =>
    intro _ key hkey r hr
    unfold nthAux
    rw [getLevel_canonState (by norm_num [MAX_LEVELS]), nthScan_canonLevel]
    have hspec := nthStep_canon M (levelKeys hash M 0) hM (sorted_entry hM hbot 0)
      (fun e he => (mem_levelKeys.1 he).1) key hkey r hr
    cases hstep : nthStep ((((⊥ : A) :: levelKeys hash M 0).filter
        (fun e => decide (key ≤ e))).map
        (fun e => (e, spanCount M (levelKeys hash M 0) e))) r with
    | found m =>
      rw [hstep] at hspec
      exact hspec.symm
    | exhausted =>
      rw [hstep] at hspec
      exact hspec.symm
    | descend e r' =>
      rw [hstep] at hspec
      obtain ⟨heE, hr', hlt, hne, -⟩ := hspec
      exfalso
      rw [levelKeys_zero] at heE hlt
      rw [spanCount_level0 hM hbot heE] at hlt
      by_cases hb : e = ⊥
      · rw [if_pos hb] at hlt
        omega
      · rw [if_neg hb] at hlt
        rcases hne with hb' | hne'
        · exact hb hb'
        · omega
  | succ l ih =>
    intro hl key hkey r hr
    unfold nthAux
    rw [getLevel_canonState hl, nthScan_canonLevel]
    have hspec := nthStep_canon M (levelKeys hash M (l + 1)) hM
      (sorted_entry hM hbot (l + 1)) (fun e he => (mem_levelKeys.1 he).1) key hkey r hr
    cases hstep : nthStep ((((⊥ : A) :: levelKeys hash M (l + 1)).filter
        (fun e => decide (key ≤ e))).map
        (fun e => (e, spanCount M (levelKeys hash M (l + 1)) e))) r with
    | found m =>
      rw [hstep] at hspec
      exact hspec.symm
    | exhausted =>
      rw [hstep] at hspec
      exact hspec.symm
    | descend e r' =>
      rw [hstep] at hspec
      obtain ⟨heE, hr', hlt, hne, hgets⟩ := hspec
      have heE' : e ∈ (⊥ : A) :: levelKeys hash M l := by
        rcases List.mem_cons.1 heE with hc | hc
        · exact hc ▸ List.mem_cons_self _ _
        · refine List.mem_cons_of_mem _ ?_
          rcases mem_levelKeys.1 hc with ⟨hqM, hprom⟩
          exact mem_levelKeys.2 ⟨hqM, promoted_mono (Nat.le_succ l) hprom⟩
      show nthAux (canonState hash M) l e r' = (M.filter (fun x => decide (key ≤ x)))[r.toNat]?
      rw [ih (by omega) e heE' r' hr']
      exact hgets

theorem get_nth_canon (hM : M.Sorted (· < ·)) (hbot : ∀ m ∈ M, m ≠ ⊥)
    {r : Int} (hr : 0 ≤ r) :
    get_nth (canonState hash M) r = M[r.toNat]? := by
  unfold get_nth
  rw [if_neg (not_lt.2 hr)]
  rw [nthAux_canon hM hbot (MAX_LEVELS - 1) (by norm_num [MAX_LEVELS]) ⊥
    (List.mem_cons_self _ _) r hr]
  congr 1
  apply List.filter_eq_self.2
  intro a _
  simp

theorem sorted_getElem_countLt {M : List A} (hM : M.Sorted (· < ·)) {k : A}
    (hk : k ∈ M) :
    M[(M.countP (fun m => decide (m < k)))]? = some k := by
  induction M with
  | nil => cases hk
  | cons m t ih =>
    rw [List.sorted_cons] at hM
    rcases List.mem_cons.1 hk with rfl | hkt
    · have h0 : (k :: t).countP (fun m => decide (m < k)) = 0 := by
        apply List.countP_eq_zero.2
        intro a ha
        simp only [decide_eq_true_eq]
        rcases List.mem_cons.1 ha with rfl | hat
        · exact lt_irrefl a
        · exact not_lt.2 (le_of_lt (hM.1 a hat))
      rw [h0]
      simp
    · have hmk : m < k := hM.1 k hkt
      rw [List.countP_cons]
      simp only [hmk, decide_eq_true_eq, if_pos, List.getElem?_cons_succ]
      exact ih hM.2 hkt

end NthCorrect

section Claims

/-- Claim C1: for every RankedSet state reachable by setup followed by any
sequence of insert/erase of non-empty keys, and for every member key `k`,
`rank` returns the number of member keys strictly less than `k`, and
`get_nth` applied to that rank returns `k`. -/
theorem claim_C1_rank_get_nth {A : Type} [LinearOrder A] [OrderBot A]
    {hash : A → Nat} {s : RS A} (h : Reachable hash s) {k : A}
    (hk : k ∈ membersL s) :
    rank s k = some (((membersL s).countP (fun m => decide (m < k)) : Nat) : Int)
      ∧ get_nth s (((membersL s).countP (fun m => decide (m < k)) : Nat) : Int)
          = some k := by
  obtain ⟨M, hM, hbot, rfl⟩ := reachable_canonical h
  rw [membersL_canonState hbot] at hk ⊢
  refine ⟨rank_canon hM hbot hk, ?_⟩
  rw [get_nth_canon hM hbot (Int.natCast_nonneg _), Int.toNat_natCast]
  exact sorted_getElem_countLt hM hk

theorem claim_C1_rank_get_nth_witness :
    Reachable (fun n => n) (insert (fun n => n)
        (insert (fun n => n) (initRS : RS Nat) 2) 5)
      ∧ (5 : Nat) ∈ membersL (insert (fun n => n)
          (insert (fun n => n) (initRS : RS Nat) 2) 5)
      ∧ (rank (insert (fun n => n) (insert (fun n => n) (initRS : RS Nat) 2) 5) 5
            = some (((membersL (insert (fun n => n)
                (insert (fun n => n) (initRS : RS Nat) 2) 5)).countP
                (fun m => decide (m < 5)) : Nat) : Int)
          ∧ get_nth (insert (fun n => n) (insert (fun n => n) (initRS : RS Nat) 2) 5)
              (((membersL (insert (fun n => n)
                (insert (fun n => n) (initRS : RS Nat) 2) 5)).countP
                (fun m => decide (m < 5)) : Nat) : Int) = some 5) :=
  ⟨Reachable.ins _ 5 (Reachable.ins _ 2 Reachable.setup),
   by decide,
   claim_C1_rank_get_nth (Reachable.ins _ 5 (Reachable.ins _ 2 Reachable.setup))
     (by decide)⟩

/-- Claim C2: every RankedSet mutation (insert, erase, clear_all, starting
from setup_levels) preserves the level invariants: every entry key present at
a level `l > 0` is present at level `l - 1`, and the count stored at
`(l > 0, k)` equals the number of member (level-0) keys in the half-open
interval from `k` to the next key at level `l`. -/
theorem claim_C2_level_invariants {A : Type} [LinearOrder A] [OrderBot A]
    {hash : A → Nat} {s : RS A} (h : Reachable hash s) :
    LevelSubsetInv s ∧ LevelCountInv s := by
  obtain ⟨M, hM, hbot, rfl⟩ := reachable_canonical h
  constructor
  · intro l hl1 hl6 q hq
    rw [getLevel_canonState hl6] at hq
    obtain ⟨hmem, -⟩ := mem_canonLevel hq
    have hl16 : l - 1 < MAX_LEVELS := by omega
    rw [getLevel_canonState hl16, lookupA_canonLevel]
    have hmem' : q.1 ∈ (⊥ : A) :: levelKeys hash M (l - 1) := by
      rcases List.mem_cons.1 hmem with hc | hc
      · exact hc ▸ List.mem_cons_self _ _
      · refine List.mem_cons_of_mem _ ?_
        rcases mem_levelKeys.1 hc with ⟨hqM, hprom⟩
        exact mem_levelKeys.2 ⟨hqM, promoted_mono (Nat.sub_le l 1) hprom⟩
    rw [if_pos hmem']
    rfl
  · intro l hl1 hl6 q hq
    rw [getLevel_canonState hl6] at hq ⊢
    obtain ⟨hmem, hval⟩ := mem_canonLevel hq
    rw [nextKeyAt_canonLevel, membersL_canonState hbot, hval]
    cases hn : nextE (levelKeys hash M l) q.1 with
    | none => simp only [spanCount, hn]
    | some n => simp only [spanCount, hn]

theorem claim_C2_level_invariants_witness :
    Reachable (fun n => n)
        (insert (fun n => n) (insert (fun n => n) (initRS : RS Nat) 2) 16)
      ∧ (LevelSubsetInv (insert (fun n => n)
            (insert (fun n => n) (initRS : RS Nat) 2) 16)
          ∧ LevelCountInv (insert (fun n => n)
              (insert (fun n => n) (initRS : RS Nat) 2) 16)) :=
  ⟨Reachable.ins _ 16 (Reachable.ins _ 2 Reachable.setup),
   claim_C2_level_invariants (Reachable.ins _ 16 (Reachable.ins _ 2 Reachable.setup))⟩

/-- Claim C10: for every RankedSet store state and every rank strictly below
zero, `get_nth` returns `None` without touching the store: the result is
`none` and is independent of the store contents. -/
theorem claim_C10_get_nth_negative {A : Type} [LinearOrder A] [OrderBot A]
    {r : Int} (hr : r < 0) (s s' : RS A) :
    get_nth s r = none ∧ get_nth s r = get_nth s' r := by
  unfold get_nth
  rw [if_pos hr, if_pos hr]
  exact ⟨rfl, rfl⟩

theorem claim_C10_get_nth_negative_witness :
    (-1 : Int) < 0
      ∧ (get_nth (initRS : RS Nat) (-1) = none
          ∧ get_nth (initRS : RS Nat) (-1)
              = get_nth (canonState (fun n => n) [3]) (-1)) :=
  ⟨by decide, claim_C10_get_nth_negative (by decide) _ _⟩

end Claims

section ReachFacts

variable {A : Type} [LinearOrder A] [OrderBot A] {hash : A → Nat}

theorem membersL_sorted {s : RS A} (h : Reachable hash s) :
    (membersL s).Sorted (· < ·) ∧ ∀ m ∈ membersL s, m ≠ ⊥ := by
  obtain ⟨M, hM, hbot, rfl⟩ := reachable_canonical h
  rw [membersL_canonState hbot]
  exact ⟨hM, hbot⟩

theorem contains_membersL {s : RS A} (h : Reachable hash s) (k : A) :
    contains s k = true ↔ (k = ⊥ ∨ k ∈ membersL s) := by
  obtain ⟨M, hM, hbot, rfl⟩ := reachable_canonical h
  rw [membersL_canonState hbot]
  exact contains_canonState

theorem membersL_insert {s : RS A} (h : Reachable hash s) (k : A) :
    membersL (insert hash s k)
      = if k = ⊥ then membersL s
        else if k ∈ membersL s then membersL s
        else insSorted k (membersL s) := by
  obtain ⟨M, hM, hbot, rfl⟩ := reachable_canonical h
  rw [membersL_canonState hbot]
  by_cases hkb : k = ⊥
  · rw [if_pos hkb, hkb, insert_bot_canon, membersL_canonState hbot]
  · rw [if_neg hkb]
    by_cases hkM : k ∈ M
    · rw [if_pos hkM, insert_mem_canon hkM, membersL_canonState hbot]
    · rw [if_neg hkM, insert_canon hM hbot hkb hkM]
      apply membersL_canonState
      intro m hm
      rcases mem_insSorted.1 hm with rfl | hm2
      · exact hkb
      · exact hbot m hm2

theorem membersL_erase {s : RS A} (h : Reachable hash s) (k : A) :
    membersL (erase s k)
      = if k = ⊥ then membersL s else remSorted k (membersL s) := by
  obtain ⟨M, hM, hbot, rfl⟩ := reachable_canonical h
  rw [membersL_canonState hbot]
  by_cases hkb : k = ⊥
  · rw [if_pos hkb, hkb, erase_bot_canon, membersL_canonState hbot]
  · rw [if_neg hkb]
    by_cases hkM : k ∈ M
    · rw [erase_canon hM hbot hkb hkM]
      apply membersL_canonState
      intro m hm
      exact hbot m (mem_remSorted.1 hm).1
    · rw [erase_not_mem_canon hkM, membersL_canonState hbot, remSorted_eq_self hkM]

end ReachFacts

end RankedSet

/-! ## ScoredSet (src/fdb_layers/scoredset.py)

Items (any tuple-encodable value) carry integer scores.  The layer keeps
three subspaces: the embedded RankedSet `R` over the scores, the score map
`S` (`S[item] = score`) and the item index `I` (`I[score][item] = ''`).
Scores are packed `<q` integers; the RankedSet key space is therefore
`WithBot Int` (the fdb tuple encoding sorts the sentinel `""` below every
integer).  The item index is a set of `(score, item)` keys in lexicographic
order, modelled as a sorted list over the lexicographic product. -/

namespace ScoredSet

open RankedSet in
/-- ScoredSet state: RankedSet `R`, score map `S`, item index `I`. -/
structure SS (I : Type) where
  rs : RS (WithBot Int)
  score : List (I × Int)
  items : List (Int ×ₗ I)

variable {I : Type} [LinearOrder I]

/-- The fresh state: `__init__` sets up the RankedSet levels. -/
def init : SS I := ⟨RankedSet.initRS, [], []⟩

/-- The range read `tr[self._items[score].range()]`, in store order. -/
def itemsRange (it : List (Int ×ₗ I)) (s : Int) : List (Int ×ₗ I) :=
  it.filter (fun p => decide ((ofLex p).1 = s))

/-- `get_items`: the items with the given score. -/
def get_items (ss : SS I) (s : Int) : List I :=
  (itemsRange ss.items s).map (fun p => (ofLex p).2)

/-- `_no_other`: scan `I[score]` with `limit=2`; `True` iff no entry for an
item other than `item` shows up. -/
def no_other (ss : SS I) (item : I) (s : Int) : Bool :=
  ((itemsRange ss.items s).take 2).all (fun p => decide ((ofLex p).2 = item))

/-- `insert`: add `item` with `score`, or update its score if present;
returns the old score (`None` for a fresh item). -/
def insert (hash : WithBot Int → Nat) (ss : SS I) (item : I) (s : Int) :
    SS I × Option Int :=
  match lookupA ss.score item with
  | some old =>
    let rs1 := if no_other ss item old
               then RankedSet.erase ss.rs ((old : Int) : WithBot Int) else ss.rs
    let it1 := remSorted (toLex (old, item)) ss.items
    (⟨RankedSet.insert hash rs1 ((s : Int) : WithBot Int),
      setA ss.score item s, insSorted (toLex (s, item)) it1⟩, some old)
  | none =>
    (⟨RankedSet.insert hash ss.rs ((s : Int) : WithBot Int),
      setA ss.score item s, insSorted (toLex (s, item)) ss.items⟩, none)

/-- `increment`: raises when the item is absent (modelled as result `none`
with the state unchanged, since the aborted transaction writes nothing);
otherwise moves the item from `old` to `old + d` and returns `old`. -/
def increment (hash : WithBot Int → Nat) (ss : SS I) (item : I) (d : Int) :
    SS I × Option Int :=
  match lookupA ss.score item with
  | none => (ss, none)
  | some old =>
    let rs1 := if no_other ss item old
               then RankedSet.erase ss.rs ((old : Int) : WithBot Int) else ss.rs
    let it1 := remSorted (toLex (old, item)) ss.items
    (⟨RankedSet.insert hash rs1 (((old + d : Int)) : WithBot Int),
      setA ss.score item (old + d), insSorted (toLex (old + d, item)) it1⟩,
     some old)

/-- `delete`: remove `item`, returning its score (`None` if absent). -/
def delete (ss : SS I) (item : I) : SS I × Option Int :=
  match lookupA ss.score item with
  | none => (ss, none)
  | some s =>
    let rs1 := if no_other ss item s
               then RankedSet.erase ss.rs ((s : Int) : WithBot Int) else ss.rs
    (⟨rs1, delA ss.score item, remSorted (toLex (s, item)) ss.items⟩, some s)

/-- One iteration of the `delete_by_score` loop: delete the score entry of
the item and erase the score from the RankedSet the first time that score is
seen (the `erased` dict). -/
def dbsStep : (List (I × Int) × RankedSet.RS (WithBot Int) × List Int)
    → (Int ×ₗ I) → List (I × Int) × RankedSet.RS (WithBot Int) × List Int
  | (sc, rs, er), p =>
    (delA sc (ofLex p).2,
     if (ofLex p).1 ∈ er then rs
     else RankedSet.erase rs (((ofLex p).1 : Int) : WithBot Int),
     if (ofLex p).1 ∈ er then er else er ++ [(ofLex p).1])

/-- `delete_by_score`: drop every item with score in `[a, b)`; returns the
list of distinct scores seen. -/
def delete_by_score (ss : SS I) (a b : Int) : SS I × List Int :=
  let touched := ss.items.filter
    (fun p => decide (a ≤ (ofLex p).1 ∧ (ofLex p).1 < b))
  let st := touched.foldl dbsStep (ss.score, ss.rs, [])
  (⟨st.2.1, st.1,
    ss.items.filter (fun p => decide (¬ (a ≤ (ofLex p).1 ∧ (ofLex p).1 < b)))⟩,
   st.2.2)

/-- `get_score`. -/
def get_score (ss : SS I) (item : I) : Option Int := lookupA ss.score item

/-- `get_rank`: reads the score and asks the RankedSet for its rank.  When
the item is absent `get_score` yields `None`; the source then calls
`rank(None)`, whose `contains` check fails (`None` is never inserted), so it
returns `None`. -/
def get_rank (ss : SS I) (item : I) : Option Int :=
  match lookupA ss.score item with
  | none => none
  | some z => RankedSet.rank ss.rs ((z : Int) : WithBot Int)

/-- Python truthiness of the score returned by `get_nth`: `None`, the empty
string and the integer `0` are all falsy in `if successor_score:`. -/
def truthyScore : Option (WithBot Int) → Option Int
  | none => none
  | some w => WithBot.recBotCoe none (fun z => if z = 0 then none else some z) w

/-- `get_successors`: the items one rank above `item`.  When `get_rank`
yields `None` the source computes `None + 1`, a `TypeError` (modelled as
`none`); when the successor score is falsy the `else` branch returns `[]`. -/
def get_successors (ss : SS I) (item : I) : Option (List I) :=
  match get_rank ss item with
  | none => none
  | some r =>
    match truthyScore (RankedSet.get_nth ss.rs (r + 1)) with
    | some z => some (get_items ss z)
    | none => some []

/-- `get_predecessors`, symmetric to `get_successors`. -/
def get_predecessors (ss : SS I) (item : I) : Option (List I) :=
  match get_rank ss item with
  | none => none
  | some r =>
    match truthyScore (RankedSet.get_nth ss.rs (r - 1)) with
    | some z => some (get_items ss z)
    | none => some []

/-- ScoredSet states reachable by the four mutators from a fresh state. -/
inductive Reach (hash : WithBot Int → Nat) : SS I → Prop where
  | init : Reach hash init
  | ins (ss : SS I) (item : I) (s : Int) :
      Reach hash ss → Reach hash (insert hash ss item s).1
  | inc (ss : SS I) (item : I) (d : Int) :
      Reach hash ss → Reach hash (increment hash ss item d).1
  | del (ss : SS I) (item : I) :
      Reach hash ss → Reach hash (delete ss item).1
  | delBS (ss : SS I) (a b : Int) :
      Reach hash ss → Reach hash (delete_by_score ss a b).1

/-- The full state invariant: both maps sorted, the item index is the
inverse graph of the score map, and the RankedSet is a reachable state whose
member set is exactly the set of in-use scores. -/
structure Inv (hash : WithBot Int → Nat) (ss : SS I) : Prop where
  score_sorted : SortedKeys ss.score
  items_sorted : ss.items.Sorted (· < ·)
  inverse : ∀ (z : Int) (i : I),
    toLex (z, i) ∈ ss.items ↔ lookupA ss.score i = some z
  rs_reach : RankedSet.Reachable hash ss.rs
  members : ∀ z : Int,
    (((z : Int) : WithBot Int) ∈ RankedSet.membersL ss.rs
      ↔ ∃ i : I, toLex (z, i) ∈ ss.items)

section InvLemmas

variable {I : Type} [LinearOrder I] {hash : WithBot Int → Nat}

theorem nodup_all_eq_singleton {α : Type} {l : List α} {x : α} (hnd : l.Nodup)
    (hx : x ∈ l) (hall : ∀ y ∈ l, y = x) : l = [x] := by
  cases l with
  | nil => cases hx
  | cons a t =>
    rw [List.nodup_cons] at hnd
    have hax : a = x := hall a (List.mem_cons_self _ _)
    subst hax
    cases t with
    | nil => rfl
    | cons b t2 =>
      have hbx : b = a := hall b (List.mem_cons_of_mem _ (List.mem_cons_self _ _))
      exfalso
      apply hnd.1
      rw [hbx]
      exact List.mem_cons_self _ _

theorem toLex_pair_inj {z z' : Int} {i i' : I}
    (h : (toLex (z, i) : Int ×ₗ I) = toLex (z', i')) : z = z' ∧ i = i' := by
  have h2 : ((z, i) : Int × I) = (z', i') := by
    have := congrArg ofLex h
    simpa using this
  exact ⟨congrArg Prod.fst h2, congrArg Prod.snd h2⟩

theorem itemsRange_score {it : List (Int ×ₗ I)} {s : Int} {p : Int ×ₗ I}
    (hp : p ∈ itemsRange it s) : p ∈ it ∧ (ofLex p).1 = s := by
  have h := List.mem_filter.1 hp
  exact ⟨h.1, by simpa using h.2⟩

theorem mem_itemsRange {it : List (Int ×ₗ I)} {s : Int} {i : I} :
    toLex (s, i) ∈ itemsRange it s ↔ toLex (s, i) ∈ it := by
  unfold itemsRange
  rw [List.mem_filter]
  simp

theorem no_other_iff {ss : SS I} (hsort : ss.items.Sorted (· < ·))
    {item : I} {s : Int} (hmem : toLex (s, item) ∈ ss.items) :
    (no_other ss item s = true ↔ itemsRange ss.items s = [toLex (s, item)]) := by
  have hnd : (itemsRange ss.items s).Nodup := (sorted_nodup hsort).filter _
  have hmem' : toLex (s, item) ∈ itemsRange ss.items s := mem_itemsRange.2 hmem
  constructor
  · intro hno
    unfold no_other at hno
    rw [List.all_eq_true] at hno
    cases hF : itemsRange ss.items s with
    | nil =>
      rw [hF] at hmem'
      cases hmem'
    | cons p t =>
      cases t with
      | nil =>
        have hp2 : (ofLex p).2 = item := by
          have := hno p (by rw [hF]; simp)
          simpa using this
        have hp1 : (ofLex p).1 = s := by
          have : p ∈ itemsRange ss.items s := by rw [hF]; exact List.mem_cons_self _ _
          exact (itemsRange_score this).2
        have hp : p = toLex (s, item) := by
          rw [← toLex_ofLex p]
          rw [show ofLex p = (s, item) from Prod.ext hp1 hp2]
        rw [hp]
      | cons q t2 =>
        exfalso
        have hp2 : (ofLex p).2 = item := by
          have := hno p (by rw [hF]; simp)
          simpa using this
        have hq2 : (ofLex q).2 = item := by
          have := hno q (by rw [hF]; simp)
          simpa using this
        have hpF : p ∈ itemsRange ss.items s := by
          rw [hF]; exact List.mem_cons_self _ _
        have hqF : q ∈ itemsRange ss.items s := by
          rw [hF]; exact List.mem_cons_of_mem _ (List.mem_cons_self _ _)
        have hp : p = toLex (s, item) := by
          rw [← toLex_ofLex p]
          rw [show ofLex p = (s, item) from Prod.ext (itemsRange_score hpF).2 hp2]
        have hq : q = toLex (s, item) := by
          rw [← toLex_ofLex q]
          rw [show ofLex q = (s, item) from Prod.ext (itemsRange_score hqF).2 hq2]
        rw [hF, List.nodup_cons] at hnd
        apply hnd.1
        rw [hp, ← hq]
        exact List.mem_cons_self _ _
  · intro heq
    unfold no_other
    rw [heq]
    simp

theorem no_other_false_other {ss : SS I} {item : I} {s : Int}
    (hno : no_other ss item s = false) :
    ∃ i' : I, i' ≠ item ∧ toLex (s, i') ∈ ss.items := by
  have hex : ∃ p ∈ (itemsRange ss.items s).take 2, ¬ ((ofLex p).2 = item) := by
    by_contra hc
    push_neg at hc
    have : no_other ss item s = true := by
      unfold no_other
      rw [List.all_eq_true]
      intro p hp
      simpa using hc p hp
    rw [this] at hno
    cases hno
  obtain ⟨p, hp, hpi⟩ := hex
  have hpF : p ∈ itemsRange ss.items s := (List.take_subset _ _) hp
  obtain ⟨hpit, hps⟩ := itemsRange_score hpF
  refine ⟨(ofLex p).2, hpi, ?_⟩
  have hp' : toLex (s, (ofLex p).2) = p := by
    have h2 : ofLex p = ((s, (ofLex p).2) : Int × I) := by rw [← hps]
    rw [← h2, toLex_ofLex]
  rw [hp']
  exact hpit

theorem unbind_members_noother {ss : SS I} (hI : Inv hash ss) {item : I}
    {old : Int} (hl : lookupA ss.score item = some old)
    (hno : no_other ss item old = true) (z : Int) :
    (((z : Int) : WithBot Int) ∈ RankedSet.membersL
        (RankedSet.erase ss.rs ((old : Int) : WithBot Int))
      ↔ ∃ i : I, toLex (z, i) ∈ remSorted (toLex (old, item)) ss.items) := by
  have hmem : toLex (old, item) ∈ ss.items := (hI.inverse old item).2 hl
  have hrange := (no_other_iff hI.items_sorted hmem).1 hno
  rw [RankedSet.membersL_erase hI.rs_reach, if_neg WithBot.coe_ne_bot,
    mem_remSorted, hI.members z]
  constructor
  · rintro ⟨⟨i, hi⟩, hne⟩
    refine ⟨i, mem_remSorted.2 ⟨hi, ?_⟩⟩
    intro hc
    exact hne (by rw [(toLex_pair_inj hc).1])
  · rintro ⟨i, hi⟩
    rw [mem_remSorted] at hi
    refine ⟨⟨i, hi.1⟩, ?_⟩
    intro hc
    have hz : z = old := by exact_mod_cast hc
    subst hz
    have hzi : toLex (z, i) ∈ itemsRange ss.items z := mem_itemsRange.2 hi.1
    rw [hrange] at hzi
    exact hi.2 (List.mem_singleton.1 hzi)

theorem unbind_members_other {ss : SS I} (hI : Inv hash ss) {item : I}
    {old : Int} (hl : lookupA ss.score item = some old)
    (hno : no_other ss item old = false) (z : Int) :
    (((z : Int) : WithBot Int) ∈ RankedSet.membersL ss.rs
      ↔ ∃ i : I, toLex (z, i) ∈ remSorted (toLex (old, item)) ss.items) := by
  rw [hI.members z]
  constructor
  · rintro ⟨i, hi⟩
    by_cases hx : (toLex (z, i) : Int ×ₗ I) = toLex (old, item)
    · obtain ⟨hz, hii⟩ := toLex_pair_inj hx
      subst hz
      obtain ⟨i', hi'ne, hi'mem⟩ := no_other_false_other hno
      refine ⟨i', mem_remSorted.2 ⟨hi'mem, ?_⟩⟩
      intro hc
      exact hi'ne (toLex_pair_inj hc).2
    · exact ⟨i, mem_remSorted.2 ⟨hi, hx⟩⟩
  · rintro ⟨i, hi⟩
    exact ⟨i, (mem_remSorted.1 hi).1⟩

theorem bind_members {rs1 : RankedSet.RS (WithBot Int)} {it1 : List (Int ×ₗ I)}
    (hr : RankedSet.Reachable hash rs1)
    (hm : ∀ z : Int, (((z : Int) : WithBot Int) ∈ RankedSet.membersL rs1
            ↔ ∃ i : I, toLex (z, i) ∈ it1))
    (s : Int) (item : I) (z : Int) :
    (((z : Int) : WithBot Int) ∈ RankedSet.membersL
        (RankedSet.insert hash rs1 ((s : Int) : WithBot Int))
      ↔ ∃ i : I, toLex (z, i) ∈ insSorted (toLex (s, item)) it1) := by
  rw [RankedSet.membersL_insert hr, if_neg WithBot.coe_ne_bot]
  have hrhs : (∃ i : I, toLex (z, i) ∈ insSorted (toLex (s, item)) it1)
      ↔ (z = s ∨ ∃ i : I, toLex (z, i) ∈ it1) := by
    constructor
    · rintro ⟨i, hi⟩
      rcases mem_insSorted.1 hi with hx | hx
      · exact Or.inl (toLex_pair_inj hx).1
      · exact Or.inr ⟨i, hx⟩
    · rintro (rfl | ⟨i, hi⟩)
      · exact ⟨item, mem_insSorted.2 (Or.inl rfl)⟩
      · exact ⟨i, mem_insSorted.2 (Or.inr hi)⟩
  rw [hrhs]
  by_cases hs : ((s : Int) : WithBot Int) ∈ RankedSet.membersL rs1
  · rw [if_pos hs, hm z]
    constructor
    · exact Or.inr
    · rintro (rfl | h)
      · exact (hm z).1 hs
      · exact h
  · rw [if_neg hs, mem_insSorted, hm z]
    constructor
    · rintro (hc | h)
      · exact Or.inl (by exact_mod_cast hc)
      · exact Or.inr h
    · rintro (rfl | h)
      · exact Or.inl rfl
      · exact Or.inr h

theorem inv_rebind {ss : SS I} (hI : Inv hash ss) {item : I} {old : Int}
    (hl : lookupA ss.score item = some old) (s : Int) :
    Inv hash ⟨RankedSet.insert hash
        (if no_other ss item old
         then RankedSet.erase ss.rs ((old : Int) : WithBot Int) else ss.rs)
        ((s : Int) : WithBot Int),
      setA ss.score item s,
      insSorted (toLex (s, item)) (remSorted (toLex (old, item)) ss.items)⟩ := by
  have hit1sorted : (remSorted (toLex (old, item)) ss.items).Sorted (· < ·) :=
    remSorted_sorted hI.items_sorted
  have hr1 : RankedSet.Reachable hash
      (if no_other ss item old
       then RankedSet.erase ss.rs ((old : Int) : WithBot Int) else ss.rs) := by
    by_cases hno : no_other ss item old = true
    · rw [if_pos hno]
      exact RankedSet.Reachable.del _ _ hI.rs_reach
    · rw [if_neg hno]
      exact hI.rs_reach
  have hm1 : ∀ z : Int, (((z : Int) : WithBot Int) ∈ RankedSet.membersL
        (if no_other ss item old
         then RankedSet.erase ss.rs ((old : Int) : WithBot Int) else ss.rs)
      ↔ ∃ i : I, toLex (z, i) ∈ remSorted (toLex (old, item)) ss.items) := by
    intro z
    by_cases hno : no_other ss item old = true
    · rw [if_pos hno]
      exact unbind_members_noother hI hl hno z
    · rw [if_neg hno]
      exact unbind_members_other hI hl (Bool.eq_false_iff.2 hno) z
  refine ⟨sortedKeys_setA hI.score_sorted, ?_, ?_,
    RankedSet.Reachable.ins _ ((s : Int) : WithBot Int) hr1,
    fun z => bind_members hr1 hm1 s item z⟩
  · apply insSorted_sorted hit1sorted
    intro hc
    obtain ⟨hcmem, hcne⟩ := mem_remSorted.1 hc
    have hthis := (hI.inverse s item).1 hcmem
    rw [hl] at hthis
    exact hcne (by rw [Option.some_inj.1 hthis])
  · intro z i
    rw [mem_insSorted, lookupA_setA]
    by_cases hii : i = item
    · subst hii
      constructor
      · rintro (hx | hx)
        · rw [if_pos rfl, (toLex_pair_inj hx).1]
        · obtain ⟨hcmem, hcne⟩ := mem_remSorted.1 hx
          exact absurd (by
            have hthis := (hI.inverse z i).1 hcmem
            rw [hl] at hthis
            rw [Option.some_inj.1 hthis.symm]) hcne
      · intro h
        rw [if_pos rfl] at h
        exact Or.inl (by rw [Option.some_inj.1 h])
    · rw [if_neg hii]
      constructor
      · rintro (hx | hx)
        · exact absurd (toLex_pair_inj hx).2 hii
        · exact (hI.inverse z i).1 (mem_remSorted.1 hx).1
      · intro h
        refine Or.inr (mem_remSorted.2 ⟨(hI.inverse z i).2 h, ?_⟩)
        intro hc
        exact hii (toLex_pair_inj hc).2

theorem inv_insert {ss : SS I} (hI : Inv hash ss) (item : I) (s : Int) :
    Inv hash (insert hash ss item s).1 := by
  unfold insert
  cases hl : lookupA ss.score item with
  | some old => exact inv_rebind hI hl s
  | none =>
    show Inv hash ⟨RankedSet.insert hash ss.rs ((s : Int) : WithBot Int),
      setA ss.score item s, insSorted (toLex (s, item)) ss.items⟩
    refine ⟨sortedKeys_setA hI.score_sorted, ?_, ?_,
      RankedSet.Reachable.ins _ ((s : Int) : WithBot Int) hI.rs_reach,
      fun z => bind_members hI.rs_reach hI.members s item z⟩
    · apply insSorted_sorted hI.items_sorted
      intro hc
      have hthis := (hI.inverse s item).1 hc
      rw [hl] at hthis
      cases hthis
    · intro z i
      rw [mem_insSorted, lookupA_setA]
      by_cases hii : i = item
      · subst hii
        constructor
        · rintro (hx | hx)
          · rw [if_pos rfl, (toLex_pair_inj hx).1]
          · have hthis := (hI.inverse z i).1 hx
            rw [hl] at hthis
            cases hthis
        · intro h
          rw [if_pos rfl] at h
          exact Or.inl (by rw [Option.some_inj.1 h])
      · rw [if_neg hii]
        constructor
        · rintro (hx | hx)
          · exact absurd (toLex_pair_inj hx).2 hii
          · exact (hI.inverse z i).1 hx
        · intro h
          exact Or.inr ((hI.inverse z i).2 h)

theorem inv_increment {ss : SS I} (hI : Inv hash ss) (item : I) (d : Int) :
    Inv hash (increment hash ss item d).1 := by
  unfold increment
  cases hl : lookupA ss.score item with
  | none => exact hI
  | some old => exact inv_rebind hI hl (old + d)

theorem inv_delete {ss : SS I} (hI : Inv hash ss) (item : I) :
    Inv hash (delete ss item).1 := by
  unfold delete
  cases hl : lookupA ss.score item with
  | none => exact hI
  | some s =>
    show Inv hash ⟨if no_other ss item s
        then RankedSet.erase ss.rs ((s : Int) : WithBot Int) else ss.rs,
      delA ss.score item, remSorted (toLex (s, item)) ss.items⟩
    have hr1 : RankedSet.Reachable hash
        (if no_other ss item s
         then RankedSet.erase ss.rs ((s : Int) : WithBot Int) else ss.rs) := by
      by_cases hno : no_other ss item s = true
      · rw [if_pos hno]
        exact RankedSet.Reachable.del _ _ hI.rs_reach
      · rw [if_neg hno]
        exact hI.rs_reach
    have hm1 : ∀ z : Int, (((z : Int) : WithBot Int) ∈ RankedSet.membersL
          (if no_other ss item s
           then RankedSet.erase ss.rs ((s : Int) : WithBot Int) else ss.rs)
        ↔ ∃ i : I, toLex (z, i) ∈ remSorted (toLex (s, item)) ss.items) := by
      intro z
      by_cases hno : no_other ss item s = true
      · rw [if_pos hno]
        exact unbind_members_noother hI hl hno z
      · rw [if_neg hno]
        exact unbind_members_other hI hl (Bool.eq_false_iff.2 hno) z
    refine ⟨sortedKeys_delA hI.score_sorted,
      remSorted_sorted hI.items_sorted, ?_, hr1, hm1⟩
    intro z i
    rw [mem_remSorted, lookupA_delA hI.score_sorted]
    by_cases hii : i = item
    · subst hii
      rw [if_pos rfl]
      constructor
      · rintro ⟨hcmem, hcne⟩
        exact absurd (by
          have hthis := (hI.inverse z i).1 hcmem
          rw [hl] at hthis
          rw [Option.some_inj.1 hthis.symm]) hcne
      · intro h
        cases h
    · rw [if_neg hii]
      constructor
      · rintro ⟨hcmem, -⟩
        exact (hI.inverse z i).1 hcmem
      · intro h
        refine ⟨(hI.inverse z i).2 h, ?_⟩
        intro hc
        exact hii (toLex_pair_inj hc).2

theorem dbs_fold_fst (L : List (Int ×ₗ I)) :
    ∀ (sc : List (I × Int)) (rs : RankedSet.RS (WithBot Int)) (er : List Int),
      (L.foldl dbsStep (sc, rs, er)).1
        = L.foldl (fun sc p => delA sc (ofLex p).2) sc := by
  induction L with
  | nil =>
    intro sc rs er
    rfl
  | cons p t ih =>
    intro sc rs er
    simp only [List.foldl_cons, dbsStep]
    exact ih _ _ _

theorem sortedKeys_foldl_delA (L : List (Int ×ₗ I)) :
    ∀ sc : List (I × Int), SortedKeys sc →
      SortedKeys (L.foldl (fun sc p => delA sc (ofLex p).2) sc) := by
  induction L with
  | nil =>
    intro sc hsc
    exact hsc
  | cons p t ih =>
    intro sc hsc
    rw [List.foldl_cons]
    exact ih _ (sortedKeys_delA hsc)

theorem lookupA_foldl_delA (L : List (Int ×ₗ I)) :
    ∀ (sc : List (I × Int)), SortedKeys sc → ∀ i : I,
      lookupA (L.foldl (fun sc p => delA sc (ofLex p).2) sc) i
        = if ∃ p ∈ L, (ofLex p).2 = i then none else lookupA sc i := by
  induction L with
  | nil =>
    intro sc hsc i
    simp
  | cons p t ih =>
    intro sc hsc i
    rw [List.foldl_cons, ih (delA sc (ofLex p).2) (sortedKeys_delA hsc) i]
    by_cases hpi : (ofLex p).2 = i
    · have hcons : ∃ q ∈ p :: t, (ofLex q).2 = i := ⟨p, List.mem_cons_self _ _, hpi⟩
      by_cases hex : ∃ q ∈ t, (ofLex q).2 = i
      · rw [if_pos hex, if_pos hcons]
      · rw [if_neg hex, if_pos hcons, lookupA_delA hsc, if_pos hpi.symm]
    · by_cases hex : ∃ q ∈ t, (ofLex q).2 = i
      · obtain ⟨q, hq, hqi⟩ := hex
        have ht : ∃ q ∈ t, (ofLex q).2 = i := ⟨q, hq, hqi⟩
        have hcons : ∃ q ∈ p :: t, (ofLex q).2 = i :=
          ⟨q, List.mem_cons_of_mem _ hq, hqi⟩
        rw [if_pos ht, if_pos hcons]
      · have hncons : ¬ ∃ q ∈ p :: t, (ofLex q).2 = i := by
          rintro ⟨q, hq, hqi⟩
          rcases List.mem_cons.1 hq with rfl | hqt
          · exact hpi hqi
          · exact hex ⟨q, hqt, hqi⟩
        rw [if_neg hex, if_neg hncons, lookupA_delA hsc,
          if_neg (fun hc => hpi hc.symm)]

theorem dbs_fold_rs (L : List (Int ×ₗ I)) :
    ∀ (sc : List (I × Int)) (rs : RankedSet.RS (WithBot Int)) (er : List Int),
      RankedSet.Reachable hash rs →
      (∀ z : Int, z ∈ er → ((z : Int) : WithBot Int) ∉ RankedSet.membersL rs) →
      RankedSet.Reachable hash (L.foldl dbsStep (sc, rs, er)).2.1
      ∧ (∀ z : Int,
          (((z : Int) : WithBot Int)
              ∈ RankedSet.membersL (L.foldl dbsStep (sc, rs, er)).2.1
            ↔ (((z : Int) : WithBot Int) ∈ RankedSet.membersL rs
                ∧ ¬ ∃ p ∈ L, (ofLex p).1 = z))) := by
  induction L with
  | nil =>
    intro sc rs er hr hcomp
    refine ⟨hr, fun z => ?_⟩
    simp
  | cons p t ih =>
    intro sc rs er hr hcomp
    rw [List.foldl_cons]
    simp only [dbsStep]
    by_cases her : (ofLex p).1 ∈ er
    · rw [if_pos her, if_pos her]
      obtain ⟨hr', hm'⟩ := ih (delA sc (ofLex p).2) rs er hr hcomp
      refine ⟨hr', fun z => ?_⟩
      rw [hm' z]
      constructor
      · rintro ⟨hmem, hnt⟩
        refine ⟨hmem, ?_⟩
        rintro ⟨q, hq, hq1⟩
        rcases List.mem_cons.1 hq with rfl | hqt
        · exact hcomp z (hq1 ▸ her) hmem
        · exact hnt ⟨q, hqt, hq1⟩
      · rintro ⟨hmem, hnpt⟩
        refine ⟨hmem, ?_⟩
        rintro ⟨q, hq, hq1⟩
        exact hnpt ⟨q, List.mem_cons_of_mem _ hq, hq1⟩
    · rw [if_neg her, if_neg her]
      have hrr : RankedSet.Reachable hash
          (RankedSet.erase rs (((ofLex p).1 : Int) : WithBot Int)) :=
        RankedSet.Reachable.del _ _ hr
      have hmem_erase : ∀ z : Int,
          (((z : Int) : WithBot Int)
              ∈ RankedSet.membersL (RankedSet.erase rs (((ofLex p).1 : Int) : WithBot Int))
            ↔ ((z : Int) : WithBot Int) ∈ RankedSet.membersL rs ∧ z ≠ (ofLex p).1) := by
        intro z
        rw [RankedSet.membersL_erase hr, if_neg WithBot.coe_ne_bot, mem_remSorted]
        constructor
        · rintro ⟨h1, h2⟩
          exact ⟨h1, fun hc => h2 (by exact_mod_cast hc)⟩
        · rintro ⟨h1, h2⟩
          exact ⟨h1, fun hc => h2 (by exact_mod_cast hc)⟩
      have hcomp' : ∀ z : Int, z ∈ er ++ [(ofLex p).1]
          → ((z : Int) : WithBot Int)
              ∉ RankedSet.membersL (RankedSet.erase rs (((ofLex p).1 : Int) : WithBot Int)) := by
        intro z hz hc
        rw [hmem_erase z] at hc
        rcases List.mem_append.1 hz with hz1 | hz1
        · exact hcomp z hz1 hc.1
        · exact hc.2 (List.mem_singleton.1 hz1)
      obtain ⟨hr', hm'⟩ := ih (delA sc (ofLex p).2)
        (RankedSet.erase rs (((ofLex p).1 : Int) : WithBot Int))
        (er ++ [(ofLex p).1]) hrr hcomp'
      refine ⟨hr', fun z => ?_⟩
      rw [hm' z, hmem_erase z]
      constructor
      · rintro ⟨⟨hmem, hne⟩, hnt⟩
        refine ⟨hmem, ?_⟩
        rintro ⟨q, hq, hq1⟩
        rcases List.mem_cons.1 hq with rfl | hqt
        · exact hne hq1.symm
        · exact hnt ⟨q, hqt, hq1⟩
      · rintro ⟨hmem, hnpt⟩
        refine ⟨⟨hmem, fun hc => hnpt ⟨p, List.mem_cons_self _ _, hc.symm⟩⟩, ?_⟩
        rintro ⟨q, hq, hq1⟩
        exact hnpt ⟨q, List.mem_cons_of_mem _ hq, hq1⟩

theorem inv_delete_by_score {ss : SS I} (hI : Inv hash ss) (a b : Int) :
    Inv hash (delete_by_score ss a b).1 := by
  unfold delete_by_score
  show Inv hash
    ⟨((ss.items.filter (fun p => decide (a ≤ (ofLex p).1 ∧ (ofLex p).1 < b))).foldl
        dbsStep (ss.score, ss.rs, [])).2.1,
      ((ss.items.filter (fun p => decide (a ≤ (ofLex p).1 ∧ (ofLex p).1 < b))).foldl
        dbsStep (ss.score, ss.rs, [])).1,
      ss.items.filter (fun p => decide (¬ (a ≤ (ofLex p).1 ∧ (ofLex p).1 < b)))⟩
  have hkey := dbs_fold_rs
    (ss.items.filter (fun p => decide (a ≤ (ofLex p).1 ∧ (ofLex p).1 < b)))
    ss.score ss.rs [] hI.rs_reach (by simp)
  have hfst := dbs_fold_fst
    (ss.items.filter (fun p => decide (a ≤ (ofLex p).1 ∧ (ofLex p).1 < b)))
    ss.score ss.rs []
  refine ⟨?_, hI.items_sorted.filter _, ?_, hkey.1, ?_⟩
  · rw [hfst]
    exact sortedKeys_foldl_delA _ _ hI.score_sorted
  · intro z i
    rw [hfst, lookupA_foldl_delA _ _ hI.score_sorted i]
    by_cases hex : ∃ p ∈ ss.items.filter
        (fun p => decide (a ≤ (ofLex p).1 ∧ (ofLex p).1 < b)), (ofLex p).2 = i
    · rw [if_pos hex]
      constructor
      · intro hmem
        exfalso
        obtain ⟨p, hp, hpi⟩ := hex
        obtain ⟨hpit, hpr⟩ := List.mem_filter.1 hp
        obtain ⟨hit, hnr⟩ := List.mem_filter.1 hmem
        have hp' : toLex ((ofLex p).1, i) = p := by
          have h2 : ofLex p = (((ofLex p).1, i) : Int × I) := by rw [← hpi]
          rw [← h2, toLex_ofLex]
        have hlp : lookupA ss.score i = some (ofLex p).1 :=
          (hI.inverse (ofLex p).1 i).1 (hp' ▸ hpit)
        have hlz : lookupA ss.score i = some z := (hI.inverse z i).1 hit
        have hpz : (ofLex p).1 = z := Option.some_inj.1 (hlp.symm.trans hlz)
        rw [hpz] at hpr
        simp only [decide_eq_true_eq] at hpr hnr
        exact hnr (by simpa using hpr)
      · intro h
        cases h
    · rw [if_neg hex]
      constructor
      · intro hmem
        exact (hI.inverse z i).1 (List.mem_filter.1 hmem).1
      · intro h
        have hit : toLex (z, i) ∈ ss.items := (hI.inverse z i).2 h
        refine List.mem_filter.2 ⟨hit, ?_⟩
        simp only [decide_eq_true_eq]
        intro hr
        apply hex
        refine ⟨toLex (z, i), List.mem_filter.2 ⟨hit, ?_⟩, ?_⟩
        · simpa using hr
        · simp
  · intro z
    rw [hkey.2 z, hI.members z]
    constructor
    · rintro ⟨⟨i, hi⟩, hnp⟩
      refine ⟨i, List.mem_filter.2 ⟨hi, ?_⟩⟩
      simp only [decide_eq_true_eq]
      intro hr
      apply hnp
      refine ⟨toLex (z, i), List.mem_filter.2 ⟨hi, ?_⟩, ?_⟩
      · simpa using hr
      · simp
    · rintro ⟨i, hf⟩
      obtain ⟨hi, hnr⟩ := List.mem_filter.1 hf
      refine ⟨⟨i, hi⟩, ?_⟩
      rintro ⟨p, hp, hp1⟩
      obtain ⟨hpit, hpr⟩ := List.mem_filter.1 hp
      simp only [decide_eq_true_eq] at hpr hnr
      rw [hp1] at hpr
      have hnr' : ¬ (a ≤ z ∧ z < b) := by simpa using hnr
      exact hnr' hpr

theorem inv_init : Inv hash (init : SS I) := by
  refine ⟨sortedKeys_nil, List.sorted_nil, ?_, RankedSet.Reachable.setup, ?_⟩
  · intro z i
    simp [init, lookupA]
  · intro z
    rw [show (init : SS I).rs = RankedSet.canonState hash [] from RankedSet.initRS_canon,
      RankedSet.membersL_canonState (by simp)]
    simp [init]

theorem reach_inv {ss : SS I} (h : Reach hash ss) : Inv hash ss := by
  induction h with
  | init => exact inv_init
  | ins ss item s hr ih => exact inv_insert ih item s
  | inc ss item d hr ih => exact inv_increment ih item d
  | del ss item hr ih => exact inv_delete ih item
  | delBS ss a b hr ih => exact inv_delete_by_score ih a b

/-- The coherence property claimed by the spec: `S[item]` is present iff
there is exactly one `I[score][item]` entry for it; every indexed score is a
RankedSet member; and a score with no remaining index entries is no longer a
RankedSet member (it was erased with its last entry). -/
def Coherent (ss : SS I) : Prop :=
  (∀ i : I, ((lookupA ss.score i).isSome = true
      ↔ (ss.items.filter (fun p => decide ((ofLex p).2 = i))).length = 1))
  ∧ (∀ p ∈ ss.items,
      RankedSet.contains ss.rs (((ofLex p).1 : Int) : WithBot Int) = true)
  ∧ (∀ z : Int, RankedSet.contains ss.rs ((z : Int) : WithBot Int) = true
      → ∃ i : I, toLex (z, i) ∈ ss.items)

theorem inv_coherent {ss : SS I} (hI : Inv hash ss) : Coherent ss := by
  refine ⟨?_, ?_, ?_⟩
  · intro i
    constructor
    · intro hsome
      obtain ⟨z, hz⟩ := Option.isSome_iff_exists.1 hsome
      have hzi : toLex (z, i) ∈ ss.items := (hI.inverse z i).2 hz
      have hzf : toLex (z, i) ∈ ss.items.filter (fun p => decide ((ofLex p).2 = i)) :=
        List.mem_filter.2 ⟨hzi, by simp⟩
      have hall : ∀ q ∈ ss.items.filter (fun p => decide ((ofLex p).2 = i)),
          q = toLex (z, i) := by
        intro q hq
        obtain ⟨hqit, hqi⟩ := List.mem_filter.1 hq
        simp only [decide_eq_true_eq] at hqi
        have hq' : toLex ((ofLex q).1, i) = q := by
          have h2 : ofLex q = (((ofLex q).1, i) : Int × I) := by rw [← hqi]
          rw [← h2, toLex_ofLex]
        have hlq : lookupA ss.score i = some (ofLex q).1 :=
          (hI.inverse (ofLex q).1 i).1 (hq' ▸ hqit)
        have hqz : (ofLex q).1 = z := Option.some_inj.1 (hlq.symm.trans hz)
        rw [← hq', hqz]
      rw [nodup_all_eq_singleton ((sorted_nodup hI.items_sorted).filter _) hzf hall]
      rfl
    · intro hlen
      obtain ⟨q, hq⟩ := List.length_eq_one.1 hlen
      have hqmem : q ∈ ss.items.filter (fun p => decide ((ofLex p).2 = i)) := by
        rw [hq]
        exact List.mem_cons_self _ _
      obtain ⟨hqit, hqi⟩ := List.mem_filter.1 hqmem
      simp only [decide_eq_true_eq] at hqi
      have hq' : toLex ((ofLex q).1, i) = q := by
        have h2 : ofLex q = (((ofLex q).1, i) : Int × I) := by rw [← hqi]
        rw [← h2, toLex_ofLex]
      rw [(hI.inverse (ofLex q).1 i).1 (hq' ▸ hqit)]
      rfl
  · intro p hp
    rw [RankedSet.contains_membersL hI.rs_reach]
    refine Or.inr ((hI.members (ofLex p).1).2 ⟨(ofLex p).2, ?_⟩)
    have h2 : ofLex p = (((ofLex p).1, (ofLex p).2) : Int × I) := rfl
    rw [← h2, toLex_ofLex]
    exact hp
  · intro z hz
    rcases (RankedSet.contains_membersL hI.rs_reach _).1 hz with hc | hc
    · exact absurd hc WithBot.coe_ne_bot
    · exact (hI.members z).1 hc

section Claims

/-- Claim C3: every ScoredSet mutator (`insert`, `increment`, `delete`,
`delete_by_score`) preserves coherence: `S[item]` is present iff exactly one
score `s` has an `I[s][item]` entry, every score mentioned in the item index
is a RankedSet member, and a score whose last index entry was removed is not
a RankedSet member. -/
theorem claim_C3_scoredset_coherence {I : Type} [LinearOrder I]
    {hash : WithBot Int → Nat} {ss : SS I} (h : Reach hash ss) : Coherent ss :=
  inv_coherent (reach_inv h)

theorem claim_C3_scoredset_coherence_witness :
    Reach (fun _ => 1) (delete (insert (fun _ => 1)
        (insert (fun _ => 1) (init : SS Nat) 0 5).1 1 5).1 0).1
      ∧ Coherent (delete (insert (fun _ => 1)
          (insert (fun _ => 1) (init : SS Nat) 0 5).1 1 5).1 0).1 :=
  ⟨Reach.del _ 0 (Reach.ins _ 1 5 (Reach.ins _ 0 5 Reach.init)),
   claim_C3_scoredset_coherence
     (Reach.del _ 0 (Reach.ins _ 1 5 (Reach.ins _ 0 5 Reach.init)))⟩

/-- Claim C8: `increment(item, delta)` errors exactly when the item is
absent (the aborted transaction leaves the state unchanged, modelled as
returning the input state); when the item is present it returns the old
score and the stored score becomes `old + delta`. -/
theorem claim_C8_increment_spec {I : Type} [LinearOrder I]
    (hash : WithBot Int → Nat) (ss : SS I) (item : I) (d : Int) :
    ((increment hash ss item d).2 = none ↔ lookupA ss.score item = none)
    ∧ (lookupA ss.score item = none → (increment hash ss item d).1 = ss)
    ∧ (∀ old : Int, lookupA ss.score item = some old →
        (increment hash ss item d).2 = some old
        ∧ lookupA (increment hash ss item d).1.score item = some (old + d)) := by
  unfold increment
  cases hl : lookupA ss.score item with
  | none =>
    refine ⟨by simp, fun _ => rfl, ?_⟩
    intro old hc
    cases hc
  | some old =>
    refine ⟨?_, ?_, ?_⟩
    · simp
    · intro hc
      cases hc
    · intro old' hold
      obtain rfl : old = old' := Option.some_inj.1 hold
      refine ⟨rfl, ?_⟩
      show lookupA (setA ss.score item (old + d)) item = some (old + d)
      rw [lookupA_setA, if_pos rfl]

/-- Claim C5 is false of the code: on the state with items `0 ↦ -1` and
`1 ↦ 0`, item `1` has rank `get_rank 0 + 1`, yet `get_successors 0` returns
`[]` instead of `[1]` — the successor score `0` is falsy in Python, so
`if successor_score:` takes the empty `else` branch. -/
theorem claim_C5_successors_truthiness_bug :
    ∃ ss : SS Nat, Reach (fun _ => 1) ss
      ∧ get_rank ss 0 = some 0
      ∧ get_rank ss 1 = some 1
      ∧ get_items ss 0 = [1]
      ∧ get_successors ss 0 = some [] := by
  refine ⟨(insert (fun _ => 1) (insert (fun _ => 1) (init : SS Nat) 0 (-1)).1 1 0).1,
    Reach.ins _ 1 0 (Reach.ins _ 0 (-1) Reach.init), ?_, ?_, ?_, ?_⟩
  · decide
  · decide
  · decide
  · decide

end Claims

end InvLemmas

section SanitySS

example :
    get_rank (insert (fun _ => 1) (insert (fun _ => 1) (init : SS Nat) 0 (-1)).1 1 0).1 0
      = some 0 := by decide

example :
    get_rank (insert (fun _ => 1) (insert (fun _ => 1) (init : SS Nat) 0 (-1)).1 1 0).1 1
      = some 1 := by decide

example :
    get_successors (insert (fun _ => 1) (insert (fun _ => 1) (init : SS Nat) 0 (-1)).1 1 0).1 0
      = some [] := by decide

example :
    get_items (insert (fun _ => 1) (insert (fun _ => 1) (init : SS Nat) 0 (-1)).1 1 0).1 0
      = [1] := by decide

end SanitySS

end ScoredSet

/-! ## PriorityQueue (src/lib/priorityqueue.py)

Items are stored at keys `(priority, count, random_ID)` in the `I` subspace
(value: the encoded item) with an inverse index `M[item][priority][count]`.
Keys sort lexicographically; priorities `P`, random IDs `R` and encoded
items `V` are arbitrary linear orders, counts are naturals.  The claims
concern the low-contention mode (`_pop_low`), which acts in a single
transaction. -/

namespace PriorityQueue

/-- PriorityQueue state: the ordered item subspace `I` and the member index
`M` (value always `''`). -/
structure PQ (P R V : Type) where
  item : List ((P ×ₗ Nat ×ₗ R) × V)
  member : List (V ×ₗ P ×ₗ Nat)

variable {P R V : Type} [LinearOrder P] [LinearOrder R] [LinearOrder V]

/-- `_check_at_priority`: the range `M[item][priority]` read with `limit=1`
is non-empty. -/
def checkAtPriority (q : PQ P R V) (item : V) (pr : P) : Bool :=
  q.member.any (fun m => decide ((ofLex m).1 = item ∧ (ofLex (ofLex m).2).1 = pr))

/-- `_get_next_count` on `self._item[priority]`: the last key of the
priority's sub-range determines the next count (`0` when the sub-range is
empty). -/
def getNextCount (it : List ((P ×ₗ Nat ×ₗ R) × V)) (pr : P) : Nat :=
  match ((it.filter (fun e => decide ((ofLex e.1).1 = pr))).map
      (fun e => (ofLex (ofLex e.1).2).1)).getLast? with
  | none => 0
  | some c => c + 1

/-- `push`: no-op when the item already sits at this priority, else write
the item row and its member index entry (`_push_at`). -/
def push (q : PQ P R V) (item : V) (pr : P) (rid : R) : PQ P R V :=
  if checkAtPriority q item pr then q
  else
    ⟨setA q.item (toLex (pr, toLex (getNextCount q.item pr, rid))) item,
     insSorted (toLex (item, toLex (pr, getNextCount q.item pr))) q.member⟩

/-- `_get_first_item`: the first (or, with `max`, last) row of `I`. -/
def getFirstItem (q : PQ P R V) (mx : Bool) : Option ((P ×ₗ Nat ×ₗ R) × V) :=
  if mx then q.item.getLast? else q.item.head?

/-- `_pop_low`: delete the first (or last) item row and its member entry,
returning the item; `None` on an empty queue. -/
def popLow (q : PQ P R V) (mx : Bool) : PQ P R V × Option V :=
  match getFirstItem q mx with
  | none => (q, none)
  | some kv =>
    (⟨delA q.item kv.1,
      remSorted (toLex (kv.2, toLex ((ofLex kv.1).1, (ofLex (ofLex kv.1).2).1)))
        q.member⟩,
     some kv.2)

/-- `clear`: range-delete the whole subspace. -/
def clear : PQ P R V := ⟨[], []⟩

/-- Queue states reachable by a single low-contention client. -/
inductive Reach : PQ P R V → Prop where
  | empty : Reach clear
  | push (q : PQ P R V) (item : V) (pr : P) (rid : R) :
      Reach q → Reach (push q item pr rid)
  | pop (q : PQ P R V) (mx : Bool) : Reach q → Reach (popLow q mx).1

theorem reach_sorted {q : PQ P R V} (h : Reach q) : SortedKeys q.item := by
  induction h with
  | empty => exact sortedKeys_nil
  | push q item pr rid hr ih =>
    unfold push
    by_cases hc : checkAtPriority q item pr = true
    · rw [if_pos hc]
      exact ih
    · rw [if_neg hc]
      exact sortedKeys_setA ih
  | pop q mx hr ih =>
    unfold popLow
    cases hfi : getFirstItem q mx with
    | none => exact ih
    | some kv => exact sortedKeys_delA ih

theorem delA_append_last {K W : Type} [LinearOrder K] {l : List (K × W)}
    {p : K × W} (h : p.1 ∉ l.map Prod.fst) :
    delA (l ++ [p]) p.1 = l := by
  induction l with
  | nil => simp [delA]
  | cons a t ih =>
    simp only [List.map_cons, List.mem_cons] at h
    push_neg at h
    rw [List.cons_append]
    show delA ((a :: (t ++ [p])) : List (K × W)) p.1 = a :: t
    unfold delA
    rw [if_neg h.1]
    rw [ih h.2]

theorem getFirstItem_false (q : PQ P R V) : getFirstItem q false = q.item.head? := by
  unfold getFirstItem
  rw [if_neg Bool.false_ne_true]

theorem getFirstItem_true (q : PQ P R V) : getFirstItem q true = q.item.getLast? := by
  unfold getFirstItem
  rw [if_pos rfl]

theorem getLast?_eq_some_append {α : Type} {l : List α} {a : α}
    (h : l.getLast? = some a) : ∃ l', l = l' ++ [a] := by
  induction l with
  | nil => cases h
  | cons b t ih =>
    cases t with
    | nil =>
      refine ⟨[], ?_⟩
      rw [List.getLast?_singleton] at h
      rw [Option.some_inj.1 h]
      rfl
    | cons c t2 =>
      rw [List.getLast?_cons_cons] at h
      obtain ⟨l', hl⟩ := ih h
      exact ⟨b :: l', by rw [hl, List.cons_append]⟩

theorem getLast?_none_iff {α : Type} {l : List α} : l.getLast? = none ↔ l = [] := by
  induction l with
  | nil => simp
  | cons a t ih =>
    cases t with
    | nil => simp [List.getLast?_singleton]
    | cons c t2 =>
      rw [List.getLast?_cons_cons]
      simp [ih]

theorem lex_le_fst_le {α β : Type} [LinearOrder α] [LinearOrder β]
    {x y : α ×ₗ β} (h : x ≤ y) : (ofLex x).1 ≤ (ofLex y).1 := by
  have h' : toLex (ofLex x) ≤ toLex (ofLex y) := by simpa using h
  rcases (Prod.Lex.le_iff _ _).1 h' with hlt | ⟨heq, -⟩
  · exact le_of_lt hlt
  · exact le_of_eq heq

theorem push_checked {q : PQ P R V} {item : V} {pr : P}
    (hc : checkAtPriority q item pr = true) (rid : R) : push q item pr rid = q := by
  unfold push
  rw [if_pos hc]

section Claims

/-- Claim C7: in low-contention mode, popping an empty queue returns `None`
(and `None` is only returned on the empty queue), and on any queue reachable
by a single client the keys of two successive pops are ordered: with
`max=false` the second popped priority is at least the first, with
`max=true` at most. -/
theorem claim_C7_poplow_order {P R V : Type} [LinearOrder P] [LinearOrder R]
    [LinearOrder V] {q : PQ P R V} (h : Reach q) (mx : Bool) :
    ((popLow q mx).2 = none ↔ q.item = [])
    ∧ (∀ (k1 k2 : P ×ₗ Nat ×ₗ R) (v1 v2 : V),
        getFirstItem q mx = some (k1, v1) →
        getFirstItem (popLow q mx).1 mx = some (k2, v2) →
        ((mx = false → (ofLex k1).1 ≤ (ofLex k2).1)
          ∧ (mx = true → (ofLex k2).1 ≤ (ofLex k1).1))) := by
  have hs := reach_sorted h
  cases mx with
  | false =>
    constructor
    · unfold popLow
      rw [getFirstItem_false]
      cases hq : q.item with
      | nil => simp
      | cons a t => simp
    · intro k1 k2 v1 v2 h1 h2
      refine ⟨fun _ => ?_, fun hc => by cases hc⟩
      rw [getFirstItem_false] at h1
      cases hq : q.item with
      | nil =>
        rw [hq] at h1
        cases h1
      | cons a t =>
        rw [hq, List.head?_cons] at h1
        have ha : a = (k1, v1) := Option.some_inj.1 h1
        subst ha
        have hpop : (popLow q false).1.item = t := by
          unfold popLow
          rw [getFirstItem_false, hq, List.head?_cons]
          show delA ((k1, v1) :: t) k1 = t
          unfold delA
          rw [if_pos rfl]
        rw [getFirstItem_false, hpop] at h2
        rw [hq, sortedKeys_cons] at hs
        have hk2t : (k2, v2) ∈ t := RankedSet.head?_mem h2
        exact lex_le_fst_le (le_of_lt (hs.1 (k2, v2) hk2t))
  | true =>
    constructor
    · unfold popLow
      rw [getFirstItem_true]
      cases hql : q.item.getLast? with
      | none =>
        constructor
        · intro _
          exact getLast?_none_iff.1 hql
        · intro _
          rfl
      | some kv =>
        constructor
        · intro hc
          simp at hc
        · intro hc
          rw [hc] at hql
          cases hql
    · intro k1 k2 v1 v2 h1 h2
      refine ⟨fun hc => (by cases hc), fun _ => ?_⟩
      rw [getFirstItem_true] at h1
      obtain ⟨init, hinit⟩ := getLast?_eq_some_append h1
      have hnotin : (k1, v1).1 ∉ init.map Prod.fst := by
        intro hcmem
        rw [hinit] at hs
        unfold SortedKeys at hs
        rw [List.map_append] at hs
        simp only [List.map_cons, List.map_nil] at hs
        have hs' := List.pairwise_append.1 hs
        exact absurd (hs'.2.2 k1 hcmem k1 (by simp)) (lt_irrefl k1)
      have hpop : (popLow q true).1.item = init := by
        unfold popLow
        rw [getFirstItem_true, h1]
        show delA q.item (k1, v1).1 = init
        rw [hinit]
        exact delA_append_last hnotin
      rw [getFirstItem_true, hpop] at h2
      obtain ⟨init2, hinit2⟩ := getLast?_eq_some_append h2
      have hk2init : (k2, v2) ∈ init := by
        rw [hinit2]
        simp
      have hlt : k2 < k1 := by
        rw [hinit] at hs
        unfold SortedKeys at hs
        rw [List.map_append] at hs
        simp only [List.map_cons, List.map_nil] at hs
        have hs' := List.pairwise_append.1 hs
        exact hs'.2.2 k2 (List.mem_map.2 ⟨(k2, v2), hk2init, rfl⟩) k1 (by simp)
      exact lex_le_fst_le (le_of_lt hlt)

theorem claim_C7_poplow_order_witness :
    ((popLow (push (clear : PQ Nat Nat Nat) 10 10 0) false).2 = none
        ↔ (push (clear : PQ Nat Nat Nat) 10 10 0).item = [])
      ∧ (∀ (k1 k2 : Nat ×ₗ Nat ×ₗ Nat) (v1 v2 : Nat),
          getFirstItem (push (clear : PQ Nat Nat Nat) 10 10 0) false = some (k1, v1) →
          getFirstItem (popLow (push (clear : PQ Nat Nat Nat) 10 10 0) false).1 false
            = some (k2, v2) →
          ((false = false → (ofLex k1).1 ≤ (ofLex k2).1)
            ∧ (false = true → (ofLex k2).1 ≤ (ofLex k1).1))) :=
  claim_C7_poplow_order (Reach.push _ 10 10 0 Reach.empty) false

/-- Claim C9: `push` is a no-op when the item already has an entry at that
priority, so pushing the same item twice at one priority equals pushing it
once. -/
theorem claim_C9_push_idempotent {P R V : Type} [LinearOrder P] [LinearOrder R]
    [LinearOrder V] (q : PQ P R V) (item : V) (pr : P) (rid rid' : R) :
    (checkAtPriority q item pr = true → push q item pr rid = q)
    ∧ push (push q item pr rid) item pr rid' = push q item pr rid := by
  refine ⟨fun hc => push_checked hc rid, ?_⟩
  by_cases hc : checkAtPriority q item pr = true
  · rw [push_checked hc rid, push_checked hc rid']
  · have h1 : push q item pr rid
        = ⟨setA q.item (toLex (pr, toLex (getNextCount q.item pr, rid))) item,
           insSorted (toLex (item, toLex (pr, getNextCount q.item pr))) q.member⟩ := by
      unfold push
      rw [if_neg hc]
    have hc2 : checkAtPriority (push q item pr rid) item pr = true := by
      rw [h1]
      unfold checkAtPriority
      rw [List.any_eq_true]
      refine ⟨toLex (item, toLex (pr, getNextCount q.item pr)),
        mem_insSorted.2 (Or.inl rfl), ?_⟩
      simp
    exact push_checked hc2 rid'

theorem claim_C9_push_idempotent_witness :
    (checkAtPriority (clear : PQ Nat Nat Nat) 7 3 = true
        → push (clear : PQ Nat Nat Nat) 7 3 0 = clear)
      ∧ push (push (clear : PQ Nat Nat Nat) 7 3 0) 7 3 1
          = push (clear : PQ Nat Nat Nat) 7 3 0 :=
  claim_C9_push_idempotent clear 7 3 0 1

end Claims

end PriorityQueue

/-! ## StringIntern (src/fdb_layers/stringintern.py)

The in-process cache of the interning layer: `_cached_uids` together with
the two dictionaries holds a set of `(string, uid)` pairs (byte strings,
modelled as `List Nat`), and `_bytes_cached` counts
`(len(s) + len(uid)) * 2` per pair.  `_evict_cache` picks a random index,
swaps the last entry into its slot and pops; the random choice is an oracle
argument, as is the iteration-indexed choice for the eviction loop of
`_add_to_cache`. -/

namespace StringIntern

/-- `CACHE_LIMIT_BYTES = 10000000`. -/
def CACHE_LIMIT_BYTES : Int := 10000000

/-- The bytes accounted for one cached pair: `(len(s) + len(u)) * 2`. -/
def entryBytes (e : List Nat × List Nat) : Int := (e.1.length + e.2.length) * 2

/-- In-process cache state. -/
structure Cache where
  entries : List (List Nat × List Nat)
  bytes : Int

/-- `_evict_cache` with the random index `i`: swap the last entry into slot
`i`, pop the last slot, subtract the evicted entry's bytes.  (An
out-of-range index cannot occur in the source, which draws
`randint(0, len - 1)` and raises before that on an empty cache.) -/
def evict_cache (c : Cache) (i : Nat) : Cache :=
  match c.entries[i]? with
  | none => c
  | some e =>
    ⟨(c.entries.set i (c.entries.getLastD e)).dropLast,
     c.bytes - entryBytes e⟩

/-- The `while self._bytes_cached > CACHE_LIMIT_BYTES` eviction loop of
`_add_to_cache`; one oracle index per iteration, fuelled by the cache size
(each eviction shrinks the cache, and an empty cache holds zero bytes). -/
def evictLoop : Nat → (Nat → Nat) → Cache → Cache
  | 0, _, c => c
  | n + 1, pick, c =>
    if c.bytes > CACHE_LIMIT_BYTES then evictLoop n pick (evict_cache c (pick n))
    else c

/-- `_add_to_cache`: evict while over the cap, then add the pair unless the
uid is already cached, accounting `(len(s) + len(u)) * 2` bytes. -/
def add_to_cache (c : Cache) (pick : Nat → Nat) (s u : List Nat) : Cache :=
  let c1 := evictLoop c.entries.length pick c
  if u ∈ c1.entries.map Prod.snd then c1
  else ⟨c1.entries ++ [(s, u)], c1.bytes + entryBytes (s, u)⟩

/-- Cache states reachable from the fresh (empty) cache by `_add_to_cache`
calls with arbitrary strings, uids and eviction choices. -/
inductive CReach : Cache → Prop where
  | init : CReach ⟨[], 0⟩
  | add (c : Cache) (pick : Nat → Nat) (s u : List Nat) :
      CReach c → CReach (add_to_cache c pick s u)

theorem getLastD_map {α β : Type} (f : α → β) (l : List α) :
    ∀ d : α, f (l.getLastD d) = (l.map f).getLastD (f d) := by
  induction l with
  | nil =>
    intro d
    rfl
  | cons a t ih =>
    intro d
    rw [List.getLastD_cons, List.map_cons, List.getLastD_cons, ih]

theorem getLastD_ne_nil {α : Type} {l : List α} (h : l ≠ []) (d d' : α) :
    l.getLastD d = l.getLastD d' := by
  cases l with
  | nil => exact absurd rfl h
  | cons a t => rw [List.getLastD_cons, List.getLastD_cons]

theorem sum_dropLast (L : List Int) :
    ∀ d : Int, L ≠ [] → L.dropLast.sum = L.sum - L.getLastD d := by
  induction L with
  | nil =>
    intro d h
    exact absurd rfl h
  | cons a t ih =>
    intro d _
    cases t with
    | nil => simp
    | cons b t2 =>
      rw [List.dropLast_cons₂, List.getLastD_cons, List.sum_cons, List.sum_cons,
        ih a (by simp)]
      ring

theorem sum_swap_pop (L : List Int) :
    ∀ (i : Nat) (x : Int), L[i]? = some x →
      ((L.set i (L.getLastD x)).dropLast).sum = L.sum - x := by
  induction L with
  | nil =>
    intro i x hx
    cases hx
  | cons a t ih =>
    intro i x hx
    cases i with
    | zero =>
      rw [List.getElem?_cons_zero, Option.some_inj] at hx
      subst hx
      cases t with
      | nil => simp
      | cons b t2 =>
        rw [List.getLastD_cons, List.set_cons_zero, List.dropLast_cons₂,
          List.sum_cons, sum_dropLast (b :: t2) a (by simp)]
        simp only [List.sum_cons]
        ring
    | succ j =>
      rw [List.getElem?_cons_succ] at hx
      have htne : t ≠ [] := by
        intro hc
        rw [hc] at hx
        cases hx
      rw [List.getLastD_cons, List.set_cons_succ]
      have hset_ne : t.set j (t.getLastD a) ≠ [] := by
        intro hc
        have := congrArg List.length hc
        rw [List.length_set] at this
        exact htne (List.length_eq_zero.1 this)
      rw [List.dropLast_cons_of_ne_nil hset_ne, List.sum_cons,
        getLastD_ne_nil htne a x, ih j x hx, List.sum_cons]
      ring

theorem evict_bytes {c : Cache}
    (hb : c.bytes = (c.entries.map entryBytes).sum) (i : Nat) :
    (evict_cache c i).bytes = ((evict_cache c i).entries.map entryBytes).sum := by
  unfold evict_cache
  cases hi : c.entries[i]? with
  | none => exact hb
  | some e =>
    show c.bytes - entryBytes e
      = (((c.entries.set i (c.entries.getLastD e)).dropLast).map entryBytes).sum
    rw [List.map_dropLast, List.map_set, getLastD_map entryBytes c.entries e]
    have hx : (c.entries.map entryBytes)[i]? = some (entryBytes e) := by
      rw [List.getElem?_map, hi]
      rfl
    rw [sum_swap_pop (c.entries.map entryBytes) i (entryBytes e) hx, hb]

theorem evictLoop_bytes (n : Nat) :
    ∀ (pick : Nat → Nat) (c : Cache),
      c.bytes = (c.entries.map entryBytes).sum →
      (evictLoop n pick c).bytes
        = ((evictLoop n pick c).entries.map entryBytes).sum := by
  induction n with
  | zero =>
    intro pick c hb
    exact hb
  | succ n ih =>
    intro pick c hb
    unfold evictLoop
    by_cases hgt : c.bytes > CACHE_LIMIT_BYTES
    · rw [if_pos hgt]
      exact ih pick _ (evict_bytes hb (pick n))
    · rw [if_neg hgt]
      exact hb

theorem add_to_cache_bytes {c : Cache}
    (hb : c.bytes = (c.entries.map entryBytes).sum) (pick : Nat → Nat)
    (s u : List Nat) :
    (add_to_cache c pick s u).bytes
      = ((add_to_cache c pick s u).entries.map entryBytes).sum := by
  unfold add_to_cache
  have h1 := evictLoop_bytes c.entries.length pick c hb
  by_cases hc : u ∈ (evictLoop c.entries.length pick c).entries.map Prod.snd
  · rw [if_pos hc]
    exact h1
  · rw [if_neg hc]
    show (evictLoop c.entries.length pick c).bytes + entryBytes (s, u)
      = (((evictLoop c.entries.length pick c).entries ++ [(s, u)]).map entryBytes).sum
    rw [List.map_append, List.sum_append, h1]
    simp

section Claims

/-- Claim C6 (corrected): the in-process cache cap `CACHE_LIMIT_BYTES` is
10,000,000 bytes — not 10,485,760 as a literal 10 MB would be — and the byte
counter of every reachable cache state equals the sum over cached entries of
`(len(s) + len(uid)) * 2`. -/
theorem claim_C6_cache_limit {c : Cache} (h : CReach c) :
    CACHE_LIMIT_BYTES = 10000000
      ∧ c.bytes = (c.entries.map entryBytes).sum := by
  refine ⟨rfl, ?_⟩
  induction h with
  | init => rfl
  | add c pick s u hr ih => exact add_to_cache_bytes ih pick s u

theorem claim_C6_cache_limit_witness :
    CReach (add_to_cache ⟨[], 0⟩ (fun _ => 0) [1, 2, 3] [7])
      ∧ (CACHE_LIMIT_BYTES = 10000000
          ∧ (add_to_cache ⟨[], 0⟩ (fun _ => 0) [1, 2, 3] [7]).bytes
              = ((add_to_cache ⟨[], 0⟩ (fun _ => 0) [1, 2, 3] [7]).entries.map
                  entryBytes).sum) :=
  ⟨CReach.add _ _ _ _ CReach.init,
   claim_C6_cache_limit (CReach.add _ _ _ _ CReach.init)⟩

/-- The literal figure claimed for the cap, 10,485,760 bytes, differs from
the constant in the source, which is 10,000,000 — strictly below it. -/
theorem claim_C6_cache_limit_counterexample :
    CACHE_LIMIT_BYTES = 10000000 ∧ CACHE_LIMIT_BYTES < 10485760 := by
  constructor
  · rfl
  · decide

end Claims

end StringIntern

/-! ## DirectoryLayer (src/lib/directory.py)

The directory tree: a version triple at `root_node['version']` and, per
directory, a node keyed by its path holding the allocated prefix and the
optional layer tag.  Path components are abstract names (`Nat`), prefixes
and layer tags byte strings (`List Nat`).  A `raise` aborts the transaction,
so every error outcome returns the original state.  The high-contention
allocator is an oracle `alloc : path → prefix`.  A hit on a partition node
re-enters `create_or_open` on the partition's own directory layer — a
different state namespace — which is modelled as the explicit
`partitionForward` outcome rather than by recursion. -/

namespace Dir

/-- `DirectoryLayer.VERSION = (1, 0, 0)`. -/
def VERSION : Nat × Nat × Nat := (1, 0, 0)

/-- The byte string `'partition'` (any fixed non-empty tag works for the
comparisons the source performs). -/
def partitionTag : List Nat := [112]

inductive DirError where
  | cannotLoad
  | readOnly
  | rootNotOpenable
  | alreadyExists
  | incompatibleLayer
  | doesNotExist
  | prefixInUse
  | parentPartition
deriving DecidableEq

/-- One directory node: its path, its allocated physical prefix, and the
optional layer tag. -/
structure DirNode where
  path : List Nat
  pfx : List Nat
  layer : Option (List Nat)
deriving DecidableEq

/-- Directory-layer state: the stored version triple (absent on a fresh
database) and the directory nodes. -/
structure DirState where
  version : Option (Nat × Nat × Nat)
  nodes : List DirNode
deriving DecidableEq

/-- `_check_version`: absent version is initialized under write access;
a stored major version ahead of ours always fails; a stored minor version
ahead fails only under write access. -/
def checkVersion (st : DirState) (write : Bool) : Except DirError DirState :=
  match st.version with
  | none => if write then Except.ok ⟨some VERSION, st.nodes⟩ else Except.ok st
  | some v =>
    if v.1 > VERSION.1 then Except.error DirError.cannotLoad
    else if v.2.1 > VERSION.2.1 ∧ write = true then Except.error DirError.readOnly
    else Except.ok st

def findNode (st : DirState) (path : List Nat) : Option DirNode :=
  st.nodes.find? (fun n => n.path == path)

/-- Result of the `_find` walk combined with `is_in_partition`. -/
inductive FindRes where
  | missing
  | found (n : DirNode)
  | partitionAt (n : DirNode) (subpath : List Nat)
deriving DecidableEq

/-- The first depth at which the `_find` walk stops early: a missing node or
a partition node. -/
def firstStop (st : DirState) (path : List Nat) : Option Nat :=
  (List.range path.length).find? (fun i =>
    match findNode st (path.take (i + 1)) with
    | none => true
    | some n => n.layer == some partitionTag)

/-- `_find` plus the `exists` / `is_in_partition` dispatch of
`create_or_open`: a partition node strictly above the target forwards into
the partition; a partition node at the target itself is an ordinary hit. -/
def findResult (st : DirState) (path : List Nat) : FindRes :=
  match firstStop st path with
  | none =>
    match findNode st path with
    | some n => FindRes.found n
    | none => FindRes.missing
  | some i =>
    match findNode st (path.take (i + 1)) with
    | none => FindRes.missing
    | some n =>
      if i + 1 = path.length then FindRes.found n
      else FindRes.partitionAt n (path.drop (i + 1))

/-- Python truthiness of the `layer` argument: `None` and `''` are falsy. -/
def layerTruthy : Option (List Nat) → Option (List Nat)
  | none => none
  | some l => if l = [] then none else some l

/-- `if layer and existing_node.layer() != layer`. -/
def layerConflict (layer : Option (List Nat)) (stored : Option (List Nat)) : Bool :=
  match layerTruthy layer with
  | none => false
  | some l => decide (stored ≠ some l)

/-- `_is_prefix_free`: non-empty, contains no allocated prefix and is
contained in none. -/
def isPrefixFree (st : DirState) (pfx : List Nat) : Bool :=
  decide (pfx ≠ []) && st.nodes.all
    (fun n => decide (¬ n.pfx <+: pfx) && decide (¬ pfx <+: n.pfx))

/-- Outcome of `create_or_open`. -/
inductive CORes where
  | ok (pfx : List Nat) (layer : Option (List Nat))
  | partitionForward (n : DirNode) (subpath : List Nat)
  | err (e : DirError)
deriving DecidableEq

/-- The body of `create_or_open`, with the recursive call on the parent path
abstracted as `rec`.  The entry version check is read-only; the write-access
check runs only on the create path.  Errors abort the transaction, returning
the original state. -/
def createOrOpenStep (alloc : List Nat → List Nat)
    (rec : DirState → List Nat → Option (List Nat) → Option (List Nat) → Bool → Bool
      → DirState × CORes)
    (st : DirState) (path : List Nat) (layer pfx? : Option (List Nat))
    (allow_create allow_open : Bool) : DirState × CORes :=
  match checkVersion st false with
  | Except.error e => (st, CORes.err e)
  | Except.ok _ =>
    if path = [] then (st, CORes.err DirError.rootNotOpenable)
    else
      match findResult st path with
      | FindRes.partitionAt n sub => (st, CORes.partitionForward n sub)
      | FindRes.found n =>
        if allow_open = false then (st, CORes.err DirError.alreadyExists)
        else if layerConflict layer n.layer then (st, CORes.err DirError.incompatibleLayer)
        else (st, CORes.ok n.pfx n.layer)
      | FindRes.missing =>
        if allow_create = false then (st, CORes.err DirError.doesNotExist)
        else
          match checkVersion st true with
          | Except.error e => (st, CORes.err e)
          | Except.ok st1 =>
            let pfx := match pfx? with
                       | some p => p
                       | none => alloc path
            if isPrefixFree st1 pfx = false then (st, CORes.err DirError.prefixInUse)
            else if path.dropLast = [] then
              (⟨st1.version, st1.nodes ++ [⟨path, pfx, layerTruthy layer⟩]⟩,
               CORes.ok pfx (layerTruthy layer))
            else
              match rec st1 path.dropLast none none true true with
              | (_, CORes.err e) => (st, CORes.err e)
              | (_, CORes.partitionForward _ _) => (st, CORes.err DirError.parentPartition)
              | (st2, CORes.ok _ _) =>
                (⟨st2.version, st2.nodes ++ [⟨path, pfx, layerTruthy layer⟩]⟩,
                 CORes.ok pfx (layerTruthy layer))

/-- The parent recursion, structurally bounded by `fuel`; the wrapper passes
the path length, and the recursive call shortens the path by one, so the
zero-fuel fallback is unreachable. -/
def createOrOpenAux (alloc : List Nat → List Nat) : Nat →
    DirState → List Nat → Option (List Nat) → Option (List Nat) → Bool → Bool
      → DirState × CORes
  | 0 => createOrOpenStep alloc
      (fun st _ _ _ _ _ => (st, CORes.err DirError.rootNotOpenable))
  | fuel + 1 => createOrOpenStep alloc (createOrOpenAux alloc fuel)

/-- `create_or_open`. -/
def createOrOpen (alloc : List Nat → List Nat) (st : DirState) (path : List Nat)
    (layer pfx? : Option (List Nat)) (allow_create allow_open : Bool) :
    DirState × CORes :=
  createOrOpenAux alloc path.length st path layer pfx? allow_create allow_open

theorem createOrOpen_eq_step (alloc : List Nat → List Nat) (st : DirState)
    (path : List Nat) (layer pfx? : Option (List Nat)) (ac ao : Bool) :
    ∃ rec, createOrOpen alloc st path layer pfx? ac ao
      = createOrOpenStep alloc rec st path layer pfx? ac ao := by
  unfold createOrOpen
  cases path.length with
  | zero => exact ⟨_, rfl⟩
  | succ n => exact ⟨_, rfl⟩

section Claims

/-- Claim C4 (corrected): `create_or_open` always begins with a read-only
version check, whose failures abort; opening an existing directory performs
no write-access check — even with `allow_create = true` and a stored minor
version ahead, it succeeds and leaves the state (version field included)
unchanged; the write-access check runs exactly on the create path, where its
errors abort, an absent version field is initialized to `VERSION`, and with
`allow_create = false` the call fails read-only. -/
theorem claim_C4_version_check_gating (alloc : List Nat → List Nat)
    (st : Dir.DirState) (path : List Nat) (layer pfx? : Option (List Nat))
    (ac ao : Bool) :
    (∀ e, Dir.checkVersion st false = Except.error e →
        Dir.createOrOpen alloc st path layer pfx? ac ao = (st, Dir.CORes.err e))
    ∧ (∀ n, Dir.checkVersion st false = Except.ok st → path ≠ [] →
        Dir.findResult st path = Dir.FindRes.found n →
        Dir.layerConflict layer n.layer = false →
        Dir.createOrOpen alloc st path layer pfx? ac true
          = (st, Dir.CORes.ok n.pfx n.layer))
    ∧ (∀ e, Dir.checkVersion st false = Except.ok st → path ≠ [] →
        Dir.findResult st path = Dir.FindRes.missing →
        Dir.checkVersion st true = Except.error e →
        Dir.createOrOpen alloc st path layer pfx? true ao = (st, Dir.CORes.err e))
    ∧ (st.version = none → path ≠ [] → path.dropLast = [] →
        Dir.findResult st path = Dir.FindRes.missing →
        Dir.isPrefixFree ⟨some Dir.VERSION, st.nodes⟩ (pfx?.getD (alloc path)) = true →
        Dir.createOrOpen alloc st path layer pfx? true ao
          = (⟨some Dir.VERSION,
              st.nodes ++ [⟨path, pfx?.getD (alloc path), Dir.layerTruthy layer⟩]⟩,
             Dir.CORes.ok (pfx?.getD (alloc path)) (Dir.layerTruthy layer)))
    ∧ (Dir.checkVersion st false = Except.ok st → path ≠ [] →
        Dir.findResult st path = Dir.FindRes.missing →
        Dir.createOrOpen alloc st path layer pfx? false ao
          = (st, Dir.CORes.err Dir.DirError.doesNotExist)) := by
  refine ⟨?_, ?_, ?_, ?_, ?_⟩
  · intro e he
    obtain ⟨rec, hrw⟩ := Dir.createOrOpen_eq_step alloc st path layer pfx? ac ao
    rw [hrw]
    unfold Dir.createOrOpenStep
    rw [he]
  · intro n hok hpath hfind hlc
    obtain ⟨rec, hrw⟩ := Dir.createOrOpen_eq_step alloc st path layer pfx? ac true
    rw [hrw]
    unfold Dir.createOrOpenStep
    rw [hok, if_neg hpath, hfind]
    show (if true = false then _
          else if Dir.layerConflict layer n.layer = true then _
          else (st, Dir.CORes.ok n.pfx n.layer)) = (st, Dir.CORes.ok n.pfx n.layer)
    rw [if_neg (by simp), if_neg (by rw [hlc]; simp)]
  · intro e hok hpath hfind hwr
    obtain ⟨rec, hrw⟩ := Dir.createOrOpen_eq_step alloc st path layer pfx? true ao
    rw [hrw]
    unfold Dir.createOrOpenStep
    rw [hok, if_neg hpath, hfind]
    show (if true = false then _ else
          match Dir.checkVersion st true with
          | Except.error e => (st, Dir.CORes.err e)
          | Except.ok st1 => _) = (st, Dir.CORes.err e)
    rw [if_neg (by simp), hwr]
  · intro hver hpath hsingle hfind hfree
    have hok : Dir.checkVersion st false = Except.ok st := by
      unfold Dir.checkVersion
      rw [hver]
      rfl
    have hwr : Dir.checkVersion st true = Except.ok ⟨some Dir.VERSION, st.nodes⟩ := by
      unfold Dir.checkVersion
      rw [hver]
      rfl
    obtain ⟨rec, hrw⟩ := Dir.createOrOpen_eq_step alloc st path layer pfx? true ao
    rw [hrw]
    unfold Dir.createOrOpenStep
    rw [hok, if_neg hpath, hfind]
    show (if true = false then _ else
          match Dir.checkVersion st true with
          | Except.error e => (st, Dir.CORes.err e)
          | Except.ok st1 => _) = _
    rw [if_neg (by simp), hwr]
    cases pfx? with
    | some p =>
      simp only [Option.getD_some] at hfree ⊢
      show (if Dir.isPrefixFree ⟨some Dir.VERSION, st.nodes⟩ p = false
            then _ else _) = _
      rw [hfree, if_neg (by simp), if_pos hsingle]
    | none =>
      simp only [Option.getD_none] at hfree ⊢
      show (if Dir.isPrefixFree ⟨some Dir.VERSION, st.nodes⟩ (alloc path) = false
            then _ else _) = _
      rw [hfree, if_neg (by simp), if_pos hsingle]
  · intro hok hpath hfind
    obtain ⟨rec, hrw⟩ := Dir.createOrOpen_eq_step alloc st path layer pfx? false ao
    rw [hrw]
    unfold Dir.createOrOpenStep
    rw [hok, if_neg hpath, hfind]
    rw [if_pos rfl]

theorem claim_C4_version_check_gating_witness :
    (∀ e, Dir.checkVersion ⟨some (2, 0, 0), []⟩ false = Except.error e →
        Dir.createOrOpen (fun _ => [9]) ⟨some (2, 0, 0), []⟩ [1] none none true true
          = (⟨some (2, 0, 0), []⟩, Dir.CORes.err e))
    ∧ (∀ n, Dir.checkVersion ⟨some (2, 0, 0), []⟩ false = Except.ok ⟨some (2, 0, 0), []⟩
          → [1] ≠ [] →
        Dir.findResult ⟨some (2, 0, 0), []⟩ [1] = Dir.FindRes.found n →
        Dir.layerConflict none n.layer = false →
        Dir.createOrOpen (fun _ => [9]) ⟨some (2, 0, 0), []⟩ [1] none none true true
          = (⟨some (2, 0, 0), []⟩, Dir.CORes.ok n.pfx n.layer))
    ∧ (∀ e, Dir.checkVersion ⟨some (2, 0, 0), []⟩ false = Except.ok ⟨some (2, 0, 0), []⟩
          → [1] ≠ [] →
        Dir.findResult ⟨some (2, 0, 0), []⟩ [1] = Dir.FindRes.missing →
        Dir.checkVersion ⟨some (2, 0, 0), []⟩ true = Except.error e →
        Dir.createOrOpen (fun _ => [9]) ⟨some (2, 0, 0), []⟩ [1] none none true true
          = (⟨some (2, 0, 0), []⟩, Dir.CORes.err e))
    ∧ ((⟨some (2, 0, 0), []⟩ : Dir.DirState).version = none → [1] ≠ [] →
        List.dropLast [1] = [] →
        Dir.findResult ⟨some (2, 0, 0), []⟩ [1] = Dir.FindRes.missing →
        Dir.isPrefixFree ⟨some Dir.VERSION, []⟩ ((none : Option (List Nat)).getD [9])
          = true →
        Dir.createOrOpen (fun _ => [9]) ⟨some (2, 0, 0), []⟩ [1] none none true true
          = (⟨some Dir.VERSION,
              [] ++ [⟨[1], (none : Option (List Nat)).getD [9], Dir.layerTruthy none⟩]⟩,
             Dir.CORes.ok ((none : Option (List Nat)).getD [9]) (Dir.layerTruthy none)))
    ∧ (Dir.checkVersion ⟨some (2, 0, 0), []⟩ false = Except.ok ⟨some (2, 0, 0), []⟩
          → [1] ≠ [] →
        Dir.findResult ⟨some (2, 0, 0), []⟩ [1] = Dir.FindRes.missing →
        Dir.createOrOpen (fun _ => [9]) ⟨some (2, 0, 0), []⟩ [1] none none false true
          = (⟨some (2, 0, 0), []⟩, Dir.CORes.err Dir.DirError.doesNotExist)) :=
  claim_C4_version_check_gating (fun _ => [9]) ⟨some (2, 0, 0), []⟩ [1] none none true true

/-- The original claim is false of the code: with a stored version `(1,1,0)`
(minor ahead, so any write-access check raises the read-only error) and an
existing directory at the target path, `create_or_open` with
`allow_create = true` succeeds without error and without writing — no
write-access version check is performed on the open path. -/
theorem claim_C4_counterexample :
    Dir.checkVersion ⟨some (1, 1, 0), [⟨[1], [7], none⟩]⟩ true
        = Except.error Dir.DirError.readOnly
      ∧ Dir.createOrOpen (fun _ => [9]) ⟨some (1, 1, 0), [⟨[1], [7], none⟩]⟩ [1]
          none none true true
        = (⟨some (1, 1, 0), [⟨[1], [7], none⟩]⟩, Dir.CORes.ok [7] none) := by
  constructor
  · rfl
  · rfl

end Claims

end Dir

end PyLayers
